import Mathlib

/-!
# pulse-go: layer extraction, DNS injection and container networking

A shallow embedding of `internals/extract.go`, `internals/extractTar.go` and the
parts of `internals/container.go` that the checked properties talk about.

## The filesystem model

The Go code talks to the operating system through `os.Stat`, `os.RemoveAll`,
`os.MkdirAll`, `os.ReadFile`, `os.Create`, `io.Copy`, `os.Chmod` and `os.Symlink`.
The model is a tree of nodes indexed by their real location. Path resolution
follows symbolic links the way the kernel does (a link met before the last
component is always followed, the last component only when the call follows
links). There are no owners and no access checks: a call fails only for a
structural reason (`ENOENT`, `ENOTDIR`, `EEXIST`, `EISDIR`, `ELOOP`).

The decoders of `encoding/json`, `compress/gzip` and `archive/tar` are taken
as given functions (`Env`); a layer blob is decoded as it is when `extractTar`
opens it. `RunContainer` and `ConfigureContainerNetwork` are modelled by the
list of what they do, with the outcome of every command and of the child
process supplied by the host (`Host`, `Runner`).
-/

namespace Pulse

/-- An absolute location: the components below the root directory. -/
abbrev Path := List String

/-- The error numbers the modelled system calls can return. -/
inductive Errno
  | ENOENT
  | ENOTDIR
  | ELOOP
  | EEXIST
  | EISDIR
  | EIO
  deriving DecidableEq, Repr

/-- A directory entry. Modes are the nine permission bits. -/
inductive Node
  | dir (mode : Nat)
  | file (data : String) (mode : Nat)
  | link (target : String)
  deriving DecidableEq, Repr

/-- A filesystem state: the node stored at each real location. -/
abbrev FS := Path → Option Node

/-- The node at a location; the root is always a directory. -/
def nodeAt (fs : FS) (p : Path) : Option Node :=
  if p = [] then some (Node.dir 0o755) else fs p

/-- Whether a node is a directory. -/
def Node.isDir : Node → Bool
  | Node.dir _ => true
  | _ => false

/-- Whether the location holds a directory. -/
def isDirAt (fs : FS) (p : Path) : Bool :=
  match nodeAt fs p with
  | some n => n.isDir
  | none => false

/-- Cut a character list at every slash. -/
def splitSlashAux : List Char → List Char → List String
  | [], acc => [String.mk acc.reverse]
  | c :: cs, acc =>
    if c = '/' then String.mk acc.reverse :: splitSlashAux cs []
    else splitSlashAux cs (c :: acc)

/-- The slash-separated components of a string (empty ones included). -/
def splitSlash (s : String) : List String := splitSlashAux s.data []

/-- Lexical cleaning of components appended to an absolute clean path, as
`filepath.Clean` does: empty and `.` components vanish, `..` drops the last
component (and is dropped at the root). -/
def cleanInto : Path → List String → Path
  | cur, [] => cur
  | cur, c :: rest =>
    if c = "" ∨ c = "." then cleanInto cur rest
    else if c = ".." then cleanInto cur.dropLast rest
    else cleanInto (cur ++ [c]) rest

/-- The Go call `filepath.Join(base, elem)` for an absolute clean `base`. -/
def joinPath (base : Path) (elem : String) : Path :=
  cleanInto base (splitSlash elem)

/-- Whether a link target is absolute. -/
def isAbsTarget (t : String) : Bool :=
  match t.data with
  | c :: _ => c = '/'
  | [] => false

/-- Kernel path walk from the directory `cur` over the components `comps`.
`follow` tells whether a symbolic link in the last component is followed.
The result is the real location the path names: an existing node, or a
missing last component inside an existing directory. `gas` bounds the number
of steps; running out of it is reported as `ELOOP`. -/
def walk (fs : FS) (follow : Bool) : Nat → Path → List String → Except Errno Path
  | _, cur, [] => Except.ok cur
  | 0, _, _ :: _ => Except.error Errno.ELOOP
  | gas + 1, cur, c :: rest =>
    if c = "" ∨ c = "." then walk fs follow gas cur rest
    else if c = ".." then walk fs follow gas cur.dropLast rest
    else
      match fs (cur ++ [c]) with
      | none => if rest = [] then Except.ok (cur ++ [c]) else Except.error Errno.ENOENT
      | some (Node.dir _) => walk fs follow gas (cur ++ [c]) rest
      | some (Node.file _ _) =>
        if rest = [] then Except.ok (cur ++ [c]) else Except.error Errno.ENOTDIR
      | some (Node.link t) =>
        if rest = [] ∧ follow = false then Except.ok (cur ++ [c])
        else if t = "" then Except.error Errno.ENOENT
        else walk fs follow gas (if isAbsTarget t then [] else cur) (splitSlash t ++ rest)

/-- The step budget of one path resolution. -/
def walkGas : Nat := 4096

/-- Resolve an absolute path given by its components. -/
def resolve (fs : FS) (follow : Bool) (p : Path) : Except Errno Path :=
  walk fs follow walkGas [] p

/-- The Go call `os.Lstat`: the node the path names, links not followed. -/
def lstat (fs : FS) (p : Path) : Except Errno Node :=
  match resolve fs false p with
  | Except.error e => Except.error e
  | Except.ok loc =>
    match nodeAt fs loc with
    | none => Except.error Errno.ENOENT
    | some n => Except.ok n

/-- The Go call `os.Stat`: the node the path names, links followed. -/
def stat (fs : FS) (p : Path) : Except Errno Node :=
  match resolve fs true p with
  | Except.error e => Except.error e
  | Except.ok loc =>
    match nodeAt fs loc with
    | none => Except.error Errno.ENOENT
    | some n => Except.ok n

deriving instance DecidableEq for Except

/-- Whether a result is a success. -/
def isOk {ε α : Type} : Except ε α → Bool
  | Except.ok _ => true
  | Except.error _ => false

/-- The state with one node replaced. -/
def setNode (fs : FS) (loc : Path) (n : Node) : FS :=
  fun q => if q = loc then some n else fs q

/-- The state without the node at `loc` and everything below it. -/
def removeTree (fs : FS) (loc : Path) : FS :=
  fun q => if loc <+: q then none else fs q

/-- The Go call `os.RemoveAll`: removes the named node and everything below
it; a path that names nothing is a success; a path that cannot be resolved for
another reason is an error. The link in the last component is not followed. -/
def removeAll (fs : FS) (p : Path) : FS × Except Errno Unit :=
  match resolve fs false p with
  | Except.error Errno.ENOENT => (fs, Except.ok ())
  | Except.error e => (fs, Except.error e)
  | Except.ok loc =>
    match nodeAt fs loc with
    | none => (fs, Except.ok ())
    | some _ => (removeTree fs loc, Except.ok ())

/-- The permission bits a new node gets: the requested bits without those of
the process umask. -/
def applyUmask (umask mode : Nat) : Nat := (mode % 512) &&& (511 - umask % 512)

/-- The system call `mkdir`: the last component must not exist (links are not
followed there) and its parent must be a directory. -/
def mkdir (umask : Nat) (fs : FS) (p : Path) (mode : Nat) : FS × Except Errno Unit :=
  match resolve fs false p with
  | Except.error e => (fs, Except.error e)
  | Except.ok loc =>
    match nodeAt fs loc with
    | some _ => (fs, Except.error Errno.EEXIST)
    | none => (setNode fs loc (Node.dir (applyUmask umask mode)), Except.ok ())

/-- The recursion of the Go call `os.MkdirAll`, on the reversed path (last
component first). It follows the library: a path that is a directory is a
success, a path that is something else is `ENOTDIR`; otherwise the parent is
made first, then `mkdir` is called, and an error of `mkdir` is forgiven when
the path is a directory after all. -/
def mkdirAllRev (umask : Nat) (mode : Nat) : List String → FS → FS × Except Errno Unit
  | [], fs => (fs, Except.ok ())
  | c :: revParent, fs =>
    let p := (c :: revParent).reverse
    match stat fs p with
    | Except.ok n => if n.isDir then (fs, Except.ok ()) else (fs, Except.error Errno.ENOTDIR)
    | Except.error _ =>
      match (if revParent = [] then (fs, Except.ok ()) else mkdirAllRev umask mode revParent fs) with
      | (fs1, Except.error e) => (fs1, Except.error e)
      | (fs1, Except.ok _) =>
        match mkdir umask fs1 p mode with
        | (fs2, Except.ok _) => (fs2, Except.ok ())
        | (fs2, Except.error e) =>
          match lstat fs2 p with
          | Except.ok n => if n.isDir then (fs2, Except.ok ()) else (fs2, Except.error e)
          | Except.error _ => (fs2, Except.error e)

/-- The Go call `os.MkdirAll(p, mode)`. -/
def MkdirAll (umask : Nat) (fs : FS) (p : Path) (mode : Nat) : FS × Except Errno Unit :=
  mkdirAllRev umask mode p.reverse fs

/-- The Go call `os.ReadFile`. -/
def readFile (fs : FS) (p : Path) : Except Errno String :=
  match stat fs p with
  | Except.error e => Except.error e
  | Except.ok (Node.file d _) => Except.ok d
  | Except.ok (Node.dir _) => Except.error Errno.EISDIR
  | Except.ok (Node.link _) => Except.error Errno.ELOOP

/-- The Go call `os.Create`: open for writing, create when missing, truncate
when present; links are followed. The result is the location of the open file. -/
def create (umask : Nat) (fs : FS) (p : Path) : FS × Except Errno Path :=
  match resolve fs true p with
  | Except.error e => (fs, Except.error e)
  | Except.ok loc =>
    match nodeAt fs loc with
    | none => (setNode fs loc (Node.file "" (applyUmask umask 0o666)), Except.ok loc)
    | some (Node.file _ m) => (setNode fs loc (Node.file "" m), Except.ok loc)
    | some (Node.dir _) => (fs, Except.error Errno.EISDIR)
    | some (Node.link _) => (fs, Except.error Errno.ELOOP)

/-- Writing through an open file: the file at `loc` gets the content. -/
def writeAt (fs : FS) (loc : Path) (data : String) : FS :=
  match fs loc with
  | some (Node.file _ m) => setNode fs loc (Node.file data m)
  | _ => fs

/-- The Go call `os.Chmod(p, os.FileMode(mode))`: links are followed, the
permission bits of the node become the low nine bits of `mode`. -/
def chmod (fs : FS) (p : Path) (mode : Nat) : FS × Except Errno Unit :=
  match resolve fs true p with
  | Except.error e => (fs, Except.error e)
  | Except.ok loc =>
    if loc = [] then (fs, Except.ok ())
    else
      match fs loc with
      | none => (fs, Except.error Errno.ENOENT)
      | some (Node.file d _) => (setNode fs loc (Node.file d (mode % 512)), Except.ok ())
      | some (Node.dir _) => (setNode fs loc (Node.dir (mode % 512)), Except.ok ())
      | some (Node.link _) => (fs, Except.error Errno.ELOOP)

/-- The Go call `os.Symlink(linkname, p)`: the last component of `p` must not
exist (a link there is not followed); an empty target is refused. -/
def symlink (fs : FS) (linkname : String) (p : Path) : FS × Except Errno Unit :=
  if linkname = "" then (fs, Except.error Errno.ENOENT)
  else
    match resolve fs false p with
    | Except.error e => (fs, Except.error e)
    | Except.ok loc =>
      match nodeAt fs loc with
      | some _ => (fs, Except.error Errno.EEXIST)
      | none => (setNode fs loc (Node.link linkname), Except.ok ())

/-! ## Tar layers -/

/-- The type flag of a tar header, as far as `extractTar` tells them apart. -/
inductive Typeflag
  | TypeDir
  | TypeReg
  | TypeSymlink
  | other
  deriving DecidableEq, Repr

/-- One tar entry: the header fields `extractTar` reads and the body.
`dataOk = false` stands for a body whose reading fails after `data`. -/
structure Entry where
  Name : String
  Typeflag : Typeflag
  Mode : Nat
  Linkname : String
  data : String
  dataOk : Bool
  deriving DecidableEq, Repr

/-- What `tar.NewReader(gzip.NewReader(f))` delivers for a blob: the entries
`Next` returns, then either `io.EOF` (`endOk = true`) or a decoding error. -/
structure TarStream where
  entries : List Entry
  endOk : Bool
  deriving DecidableEq, Repr

/-- The ways `extractTar` fails. -/
inductive TarError
  | os (e : Errno)
  | notGzip
  | badTar
  deriving DecidableEq, Repr

/-- What the process sees of its surroundings: the directory `getPulseHome`
returns, the umask, and the decoders of `encoding/json`, `compress/gzip` and
`archive/tar` (`none` is a decoding error). `parseIndex` yields the digests of
`index.Manifests`, `parseManifest` those of `manifest.Layers`. -/
structure Env where
  pulseHome : Path
  umask : Nat
  parseIndex : String → Option (List String)
  parseManifest : String → Option (List String)
  gunzip : String → Option TarStream

/-- One iteration of the loop of `extractTar`. -/
def extractEntry (umask : Nat) (destDir : Path) (fs : FS) (header : Entry) :
    FS × Except TarError Unit :=
  let target := joinPath destDir header.Name
  match header.Typeflag with
  | Typeflag.TypeDir =>
    match MkdirAll umask fs target header.Mode with
    | (fs1, Except.error e) => (fs1, Except.error (TarError.os e))
    | (fs1, Except.ok _) => (fs1, Except.ok ())
  | Typeflag.TypeReg =>
    match MkdirAll umask fs target.dropLast 0o755 with
    | (fs1, Except.error e) => (fs1, Except.error (TarError.os e))
    | (fs1, Except.ok _) =>
      match create umask fs1 target with
      | (fs2, Except.error e) => (fs2, Except.error (TarError.os e))
      | (fs2, Except.ok loc) =>
        let fs3 := writeAt fs2 loc header.data
        if header.dataOk then
          match chmod fs3 target header.Mode with
          | (fs4, Except.error e) => (fs4, Except.error (TarError.os e))
          | (fs4, Except.ok _) => (fs4, Except.ok ())
        else (fs3, Except.error TarError.badTar)
  | Typeflag.TypeSymlink =>
    match MkdirAll umask fs target.dropLast 0o755 with
    | (fs1, Except.error e) => (fs1, Except.error (TarError.os e))
    | (fs1, Except.ok _) =>
      match symlink fs1 header.Linkname target with
      | (fs2, Except.error e) =>
        if e = Errno.EEXIST then (fs2, Except.ok ()) else (fs2, Except.error (TarError.os e))
      | (fs2, Except.ok _) => (fs2, Except.ok ())
  | Typeflag.other => (fs, Except.ok ())

/-- The loop of `extractTar` over the entries the reader delivers. -/
def extractEntries (umask : Nat) (destDir : Path) : FS → List Entry → FS × Except TarError Unit
  | fs, [] => (fs, Except.ok ())
  | fs, header :: rest =>
    match extractEntry umask destDir fs header with
    | (fs1, Except.error e) => (fs1, Except.error e)
    | (fs1, Except.ok _) => extractEntries umask destDir fs1 rest

/-- The function `extractTar(tarPath, destDir)`. The blob is decoded as it is
when it is opened. -/
def extractTar (env : Env) (fs : FS) (tarPath destDir : Path) : FS × Except TarError Unit :=
  match stat fs tarPath with
  | Except.error e => (fs, Except.error (TarError.os e))
  | Except.ok (Node.dir _) => (fs, Except.error TarError.notGzip)
  | Except.ok (Node.link _) => (fs, Except.error (TarError.os Errno.ELOOP))
  | Except.ok (Node.file blob _) =>
    match env.gunzip blob with
    | none => (fs, Except.error TarError.notGzip)
    | some stream =>
      match extractEntries env.umask destDir fs stream.entries with
      | (fs1, Except.error e) => (fs1, Except.error e)
      | (fs1, Except.ok _) =>
        if stream.endOk then (fs1, Except.ok ()) else (fs1, Except.error TarError.badTar)

/-! ## Extract -/

/-- The Go call `strings.TrimPrefix` on character lists. -/
def trimPrefixList : List Char → List Char → List Char
  | [], s => s
  | _ :: _, [] => []
  | p :: ps, c :: cs => if p = c then trimPrefixList ps cs else c :: cs

/-- Whether the first list starts the second. -/
def startsWith : List Char → List Char → Bool
  | [], _ => true
  | _ :: _, [] => false
  | p :: ps, c :: cs => p = c && startsWith ps cs

/-- The Go call `strings.TrimPrefix(s, pre)`. -/
def trimPrefix (s pre : String) : String :=
  if startsWith pre.data s.data then String.mk (s.data.drop pre.data.length) else s

/-- The function `sanitize`: `/` and `:` become `_`. -/
def sanitize (image : String) : String :=
  String.mk (image.data.map fun c => if c = '/' ∨ c = ':' then '_' else c)

/-- The function `getImagesDir`: the images directory below the pulse home,
created when missing (the result of `MkdirAll` only decides a change of owner,
which the model does not track). -/
def getImagesDir (env : Env) (fs : FS) : FS × Path :=
  let imagesDir := joinPath env.pulseHome "images"
  ((MkdirAll env.umask fs imagesDir 0o755).1, imagesDir)

/-- The ways `Extract` fails, one for each `return "", fmt.Errorf(...)`. -/
inductive ExtractError
  | cleanFailed (e : Errno)
  | mkdirFailed (e : Errno)
  | readIndexFailed (e : Errno)
  | invalidIndex
  | noManifest
  | readManifestFailed (e : Errno)
  | invalidManifest
  | layerFailed (layerDigest : String) (e : TarError)
  deriving DecidableEq, Repr

/-- The result of a run of the layer loop: the state, the failure if any, and
the blobs handed to `extractTar`, in order. -/
structure LoopResult where
  fs : FS
  failure : Option (String × TarError)
  opened : List Path

/-- The loop `for _, layer := range manifest.Layers` of `Extract`, without the
clean-up of its failure branch. -/
def extractLayers (env : Env) (imageDir extractDir : Path) : FS → List String → LoopResult
  | fs, [] => ⟨fs, none, []⟩
  | fs, digest :: rest =>
    let layerDigest := trimPrefix digest "sha256:"
    let layerPath := joinPath (joinPath imageDir "blobs/sha256") layerDigest
    match extractTar env fs layerPath extractDir with
    | (fs1, Except.error e) => ⟨fs1, some (layerDigest, e), [layerPath]⟩
    | (fs1, Except.ok _) =>
      let r := extractLayers env imageDir extractDir fs1 rest
      ⟨r.fs, r.failure, layerPath :: r.opened⟩

/-- What a call of `Extract` leaves behind: the state, the returned pair, and
the layer blobs it handed to `extractTar`. -/
structure Outcome where
  fs : FS
  result : Except ExtractError Path
  opened : List Path

/-- The directory of an image below the images directory. -/
def imageDirOf (env : Env) (image : String) : Path :=
  joinPath (joinPath env.pulseHome "images") (sanitize image ++ "-oci")

/-- The rootfs directory of an image. -/
def extractDirOf (env : Env) (image : String) : Path :=
  joinPath (imageDirOf env image) "rootfs"

/-- The completion marker of an image. -/
def markerFileOf (env : Env) (image : String) : Path :=
  joinPath (extractDirOf env image) ".extraction_complete"

/-- The function `Extract(image)`. -/
def Extract (env : Env) (fs : FS) (image : String) : Outcome :=
  let fs0 := (getImagesDir env fs).1
  let imageDir := imageDirOf env image
  let extractDir := extractDirOf env image
  let markerFile := markerFileOf env image
  if isOk (stat fs0 markerFile) then ⟨fs0, Except.ok extractDir, []⟩
  else
    match removeAll fs0 extractDir with
    | (fs1, Except.error e) => ⟨fs1, Except.error (ExtractError.cleanFailed e), []⟩
    | (fs1, Except.ok _) =>
      match MkdirAll env.umask fs1 extractDir 0o755 with
      | (fs2, Except.error e) => ⟨fs2, Except.error (ExtractError.mkdirFailed e), []⟩
      | (fs2, Except.ok _) =>
        match readFile fs2 (joinPath imageDir "index.json") with
        | Except.error e => ⟨fs2, Except.error (ExtractError.readIndexFailed e), []⟩
        | Except.ok indexData =>
          match env.parseIndex indexData with
          | none => ⟨fs2, Except.error ExtractError.invalidIndex, []⟩
          | some [] => ⟨fs2, Except.error ExtractError.noManifest, []⟩
          | some (m :: _) =>
            let manifestDigest := trimPrefix m "sha256:"
            let manifestPath := joinPath (joinPath imageDir "blobs/sha256") manifestDigest
            match readFile fs2 manifestPath with
            | Except.error e => ⟨fs2, Except.error (ExtractError.readManifestFailed e), []⟩
            | Except.ok manifestData =>
              match env.parseManifest manifestData with
              | none => ⟨fs2, Except.error ExtractError.invalidManifest, []⟩
              | some layers =>
                let r := extractLayers env imageDir extractDir fs2 layers
                match r.failure with
                | some (layerDigest, e) =>
                  ⟨(removeAll r.fs extractDir).1,
                    Except.error (ExtractError.layerFailed layerDigest e), r.opened⟩
                | none =>
                  ⟨(create env.umask r.fs markerFile).1, Except.ok extractDir, r.opened⟩

/-! ## Sample images

A small host used to run the model on concrete inputs: the images directory
of user `u` with one pulled image `alpine`. The sample decoders read an index
or a manifest as a comma-separated list of digests and know three layer blobs. -/

/-- A state given by the list of its nodes. -/
def ofList (l : List (Path × Node)) : FS := fun p => l.lookup p

/-- The comma-separated fields of a string. -/
def splitComma (s : String) : List String :=
  (s.data.splitOn ',').map String.mk

/-- Layer `A`: an executable `bin/sh` and `etc/issue`. -/
def layerA : TarStream :=
  ⟨[⟨"bin/sh", Typeflag.TypeReg, 0o755, "", "#!sh", true⟩,
    ⟨"etc/issue", Typeflag.TypeReg, 0o644, "", "A", true⟩], true⟩

/-- Layer `B`: overwrites `etc/issue`. -/
def layerB : TarStream :=
  ⟨[⟨"etc/issue", Typeflag.TypeReg, 0o600, "", "B", true⟩], true⟩

/-- Layer `L`: a symbolic link at the place of the completion marker whose
target lies in a directory that does not exist. -/
def layerL : TarStream :=
  ⟨[⟨".extraction_complete", Typeflag.TypeSymlink, 0o777, "missing/x", "", true⟩], true⟩

/-- The sample surroundings. -/
def sampleEnv : Env where
  pulseHome := ["home", "u", ".pulse"]
  umask := 0o022
  parseIndex := fun d => if d = "" then none else some (splitComma d)
  parseManifest := fun d => if d = "" then none else some (splitComma d)
  gunzip := fun b =>
    if b = "A" then some layerA else if b = "B" then some layerB
    else if b = "L" then some layerL else none

/-- The directory of the sample image. -/
def sampleImageDir : Path := ["home", "u", ".pulse", "images", "alpine-oci"]

/-- The sample host after a pull of `alpine` whose manifest blob has the given
content. -/
def sampleFS (manifest : String) : FS :=
  ofList [
    (["home"], Node.dir 0o755),
    (["home", "u"], Node.dir 0o755),
    (["home", "u", ".pulse"], Node.dir 0o755),
    (["home", "u", ".pulse", "images"], Node.dir 0o755),
    (sampleImageDir, Node.dir 0o755),
    (sampleImageDir ++ ["index.json"], Node.file "sha256:m" 0o644),
    (sampleImageDir ++ ["blobs"], Node.dir 0o755),
    (sampleImageDir ++ ["blobs", "sha256"], Node.dir 0o755),
    (sampleImageDir ++ ["blobs", "sha256", "m"], Node.file manifest 0o644),
    (sampleImageDir ++ ["blobs", "sha256", "a"], Node.file "A" 0o644),
    (sampleImageDir ++ ["blobs", "sha256", "b"], Node.file "B" 0o644),
    (sampleImageDir ++ ["blobs", "sha256", "l"], Node.file "L" 0o644)]

/-- The sample host with the images directory but without the image. -/
def sampleEmptyFS : FS :=
  ofList [
    (["home"], Node.dir 0o755),
    (["home", "u"], Node.dir 0o755),
    (["home", "u", ".pulse"], Node.dir 0o755),
    (["home", "u", ".pulse", "images"], Node.dir 0o755)]

/-- Every directory on the way from the root to `cur`, `cur` included, is a
directory of the state. -/
def Reach (fs : FS) (cur : Path) : Prop := ∀ q, q <+: cur → isDirAt fs q = true

/-- How far `Extract` gets before its layer loop: the marker was found
(`present`), a step before the loop failed (`failed`), or index and manifest
were read and the loop starts on the listed layer digests (`ready`). -/
inductive Prepared
  | present (fs : FS)
  | failed (fs : FS) (e : ExtractError)
  | ready (fs : FS) (layers : List String)

/-- The state a preparation ends in. -/
def Prepared.fs : Prepared → FS
  | Prepared.present fs => fs
  | Prepared.failed fs _ => fs
  | Prepared.ready fs _ => fs

/-- The layer digests of the manifest, when the preparation got that far. -/
def Prepared.layers : Prepared → Option (List String)
  | Prepared.ready _ layers => some layers
  | _ => none

/-- The error of a preparation that failed. -/
def Prepared.error : Prepared → Option ExtractError
  | Prepared.failed _ e => some e
  | _ => none

/-- Lines 24 to 69 of `Extract`: everything before the layer loop. -/
def prepare (env : Env) (fs : FS) (image : String) : Prepared :=
  let fs0 := (getImagesDir env fs).1
  let imageDir := imageDirOf env image
  let extractDir := extractDirOf env image
  let markerFile := markerFileOf env image
  if isOk (stat fs0 markerFile) then Prepared.present fs0
  else
    match removeAll fs0 extractDir with
    | (fs1, Except.error e) => Prepared.failed fs1 (ExtractError.cleanFailed e)
    | (fs1, Except.ok _) =>
      match MkdirAll env.umask fs1 extractDir 0o755 with
      | (fs2, Except.error e) => Prepared.failed fs2 (ExtractError.mkdirFailed e)
      | (fs2, Except.ok _) =>
        match readFile fs2 (joinPath imageDir "index.json") with
        | Except.error e => Prepared.failed fs2 (ExtractError.readIndexFailed e)
        | Except.ok indexData =>
          match env.parseIndex indexData with
          | none => Prepared.failed fs2 ExtractError.invalidIndex
          | some [] => Prepared.failed fs2 ExtractError.noManifest
          | some (m :: _) =>
            let manifestDigest := trimPrefix m "sha256:"
            let manifestPath := joinPath (joinPath imageDir "blobs/sha256") manifestDigest
            match readFile fs2 manifestPath with
            | Except.error e => Prepared.failed fs2 (ExtractError.readManifestFailed e)
            | Except.ok manifestData =>
              match env.parseManifest manifestData with
              | none => Prepared.failed fs2 ExtractError.invalidManifest
              | some layers => Prepared.ready fs2 layers

/-- Lines 71 to 88 of `Extract`: the layer loop, the clean-up of its failure
branch, and the marker. -/
def finish (env : Env) (image : String) (fs2 : FS) (layers : List String) : Outcome :=
  let r := extractLayers env (imageDirOf env image) (extractDirOf env image) fs2 layers
  match r.failure with
  | some (layerDigest, e) =>
    ⟨(removeAll r.fs (extractDirOf env image)).1,
      Except.error (ExtractError.layerFailed layerDigest e), r.opened⟩
  | none =>
    ⟨(create env.umask r.fs (markerFileOf env image)).1,
      Except.ok (extractDirOf env image), r.opened⟩

/-- A component that names a directory entry. -/
def ProperName (c : String) : Prop := c ≠ "" ∧ c ≠ "." ∧ c ≠ ".."

/-- The state is a tree: whatever has a node lies in a directory. -/
def WF (fs : FS) : Prop := ∀ (l : Path) (c : String), fs (l ++ [c]) ≠ none → isDirAt fs l = true

/-- The blob of a layer digest, as the loop of `Extract` computes it. -/
def layerPathOf (imageDir : Path) (digest : String) : Path :=
  joinPath (joinPath imageDir "blobs/sha256") (trimPrefix digest "sha256:")

/-- Every listed layer was extracted by `extractTar` without error, one after
the other in the order of the list, leading from the state `fs` to `fs'`. -/
def LayersApplied (env : Env) (imageDir extractDir : Path) : FS → List String → FS → Prop
  | fs, [], fs' => fs' = fs
  | fs, digest :: rest, fs' =>
    ∃ fs1, extractTar env fs (layerPathOf imageDir digest) extractDir = (fs1, Except.ok ()) ∧
      LayersApplied env imageDir extractDir fs1 rest fs'

/-- The path is a directory below which nothing can be examined. -/
def EmptyDir (fs : FS) (p : Path) : Prop :=
  (∃ n, stat fs p = Except.ok n ∧ n.isDir = true) ∧
    ∀ (c : String) (q : List String), ProperName c → isOk (stat fs (p ++ c :: q)) = false

/-- The check that a listed state is a tree: every listed node lies in a
directory. -/
def listedTree (l : List (Path × Node)) : Bool :=
  l.all fun pn => decide (pn.1 = []) || isDirAt (ofList l) pn.1.dropLast

instance properNameDecidable : DecidablePred ProperName := fun c => by
  unfold ProperName
  exact inferInstance

/-- Two nodes of the same kind: directories, files, or links with one target. -/
def sameKind : Node → Node → Prop
  | Node.dir _, Node.dir _ => True
  | Node.file _ _, Node.file _ _ => True
  | Node.link t, Node.link t' => t = t'
  | _, _ => False

/-- The state `fs'` keeps every node of `fs`, with its kind. -/
def Ext (fs fs' : FS) : Prop := ∀ x n, fs x = some n → ∃ n', fs' x = some n' ∧ sameKind n n'

/-- The state `fs'` keeps every file of `fs` with its content and mode, except
at the location `w`. -/
def FilesKept (w : Option Path) (fs fs' : FS) : Prop :=
  ∀ x d m, some x ≠ w → fs x = some (Node.file d m) → fs' x = some (Node.file d m)

/-! ## DNS injection (`setupDNS`)

Strings are read as lists of characters; on the ASCII characters the code
compares (`' '`, `'\t'`, `'\r'`, `'\n'`, `'#'`, `"nameserver "`, `"127."`) this
agrees with the byte indexing of the Go code for every valid UTF-8 text. -/

/-- The loop of `splitLines`: `current` is kept reversed. -/
def splitLinesAux : List Char → List Char → List String
  | [], current => if current = [] then [] else [String.mk current.reverse]
  | c :: cs, current =>
    if c = '\n' then String.mk current.reverse :: splitLinesAux cs []
    else splitLinesAux cs (c :: current)

/-- The function `splitLines`. -/
def splitLines (s : String) : List String := splitLinesAux s.data []

/-- The characters `trimSpace` removes. -/
def isBlank (c : Char) : Bool := c = ' ' || c = '\t' || c = '\r'

/-- The function `trimSpace`: blanks are cut at the start, then at the end. -/
def trimSpace (s : String) : String :=
  String.mk ((s.data.dropWhile isBlank).reverse.dropWhile isBlank).reverse

/-- The function `isLocalhost`. -/
def isLocalhost (ip : String) : Bool :=
  if ip.data.length ≥ 4 ∧ ip.data.take 4 = "127.".data then true
  else if ip = "::1" ∨ ip = "localhost" then true
  else false

/-- The body of the loop over the lines in `setupDNS`: the name server the
line contributes to `validNameservers`, if any. -/
def nameserverOfLine (line : String) : Option String :=
  let trimmed := trimSpace line
  if trimmed = "" ∨ trimmed.data.head? = some '#' then none
  else if trimmed.data.length > 11 ∧ trimmed.data.take 11 = "nameserver ".data then
    let ns := trimSpace (String.mk (trimmed.data.drop 11))
    if !isLocalhost ns then some ns else none
  else none

/-- The name server a line declares for the code, loopback or not. -/
def declaredNameserver (line : String) : Option String :=
  let trimmed := trimSpace line
  if trimmed = "" ∨ trimmed.data.head? = some '#' then none
  else if trimmed.data.length > 11 ∧ trimmed.data.take 11 = "nameserver ".data then
    some (trimSpace (String.mk (trimmed.data.drop 11)))
  else none

/-- The list `validNameservers` after the loop over the lines. -/
def validNameservers : List String → List String
  | [] => []
  | line :: rest =>
    match nameserverOfLine line with
    | some ns => ns :: validNameservers rest
    | none => validNameservers rest

/-- The public name servers `setupDNS` falls back to. -/
def publicDNS : String := "nameserver 8.8.8.8\nnameserver 8.8.4.4\n"

/-- The value of `dnsContent` that `setupDNS` writes to `etc/resolv.conf` of
the rootfs, for the content of the host file `/etc/resolv.conf` (`none` when
it cannot be read). -/
def dnsContent (hostResolv : Option String) : String :=
  match hostResolv with
  | none => publicDNS
  | some host =>
    let valid := validNameservers (splitLines host)
    if valid.length > 0 then
      valid.foldl (fun content ns => content ++ "nameserver " ++ ns ++ "\n") ""
    else publicDNS

/-- A loopback address in the words of the specification: an address in
`127.x.x.x`, or `::1`. -/
def LoopbackAddr (ns : String) : Prop :=
  (ns.data.length ≥ 4 ∧ ns.data.take 4 = "127.".data) ∨ ns = "::1"

instance loopbackAddrDecidable : DecidablePred LoopbackAddr := fun ns => by
  unfold LoopbackAddr
  exact inferInstance

/-- The host file declares loopback name servers only: every line the code
reads as a name server line names a loopback address. -/
def OnlyLoopback (host : String) : Prop :=
  ∀ line ∈ splitLines host,
    (declaredNameserver line).all (fun ns => decide (LoopbackAddr ns)) = true

instance onlyLoopbackDecidable : DecidablePred OnlyLoopback := fun host => by
  unfold OnlyLoopback
  exact inferInstance

/-! ## Container networking (`ConfigureContainerNetwork`) -/

/-- The last decimal digit of a number as a character. -/
def digitChar (d : Nat) : Char :=
  match d % 10 with
  | 0 => '0' | 1 => '1' | 2 => '2' | 3 => '3' | 4 => '4'
  | 5 => '5' | 6 => '6' | 7 => '7' | 8 => '8' | _ => '9'

/-- The value of a decimal digit. -/
def digitVal (c : Char) : Nat :=
  if c = '0' then 0 else if c = '1' then 1 else if c = '2' then 2 else if c = '3' then 3
  else if c = '4' then 4 else if c = '5' then 5 else if c = '6' then 6 else if c = '7' then 7
  else if c = '8' then 8 else 9

/-- The number a list of decimal digits writes. -/
def digitsValue (cs : List Char) : Nat := cs.foldl (fun acc c => 10 * acc + digitVal c) 0

/-- The decimal digits of `n`, most significant first; `fuel` bounds their
number. -/
def natDigits : Nat → Nat → List Char
  | 0, _ => []
  | fuel + 1, n =>
    if n < 10 then [digitChar n] else natDigits fuel (n / 10) ++ [digitChar n]

/-- The verb `%d` of `fmt.Sprintf` on a natural number. -/
def fmtNat (n : Nat) : String := String.mk (natDigits (n + 1) n)

/-- The verb `%d` of `fmt.Sprintf` on an `int`. -/
def fmtInt (i : Int) : String :=
  if i < 0 then "-" ++ fmtNat i.natAbs else fmtNat i.toNat

/-- A command line: the program and its arguments. -/
abbrev Cmd := List String

/-- The host side of the commands: whether a command succeeds, given the
commands run before it. -/
abbrev Runner := List Cmd → Cmd → Bool

/-- A sequence of `if err := exec.Command(...).Run(); err != nil { return
fmt.Errorf(msg) }`: each command is run in turn, the first failure ends the
sequence with its message. The result comes with the commands that were run. -/
def runAll (run : Runner) : List Cmd → List (Cmd × String) → Except String Unit × List Cmd
  | log, [] => (Except.ok (), log)
  | log, (cmd, msg) :: rest =>
    if run log cmd then runAll run (log ++ [cmd]) rest
    else (Except.error msg, log ++ [cmd])

/-- The host-side veth name of a container id: `veth` and the first eight
characters of the id. -/
def vethHost (containerID : String) : String :=
  "veth" ++ (if containerID.data.length > 8 then String.mk (containerID.data.take 8)
    else containerID)

/-- The container-side veth name of a container id: `vethc` and the first
seven characters of the id. -/
def vethContainer (containerID : String) : String :=
  "vethc" ++ (if containerID.data.length > 7 then String.mk (containerID.data.take 7)
    else containerID)

/-- The address `fmt.Sprintf("172.18.0.%d/24", 2+(containerPID%253))`; the Go
operator `%` truncates towards zero. -/
def containerIP (containerPID : Int) : String :=
  "172.18.0." ++ fmtInt (2 + containerPID.tmod 253) ++ "/24"

/-- The function `execInNetNS` as a command line. -/
def execInNetNS (netnsPath : String) (args : List String) : Cmd :=
  "nsenter" :: ("--net=" ++ netnsPath) :: args

/-- The commands of `ConfigureContainerNetwork`, each with the message of its
failure. -/
def networkCommands (containerPID : Int) (containerID : String) : List (Cmd × String) :=
  let netnsPath := "/proc/" ++ fmtInt containerPID ++ "/ns/net"
  [ (["ip", "link", "add", vethHost containerID, "type", "veth", "peer", "name",
      vethContainer containerID], "failed to create veth pair"),
    (["ip", "link", "set", vethHost containerID, "master", "pulse0"],
      "failed to attach veth to bridge"),
    (["ip", "link", "set", vethHost containerID, "up"], "failed to bring up host veth"),
    (["ip", "link", "set", vethContainer containerID, "netns", fmtInt containerPID],
      "failed to move veth to container"),
    (execInNetNS netnsPath ["ip", "addr", "add", containerIP containerPID, "dev",
      vethContainer containerID], "failed to assign IP"),
    (execInNetNS netnsPath ["ip", "link", "set", vethContainer containerID, "up"],
      "failed to bring up container veth"),
    (execInNetNS netnsPath ["ip", "link", "set", "lo", "up"], "failed to bring up loopback"),
    (execInNetNS netnsPath ["ip", "route", "add", "default", "via", "172.18.0.1"],
      "failed to set default route") ]

/-- The function `ConfigureContainerNetwork(containerPID, containerID)`, run
after the commands in `log`. -/
def ConfigureContainerNetwork (run : Runner) (log : List Cmd) (containerPID : Int)
    (containerID : String) : Except String Unit × List Cmd :=
  runAll run log (networkCommands containerPID containerID)

/-- The command of `ConfigureContainerNetwork` that assigns the address. -/
def assignCommand (containerPID : Int) (containerID : String) (ip : String) : Cmd :=
  execInNetNS ("/proc/" ++ fmtInt containerPID ++ "/ns/net")
    ["ip", "addr", "add", ip, "dev", vethContainer containerID]

/-! ## The namespace launcher (`RunContainer`) -/

/-- The namespace flags of `syscall.SysProcAttr.Cloneflags`. -/
inductive CloneFlag
  | CLONE_NEWNS
  | CLONE_NEWUTS
  | CLONE_NEWIPC
  | CLONE_NEWPID
  | CLONE_NEWNET
  | CLONE_NEWUSER
  deriving DecidableEq, Repr

/-- One `syscall.SysProcIDMap`. -/
structure IDMap where
  ContainerID : Nat
  HostID : Nat
  Size : Nat
  deriving DecidableEq, Repr

/-- The `exec.Cmd` that `RunContainer` builds for the child. -/
structure ChildCmd where
  Path : String
  Args : List String
  Env : List String
  Cloneflags : List CloneFlag
  UidMappings : List IDMap
  GidMappings : List IDMap
  deriving DecidableEq, Repr

/-- What `RunContainer` does to its surroundings, in order. -/
inductive Event
  | chmod (dir : Path) (mode : Nat)
  | chownTree (root : Path) (uid gid : Int)
  | writeResolv (rootfs : Path) (content : String)
  | warn (msg : String)
  | start (cmd : ChildCmd)
  | exec (cmd : Cmd)
  | kill (pid : Int)
  | wait (pid : Int)
  deriving DecidableEq, Repr

/-- What `RunContainer` reads from its surroundings: the user ids, the
variables `SUDO_UID` and `SUDO_GID`, the file system, the host resolver file
(`none` when unreadable), whether the resolver file of the container can be
written, the outcome of the commands, whether the child can be started, its
process id, and the error of its exit (`none` for a clean exit). -/
structure Host where
  euid : Nat
  uid : Nat
  gid : Nat
  sudoUID : String
  sudoGID : String
  fs : FS
  hostResolv : Option String
  dnsWritable : Bool
  run : Runner
  startError : Option String
  childPid : Int
  childExit : Option String

/-- A path as a string. -/
def pathString (p : Path) : String := "/" ++ "/".intercalate p

/-- The value `strconv.Atoi` returns next to a range error: the nearest value
of the 64-bit type `int`. -/
def intRange (v : Int) : Int :=
  if v > 9223372036854775807 then 9223372036854775807
  else if v < -9223372036854775808 then -9223372036854775808
  else v

/-- The Go call `strconv.Atoi`, with the value the code gets when it drops
the error: `0` for a text that is no number, the nearest value of `int` for a
number out of its range. -/
def atoi (s : String) : Int :=
  match s.data with
  | '-' :: ds => if ds ≠ [] ∧ ds.all Char.isDigit then intRange (-(digitsValue ds : Int)) else 0
  | '+' :: ds => if ds ≠ [] ∧ ds.all Char.isDigit then intRange (digitsValue ds : Int) else 0
  | ds => if ds ≠ [] ∧ ds.all Char.isDigit then intRange (digitsValue ds : Int) else 0

/-- The directories `makePathTraversable` visits: the path and its ancestors
below the root, from the top. -/
def traversedDirs (path : Path) : List Path :=
  if path = [] then [[]] else (List.range path.length).map fun i => path.take (i + 1)

/-- The mode of a node. -/
def Node.mode : Node → Nat
  | Node.dir m => m
  | Node.file _ m => m
  | Node.link _ => 0o777

/-- The function `makePathTraversable`: read and execute for others are added
where they are missing. -/
def makePathTraversable (fs : FS) (path : Path) : List Event :=
  (traversedDirs path).filterMap fun dir =>
    match stat fs dir with
    | Except.error _ => none
    | Except.ok n => if n.mode &&& 0o005 ≠ 0o005 then some (Event.chmod dir (n.mode ||| 0o005))
      else none

/-- The function `ensureRootOwnership`. -/
def ensureRootOwnership (rootfs : Path) : List Event := [Event.chownTree rootfs 0 0]

/-- The function `fixOwnership`. -/
def fixOwnership (h : Host) (rootfs : Path) : List Event :=
  if h.sudoUID ≠ "" ∧ h.sudoGID ≠ "" then
    [Event.chownTree rootfs (atoi h.sudoUID) (atoi h.sudoGID)]
  else []

/-- The call of `setupDNS` in `RunContainer`, with the warning of its failure. -/
def setupDNSEvents (h : Host) (rootfs : Path) : List Event :=
  Event.writeResolv rootfs (dnsContent h.hostResolv) ::
    (if h.dnsWritable then [] else [Event.warn "Warning: failed to setup DNS"])

/-- The shells `RunContainer` probes when no command is given. -/
def shells : List String :=
  ["/usr/bin/bash", "/bin/bash", "/usr/bin/sh", "/bin/sh", "/bin/ash", "/bin/dash"]

/-- The loop over `shells`: the first that exists in the rootfs and is no
directory. -/
def probeShells (fs : FS) (rootfs : Path) : List String → Option String
  | [] => none
  | shell :: rest =>
    match stat fs (joinPath rootfs (String.mk (shell.data.drop 1))) with
    | Except.ok n => if !n.isDir then some shell else probeShells fs rootfs rest
    | Except.error _ => probeShells fs rootfs rest

/-- The command `RunContainer` launches. -/
def chooseCommand (fs : FS) (rootfs : Path) (command : List String) : List String :=
  if command.length = 0 then
    match probeShells fs rootfs shells with
    | some shell => [shell]
    | none => ["/bin/sh"]
  else command

/-- The `exec.Cmd` of the child. -/
def buildChild (h : Host) (rootfs : Path) (command envVars : List String) (network : Bool) :
    ChildCmd :=
  let base := [CloneFlag.CLONE_NEWNS, CloneFlag.CLONE_NEWUTS, CloneFlag.CLONE_NEWIPC,
    CloneFlag.CLONE_NEWPID, CloneFlag.CLONE_NEWNET]
  { Path := "/proc/self/exe"
    Args := "child" :: chooseCommand h.fs rootfs command
    Env := ["PATH=/usr/local/sbin:/usr/local/bin:/usr/sbin:/usr/bin:/sbin:/bin"] ++ envVars ++
      ["PULSE_ROOTFS=" ++ pathString rootfs,
        "PULSE_NETWORK=" ++ (if network then "true" else "false")]
    Cloneflags := if h.euid ≠ 0 then base ++ [CloneFlag.CLONE_NEWUSER] else base
    UidMappings := if h.euid ≠ 0 then [⟨0, h.uid, 65536⟩] else []
    GidMappings := if h.euid ≠ 0 then [⟨0, h.gid, 65536⟩] else [] }

/-- The result of a call: the returned error (`none` for `nil`) and what was
done, in order. -/
structure RunResult where
  err : Option String
  events : List Event
  deriving DecidableEq, Repr

/-- The function `RunContainer(rootfs, command, envVars, network, interactive)`. -/
def RunContainer (h : Host) (rootfs : Path) (command envVars : List String)
    (network _interactive : Bool) : RunResult :=
  let before :=
    if h.euid = 0 ∧ h.sudoUID ≠ "" then makePathTraversable h.fs rootfs ++ ensureRootOwnership rootfs
    else []
  let dns := if network then setupDNSEvents h rootfs else []
  let cmd := buildChild h rootfs command envVars network
  if !network then
    match h.startError with
    | some e => ⟨some e, before ++ dns ++ fixOwnership h rootfs⟩
    | none =>
      ⟨h.childExit,
        before ++ dns ++ [Event.start cmd, Event.wait h.childPid] ++ fixOwnership h rootfs⟩
  else
    match h.startError with
    | some e => ⟨some e, before ++ dns⟩
    | none =>
      match ConfigureContainerNetwork h.run [] h.childPid (fmtInt h.childPid) with
      | (Except.error e, cmds) =>
        ⟨some ("failed to configure network: " ++ e),
          before ++ dns ++ [Event.start cmd] ++ cmds.map Event.exec ++ [Event.kill h.childPid]⟩
      | (Except.ok _, cmds) =>
        ⟨h.childExit,
          before ++ dns ++ [Event.start cmd] ++ cmds.map Event.exec ++ [Event.wait h.childPid] ++
            fixOwnership h rootfs⟩

/-- A host of an unprivileged user on which every `ip` command fails. -/
def sampleUserHost : Host where
  euid := 1000
  uid := 1000
  gid := 1000
  sudoUID := ""
  sudoGID := ""
  fs := sampleFS "sha256:a,sha256:b"
  hostResolv := some "nameserver 127.0.0.53\n"
  dnsWritable := true
  run := fun _ _ => false
  startError := none
  childPid := 4711
  childExit := none

/-- The same host when the kernel refuses to start the child. -/
def sampleUserHostNoStart : Host :=
  { sampleUserHost with
    startError := some "fork/exec /proc/self/exe: operation not permitted" }

/-- The location at which the body of a regular-file entry lands when the
entry is processed in the state `fs`: where `os.Create` opens the target after
the parent directories were made. `none` for other entries and for entries
whose file cannot be created. -/
def writeLocOf (umask : Nat) (destDir : Path) (fs : FS) (header : Entry) : Option Path :=
  match header.Typeflag with
  | Typeflag.TypeReg =>
    match MkdirAll umask fs (joinPath destDir header.Name).dropLast 0o755 with
    | (fs1, Except.ok _) =>
      match create umask fs1 (joinPath destDir header.Name) with
      | (_, Except.ok loc) => some loc
      | (_, Except.error _) => none
    | (_, Except.error _) => none
  | _ => none

/-- Whether one of the entries, processed in order from the state `fs`, writes
a file body to the location `loc`. -/
def writesTo (umask : Nat) (destDir : Path) : FS → List Entry → Path → Bool
  | _, [], _ => false
  | fs, header :: rest, loc =>
    decide (writeLocOf umask destDir fs header = some loc) ||
      writesTo umask destDir (extractEntry umask destDir fs header).1 rest loc

/-- The entries `extractTar` reads from the blob at `tarPath`. -/
def entriesOf (env : Env) (fs : FS) (tarPath : Path) : List Entry :=
  match stat fs tarPath with
  | Except.ok (Node.file blob _) =>
    match env.gunzip blob with
    | some stream => stream.entries
    | none => []
  | _ => []

/-- The entries of all listed layers in the order `Extract` processes them,
each layer read in the state the layers before it left. -/
def layerEntries (env : Env) (imageDir extractDir : Path) : FS → List String → List Entry
  | _, [] => []
  | fs, digest :: rest =>
    entriesOf env fs (layerPathOf imageDir digest) ++
      layerEntries env imageDir extractDir
        (extractTar env fs (layerPathOf imageDir digest) extractDir).1 rest

/-- The state `fs'` keeps every node of `fs` as it is. -/
def Keeps (fs fs' : FS) : Prop := ∀ x n, fs x = some n → fs' x = some n

/-- Whether an event is a network operation: a command (`ip`, `iptables`,
`nsenter`) or the writing of the resolver file. -/
def Event.isNetworkOp : Event → Bool
  | Event.exec _ => true
  | Event.writeResolv _ _ => true
  | _ => false

/-- Whether an event changes mode or owner of a file. -/
def Event.isOwnershipOp : Event → Bool
  | Event.chmod _ _ => true
  | Event.chownTree _ _ _ => true
  | _ => false

/-- Whether a candidate shell exists inside the rootfs and is not a directory. -/
def shellQualifies (fs : FS) (rootfs : Path) (shell : String) : Bool :=
  match stat fs (joinPath rootfs (String.mk (shell.data.drop 1))) with
  | Except.ok n => !n.isDir
  | Except.error _ => false

/-- Whether `RunContainer` reaches its last statement, the call of
`fixOwnership`: always without networking; with networking when the child was
started and the network was configured. -/
def reachesEnd (h : Host) (network : Bool) : Bool :=
  if !network then true
  else
    match h.startError with
    | some _ => false
    | none => isOk (ConfigureContainerNetwork h.run [] h.childPid (fmtInt h.childPid)).1

/-- A host on which an unprivileged user has the variables `SUDO_UID` and
`SUDO_GID` in the environment. -/
def sampleSudoEnvHost : Host where
  euid := 1000
  uid := 1000
  gid := 1000
  sudoUID := "1000"
  sudoGID := "1000"
  fs := sampleFS "sha256:a,sha256:b"
  hostResolv := none
  dnsWritable := true
  run := fun _ _ => true
  startError := none
  childPid := 4711
  childExit := none

/-- The constant `bridgeName`. -/
def bridgeName : String := "pulse0"

/-- The constant `bridgeIP`: the address of the bridge with its prefix length. -/
def bridgeIP : String := "172.18.0.1/24"

/-- The text the specification describes for a list of addresses: one line
`nameserver <addr>` for each, in the order of the list, and nothing else. -/
def nameserverLines : List String → String
  | [] => ""
  | ns :: rest => "nameserver " ++ ns ++ "\n" ++ nameserverLines rest

/-- No symbolic link lies on the way from the root to `p`, `p` included. -/
def NoLinkOn (fs : FS) (p : Path) : Prop :=
  ∀ q t, q <+: p → q ≠ [] → fs q ≠ some (Node.link t)

/-- The state `fs'` is `fs` with new directories on the way to `p`, where `fs`
had nothing. -/
def NewDirs (fs fs' : FS) (p : Path) : Prop :=
  ∀ q, fs' q = fs q ∨ (q <+: p ∧ q ≠ [] ∧ fs q = none ∧ ∃ m, fs' q = some (Node.dir m))

/-- Whether a node is a symbolic link. -/
def Node.isLink : Node → Bool
  | Node.link _ => true
  | _ => false

/-- A sample host: a destination directory `/srv/rootfs` and the file
`/etc/passwd` outside it. -/
def sampleHostList : List (Path × Node) :=
  [(["srv"], Node.dir 0o755),
   (["srv", "rootfs"], Node.dir 0o755),
   (["etc"], Node.dir 0o755),
   (["etc", "passwd"], Node.file "root" 0o644)]

/-- The state of the sample host. -/
def sampleHostFS : FS := ofList sampleHostList

/-- The destination directory on the sample host. -/
def sampleDest : Path := ["srv", "rootfs"]

/-- An entry whose name climbs out of the destination directory. -/
def escapeEntry : Entry := ⟨"../../etc/passwd", Typeflag.TypeReg, 0o644, "", "evil", true⟩

/-- An entry that makes a link to a directory outside the destination. -/
def linkEntry : Entry := ⟨"lnk", Typeflag.TypeSymlink, 0o777, "/etc", "", true⟩

/-- An entry whose name goes through the link of `linkEntry`. -/
def throughLinkEntry : Entry := ⟨"lnk/passwd", Typeflag.TypeReg, 0o644, "", "evil", true⟩

/-- An entry with an absolute name and a `.` component. -/
def toolEntry : Entry := ⟨"/usr/./bin/tool", Typeflag.TypeReg, 0o755, "", "#!tool", true⟩

/-! ## The bridge (`SetupNetworking`, `setupNAT`) -/

/-- The loop of `splitFields`: `current` is kept reversed. -/
def splitFieldsAux : List Char → List Char → List String
  | [], current => if current = [] then [] else [String.mk current.reverse]
  | c :: cs, current =>
    if c = ' ' ∨ c = '\t' ∨ c = '\n' then
      if current = [] then splitFieldsAux cs []
      else String.mk current.reverse :: splitFieldsAux cs []
    else splitFieldsAux cs (c :: current)

/-- The function `splitFields`. -/
def splitFields (s : String) : List String := splitFieldsAux s.data []

/-- The loop of `getDefaultInterface` over the fields: the field after the
first `dev` that has one. -/
def fieldAfterDev : List String → Option String
  | [] => none
  | [_] => none
  | part :: next :: rest => if part = "dev" then some next else fieldAfterDev (next :: rest)

/-- The function `getDefaultInterface`, for the output of `ip route show
default` (`none` when the command fails). -/
def getDefaultInterface (routeOutput : Option String) : Except String String :=
  match routeOutput with
  | none => Except.error "ip route show default failed"
  | some output =>
    match fieldAfterDev (splitFields output) with
    | some iface => Except.ok iface
    | none => Except.ok "eth0"

/-- A rule of the packet filter: its table, its chain and its specification. -/
structure Rule where
  table : String
  chain : String
  spec : List String
  deriving DecidableEq, Repr

/-- The rule that masquerades what leaves the subnet of the bridge on `iface`. -/
def masqueradeRule (iface : String) : Rule :=
  ⟨"nat", "POSTROUTING", ["-s", "172.18.0.0/24", "-o", iface, "-j", "MASQUERADE"]⟩

/-- The rule that accepts forwarding of what enters on the bridge. -/
def forwardInRule : Rule := ⟨"filter", "FORWARD", ["-i", bridgeName, "-j", "ACCEPT"]⟩

/-- The rule that accepts forwarding of what leaves on the bridge. -/
def forwardOutRule : Rule := ⟨"filter", "FORWARD", ["-o", bridgeName, "-j", "ACCEPT"]⟩

/-- The host as `SetupNetworking` meets it: whether the interface `pulse0`
exists, what `ip route show default` prints (`none` when it fails), the rules
of the packet filter, whether a command can be carried out after the commands
run so far, and whether `/proc/sys/net/ipv4/ip_forward` can be written. -/
structure NetHost where
  bridgeExists : Bool
  routeOutput : Option String
  rules : List Rule
  run : Runner
  forwardWritable : Bool

/-- What `setupNAT` and `SetupNetworking` leave: the result, the commands
issued in order, whether the forwarding setting was written, and the rules of
the packet filter. -/
structure NetOutcome where
  result : Except String Unit
  cmds : List Cmd
  wroteForward : Bool
  rules : List Rule

/-- The command `iptables -A` of a rule: when it can be carried out the rule
is appended to the rules. -/
def iptablesAppend (run : Runner) (log : List Cmd) (rules : List Rule) (cmd : Cmd) (r : Rule) :
    Bool × List Rule :=
  if run log cmd then (true, rules ++ [r]) else (false, rules)

/-- The function `setupNAT`, run after the commands in `log`. The command
`iptables -C` succeeds when it can be carried out and the rule is there. -/
def setupNAT (h : NetHost) (log : List Cmd) : NetOutcome :=
  let log0 := log ++ [["ip", "route", "show", "default"]]
  match getDefaultInterface h.routeOutput with
  | Except.error e => ⟨Except.error e, log0, false, h.rules⟩
  | Except.ok defaultIface =>
    let checkCmd := ["iptables", "-t", "nat", "-C", "POSTROUTING",
      "-s", "172.18.0.0/24", "-o", defaultIface, "-j", "MASQUERADE"]
    let log1 := log0 ++ [checkCmd]
    if h.run log0 checkCmd && decide (masqueradeRule defaultIface ∈ h.rules) then
      ⟨Except.ok (), log1, false, h.rules⟩
    else
      let addCmd := ["iptables", "-t", "nat", "-A", "POSTROUTING",
        "-s", "172.18.0.0/24", "-o", defaultIface, "-j", "MASQUERADE"]
      let log2 := log1 ++ [addCmd]
      match iptablesAppend h.run log1 h.rules addCmd (masqueradeRule defaultIface) with
      | (false, rules1) => ⟨Except.error "failed to add iptables rule", log2, false, rules1⟩
      | (true, rules1) =>
        let inCmd := ["iptables", "-A", "FORWARD", "-i", bridgeName, "-j", "ACCEPT"]
        let rules2 := (iptablesAppend h.run log2 rules1 inCmd forwardInRule).2
        let log3 := log2 ++ [inCmd]
        let outCmd := ["iptables", "-A", "FORWARD", "-o", bridgeName, "-j", "ACCEPT"]
        let rules3 := (iptablesAppend h.run log3 rules2 outCmd forwardOutRule).2
        ⟨Except.ok (), log3 ++ [outCmd], false, rules3⟩

/-- The commands of `SetupNetworking` that make the bridge, each with the
message of its failure. -/
def bridgeCommands : List (Cmd × String) :=
  [ (["ip", "link", "add", bridgeName, "type", "bridge"], "failed to create bridge"),
    (["ip", "addr", "add", bridgeIP, "dev", bridgeName], "failed to assign IP to bridge"),
    (["ip", "link", "set", bridgeName, "up"], "failed to bring bridge up") ]

/-- The function `SetupNetworking`. -/
def SetupNetworking (h : NetHost) : NetOutcome :=
  if h.bridgeExists then ⟨Except.ok (), [], false, h.rules⟩
  else
    match runAll h.run [] bridgeCommands with
    | (Except.error e, log) => ⟨Except.error e, log, false, h.rules⟩
    | (Except.ok _, log) =>
      if h.forwardWritable then
        match setupNAT h log with
        | ⟨Except.error e, cmds, _, rules⟩ =>
          ⟨Except.error ("failed to setup NAT: " ++ e), cmds, true, rules⟩
        | ⟨Except.ok _, cmds, _, rules⟩ => ⟨Except.ok (), cmds, true, rules⟩
      else ⟨Except.error "failed to enable IP forwarding", log, false, h.rules⟩

/-- A host with the bridge in place. -/
def sampleBridgedHost : NetHost :=
  ⟨true, some "default via 10.0.0.1 dev eth0 proto dhcp\n", [], fun _ _ => true, true⟩

/-- A host without the bridge whose packet filter has the masquerade rule on
`eth0` and no rule in `FORWARD`. -/
def sampleNatHost : NetHost :=
  ⟨false, some "default via 10.0.0.1 dev eth0 proto dhcp\n", [masqueradeRule "eth0"],
    fun _ _ => true, true⟩

/-- A host without the bridge and without rules. -/
def sampleFreshHost : NetHost :=
  ⟨false, some "default via 10.0.0.1 dev eth0 proto dhcp\n", [], fun _ _ => true, true⟩

/-! ## The mounts of the container (`setupMounts`) -/

/-- The calls `setupMounts` makes to the operating system. -/
inductive SysOp
  | mkdirAll (p : Path) (mode : Nat)
  | mount (source : String) (target : Path) (fstype : String) (flags : Nat) (data : String)
  | stat (p : Path)
  | openFile (p : Path)
  deriving DecidableEq, Repr

/-- The outcome of a call, given the calls made so far with their outcomes:
`true` is success. -/
abbrev SysOracle := List (SysOp × Bool) → SysOp → Bool

/-- The ways `setupMounts` fails: the error of a call passed on, or a message. -/
inductive MountError
  | os (op : SysOp)
  | failed (msg : String)
  deriving DecidableEq, Repr

/-- One call: its outcome, and the calls made so far with it added. -/
def sysCall (sys : SysOracle) (log : List (SysOp × Bool)) (op : SysOp) :
    Bool × List (SysOp × Bool) :=
  (sys log op, log ++ [(op, sys log op)])

/-- The flag `syscall.MS_BIND`. -/
def MS_BIND : Nat := 4096

/-- The devices `setupMounts` binds into the container. -/
def devices : List String := ["null", "zero", "random", "urandom", "tty"]

/-- The loop of `setupMounts` over the devices: every failure goes on with the
next device. -/
def mountDevices (sys : SysOracle) (devPath : Path) :
    List (SysOp × Bool) → List String → List (SysOp × Bool)
  | log, [] => log
  | log, device :: rest =>
    let hostDev := joinPath ["dev"] device
    let containerDev := joinPath devPath device
    match sysCall sys log (SysOp.stat hostDev) with
    | (false, log1) => mountDevices sys devPath log1 rest
    | (true, log1) =>
      match sysCall sys log1 (SysOp.openFile containerDev) with
      | (false, log2) => mountDevices sys devPath log2 rest
      | (true, log2) =>
        match sysCall sys log2 (SysOp.mount (pathString hostDev) containerDev "" MS_BIND "") with
        | (false, log3) => mountDevices sys devPath log3 rest
        | (true, log3) => mountDevices sys devPath log3 rest

/-- The function `setupMounts(rootfs)`: the result and the calls made, each
with its outcome. -/
def setupMounts (sys : SysOracle) (rootfs : Path) :
    Except MountError Unit × List (SysOp × Bool) :=
  let procPath := joinPath rootfs "proc"
  match sysCall sys [] (SysOp.mkdirAll procPath 0o755) with
  | (false, log) => (Except.error (MountError.os (SysOp.mkdirAll procPath 0o755)), log)
  | (true, log) =>
  match sysCall sys log (SysOp.mount "proc" procPath "proc" 0 "") with
  | (false, log) => (Except.error (MountError.failed "failed to mount /proc"), log)
  | (true, log) =>
  let sysPath := joinPath rootfs "sys"
  match sysCall sys log (SysOp.mkdirAll sysPath 0o755) with
  | (false, log) => (Except.error (MountError.os (SysOp.mkdirAll sysPath 0o755)), log)
  | (true, log) =>
  match sysCall sys log (SysOp.mount "sysfs" sysPath "sysfs" 0 "") with
  | (false, log) => (Except.error (MountError.failed "failed to mount /sys"), log)
  | (true, log) =>
  let tmpPath := joinPath rootfs "tmp"
  match sysCall sys log (SysOp.mkdirAll tmpPath 0o755) with
  | (false, log) => (Except.error (MountError.os (SysOp.mkdirAll tmpPath 0o755)), log)
  | (true, log) =>
  match sysCall sys log (SysOp.mount "tmpfs" tmpPath "tmpfs" 0 "") with
  | (false, log) => (Except.error (MountError.failed "failed to mount /tmp"), log)
  | (true, log) =>
  let devPath := joinPath rootfs "dev"
  match sysCall sys log (SysOp.mkdirAll devPath 0o755) with
  | (false, log) => (Except.error (MountError.os (SysOp.mkdirAll devPath 0o755)), log)
  | (true, log) =>
  let log1 := mountDevices sys devPath log devices
  let devPtsPath := joinPath devPath "pts"
  match sysCall sys log1 (SysOp.mkdirAll devPtsPath 0o755) with
  | (false, log2) => (Except.ok (), log2)
  | (true, log2) =>
    (Except.ok (), (sysCall sys log2 (SysOp.mount "devpts" devPtsPath "devpts" 0
      "newinstance,ptmxmode=0666,mode=0620")).2)

/-- The three mandatory mounts, in the order of the specification: `proc`,
`sysfs`, `tmpfs`. -/
def mandatoryMounts (rootfs : Path) : List SysOp :=
  [ SysOp.mount "proc" (joinPath rootfs "proc") "proc" 0 "",
    SysOp.mount "sysfs" (joinPath rootfs "sys") "sysfs" 0 "",
    SysOp.mount "tmpfs" (joinPath rootfs "tmp") "tmpfs" 0 "" ]

/-- The calls whose failure ends `setupMounts`, in order: each mandatory mount
after the making of its directory, then the making of `dev`. -/
def mandatoryOps (rootfs : Path) : List SysOp :=
  [ SysOp.mkdirAll (joinPath rootfs "proc") 0o755,
    SysOp.mount "proc" (joinPath rootfs "proc") "proc" 0 "",
    SysOp.mkdirAll (joinPath rootfs "sys") 0o755,
    SysOp.mount "sysfs" (joinPath rootfs "sys") "sysfs" 0 "",
    SysOp.mkdirAll (joinPath rootfs "tmp") 0o755,
    SysOp.mount "tmpfs" (joinPath rootfs "tmp") "tmpfs" 0 "",
    SysOp.mkdirAll (joinPath rootfs "dev") 0o755 ]

/-- A call that belongs to a device or to `devpts`: looking at the host
device, making the placeholder, a bind mount, or the mount of `devpts`. -/
def SysOp.isOptional : SysOp → Bool
  | SysOp.stat _ => true
  | SysOp.openFile _ => true
  | SysOp.mount _ _ fstype _ _ => fstype = "" || fstype = "devpts"
  | SysOp.mkdirAll _ _ => false

/-- A host where nothing optional works: no device exists, and `devpts`
cannot be mounted. -/
def sampleBareSys : SysOracle := fun _ op => !op.isOptional

/-- A host where the mount of `sysfs` fails and everything else works. -/
def sampleNoSysfs : SysOracle := fun _ op =>
  match op with
  | SysOp.mount _ _ fstype _ _ => fstype ≠ "sysfs"
  | _ => true

/-! ## Resolver files line by line

A description of a resolver file by its lines, independent of the way
`setupDNS` reads it: each line is a name server line, a comment, a blank line
or another directive. -/

/-- A blank inside a line: space, tab or carriage return. -/
def Blank (c : Char) : Prop := c = ' ' ∨ c = '\t' ∨ c = '\r'

instance blankDecidable : DecidablePred Blank := fun c => by
  unfold Blank
  exact inferInstance

/-- A text of blanks only. -/
def Blanks (s : String) : Prop := ∀ c ∈ s.data, Blank c

/-- A word: not empty, without blanks and line ends. -/
def Word (s : String) : Prop := s ≠ "" ∧ ∀ c ∈ s.data, ¬ Blank c ∧ c ≠ '\n'

/-- A text without line end. -/
def OneLine (s : String) : Prop := ∀ c ∈ s.data, c ≠ '\n'

/-- The first character of a text, if any, is a blank. -/
def StartsBlank (s : String) : Prop :=
  match s.data with
  | [] => True
  | c :: _ => Blank c

/-- A line of a resolver file. -/
inductive ResolvLine
  | nameserver (lead gap addr trail : String)
  | comment (lead text : String)
  | blank (lead : String)
  | directive (lead word rest : String)
  deriving DecidableEq, Repr

/-- The text of a line. -/
def ResolvLine.text : ResolvLine → String
  | ResolvLine.nameserver lead gap addr trail => lead ++ "nameserver " ++ gap ++ addr ++ trail
  | ResolvLine.comment lead text => lead ++ "#" ++ text
  | ResolvLine.blank lead => lead
  | ResolvLine.directive lead word rest => lead ++ word ++ rest

/-- The shape of a line. A name server line is the word `nameserver`, a space
and maybe more blanks, the address as one word, and nothing but blanks around;
a comment starts with `#` after blanks; another directive starts with a word
other than `nameserver`, which ends at a blank or at the end of the line. -/
def ResolvLine.WellFormed : ResolvLine → Prop
  | ResolvLine.nameserver lead gap addr trail =>
    Blanks lead ∧ Blanks gap ∧ Word addr ∧ Blanks trail
  | ResolvLine.comment lead text => Blanks lead ∧ OneLine text
  | ResolvLine.blank lead => Blanks lead
  | ResolvLine.directive lead word rest =>
    Blanks lead ∧ Word word ∧ word ≠ "nameserver" ∧ OneLine rest ∧ StartsBlank rest

instance startsBlankDecidable : DecidablePred StartsBlank := fun s => by
  unfold StartsBlank
  cases s.data with
  | nil => exact isTrue trivial
  | cons c _ => exact blankDecidable c

instance wellFormedDecidable : DecidablePred ResolvLine.WellFormed := fun l => by
  cases l <;> unfold ResolvLine.WellFormed Blanks Word OneLine <;> exact inferInstance

/-- The address a line declares. -/
def ResolvLine.address : ResolvLine → Option String
  | ResolvLine.nameserver _ _ addr _ => some addr
  | _ => none

/-- The text of a resolver file: its lines, each ended by a line end, and a
last line without one (which may be empty). -/
def resolvText : List ResolvLine → ResolvLine → String
  | [], last => last.text
  | l :: rest, last => l.text ++ "\n" ++ resolvText rest last

/-- The addresses the specification keeps: those of the name server lines, in
the order of the file, that are neither a loopback address (`127.x.x.x`,
`::1`) nor the name `localhost`. -/
def keptAddresses (lines : List ResolvLine) : List String :=
  (lines.filterMap ResolvLine.address).filter
    (fun addr => decide (¬ LoopbackAddr addr ∧ addr ≠ "localhost"))

/-- The content the specification describes for a readable resolver file. -/
def specContent (lines : List ResolvLine) : String :=
  if keptAddresses lines = [] then "nameserver 8.8.8.8\nnameserver 8.8.4.4\n"
  else nameserverLines (keptAddresses lines)

/-- A sample resolver file: a comment, the stub resolver, a name server with
blanks around, a directive, and a last line without line end. -/
def sampleResolvLines : List ResolvLine :=
  [ ResolvLine.comment "" " generated",
    ResolvLine.nameserver "" "" "127.0.0.53" "",
    ResolvLine.nameserver "  " "\t" "1.1.1.1" " \r",
    ResolvLine.blank " ",
    ResolvLine.directive "" "options" " edns0",
    ResolvLine.directive "" "nameserverx" " 5.5.5.5",
    ResolvLine.nameserver "" "" "localhost" "" ]

/-- The last line of the sample file. -/
def sampleResolvLast : ResolvLine := ResolvLine.nameserver "" "" "9.9.9.9" ""

/-! # Properties -/

/-! ## Path resolution -/

theorem reach_nil (fs : FS) : Reach fs [] := by
  intro q hq
  have : q = [] := List.prefix_nil.mp hq
  subst this
  simp [isDirAt, nodeAt, Node.isDir]

theorem reach_dropLast {fs : FS} {cur : Path} (h : Reach fs cur) : Reach fs cur.dropLast := by
  intro q hq
  exact h q (hq.trans (List.dropLast_prefix cur))

theorem reach_snoc {fs : FS} {cur : Path} {c : String} {m : Nat} (h : Reach fs cur)
    (hc : fs (cur ++ [c]) = some (Node.dir m)) : Reach fs (cur ++ [c]) := by
  intro q hq
  rcases List.prefix_concat_iff.mp hq with h1 | h1
  · subst h1
    simp [isDirAt, nodeAt, hc, Node.isDir]
  · exact h q h1

theorem reach_self {fs : FS} {cur : Path} (h : Reach fs cur) : isDirAt fs cur = true :=
  h cur (List.prefix_refl cur)

/-- A walk over `a ++ b` with `b` not empty goes through the directory that
`a` names. -/
theorem walk_append_dir (fs : FS) (f : Bool) (b : List String) (hb : b ≠ []) :
    ∀ (g : Nat) (cur : Path) (a : List String) (l : Path), Reach fs cur →
      walk fs f g cur (a ++ b) = Except.ok l →
      ∃ l', walk fs true g cur a = Except.ok l' ∧ Reach fs l' := by
  intro g
  induction g with
  | zero =>
    intro cur a l hr h
    cases a with
    | nil => exact ⟨cur, by simp [walk], hr⟩
    | cons c a' =>
      simp [walk] at h
  | succ g ih =>
    intro cur a l hr h
    cases a with
    | nil => exact ⟨cur, by simp [walk], hr⟩
    | cons c a' =>
      have hne : a' ++ b ≠ [] := by simp [hb]
      rw [List.cons_append, walk] at h
      rw [walk]
      by_cases h1 : c = "" ∨ c = "."
      · simp only [h1, if_true] at h ⊢
        exact ih cur a' l hr h
      · simp only [h1, if_false] at h ⊢
        by_cases h2 : c = ".."
        · simp only [h2, if_true] at h ⊢
          exact ih _ a' l (reach_dropLast hr) h
        · simp only [h2, if_false] at h ⊢
          cases hn : fs (cur ++ [c]) with
          | none => simp [hn, hne] at h
          | some n =>
            cases n with
            | dir m =>
              simp only [hn] at h ⊢
              exact ih _ a' l (reach_snoc hr hn) h
            | file d m => simp [hn, hne] at h
            | link t =>
              simp only [hn, hne, false_and, if_false] at h ⊢
              by_cases h3 : t = ""
              · simp [h3] at h
              · simp only [h3, if_false] at h ⊢
                have hr' : Reach fs (if isAbsTarget t then [] else cur) := by
                  split
                  · exact reach_nil fs
                  · exact hr
                rw [← List.append_assoc] at h
                obtain ⟨l', hl', hrl⟩ := ih _ (splitSlash t ++ a') l hr' h
                refine ⟨l', ?_, hrl⟩
                simpa using hl'

theorem splitSlashAux_noSlash (cs acc : List Char) (h : '/' ∉ cs) :
    splitSlashAux cs acc = [String.mk (acc.reverse ++ cs)] := by
  induction cs generalizing acc with
  | nil => simp [splitSlashAux]
  | cons c cs ih =>
    have hc : c ≠ '/' := fun e => h (by simp [e])
    have hcs : '/' ∉ cs := fun e => h (by simp [e])
    simp [splitSlashAux, hc, ih _ hcs]

theorem sanitize_noSlash (image : String) : '/' ∉ (sanitize image).data := by
  simp only [sanitize, List.mem_map, not_exists, not_and]
  intro c _ h
  split at h
  · exact absurd h (by decide)
  · rename_i h1
    exact h1 (Or.inl h)

theorem joinPath_name (base : Path) (s : String) (hs : '/' ∉ s.data)
    (h0 : s ≠ "") (h1 : s ≠ ".") (h2 : s ≠ "..") : joinPath base s = base ++ [s] := by
  have : splitSlash s = [s] := by
    rw [splitSlash, splitSlashAux_noSlash _ _ hs]
    simp
  simp [joinPath, this, cleanInto, h0, h1, h2]

theorem ociName_ok (image : String) :
    '/' ∉ (sanitize image ++ "-oci").data ∧ sanitize image ++ "-oci" ≠ "" ∧
      sanitize image ++ "-oci" ≠ "." ∧ sanitize image ++ "-oci" ≠ ".." := by
  have hlen : 4 ≤ (sanitize image ++ "-oci").data.length := by
    simp [String.data_append]
  refine ⟨?_, ?_, ?_, ?_⟩
  · simp only [String.data_append, List.mem_append, not_or]
    exact ⟨sanitize_noSlash image, by decide⟩
  · intro e; rw [e] at hlen; simp at hlen
  · intro e; rw [e] at hlen; simp at hlen
  · intro e; rw [e] at hlen; simp at hlen

theorem imageDirOf_eq (env : Env) (image : String) :
    imageDirOf env image = joinPath env.pulseHome "images" ++ [sanitize image ++ "-oci"] := by
  obtain ⟨h, h0, h1, h2⟩ := ociName_ok image
  exact joinPath_name _ _ h h0 h1 h2

theorem extractDirOf_eq (env : Env) (image : String) :
    extractDirOf env image = imageDirOf env image ++ ["rootfs"] :=
  joinPath_name _ _ (by decide) (by decide) (by decide) (by decide)

theorem markerFileOf_eq (env : Env) (image : String) :
    markerFileOf env image = extractDirOf env image ++ [".extraction_complete"] :=
  joinPath_name _ _ (by decide) (by decide) (by decide) (by decide)

theorem isDir_of_reach {fs : FS} {l : Path} (h : Reach fs l) :
    ∃ n, nodeAt fs l = some n ∧ n.isDir = true := by
  have := reach_self h
  unfold isDirAt at this
  cases hn : nodeAt fs l with
  | none => simp [hn] at this
  | some n => exact ⟨n, rfl, by simpa [hn] using this⟩

/-- When a path below `a` can be examined, `a` is a directory. -/
theorem stat_prefix_isDir (fs : FS) (a b : Path) (hb : b ≠ [])
    (h : isOk (stat fs (a ++ b)) = true) : ∃ n, stat fs a = Except.ok n ∧ n.isDir = true := by
  unfold stat resolve at h
  cases hw : walk fs true walkGas [] (a ++ b) with
  | error e => simp [hw, isOk] at h
  | ok l =>
    obtain ⟨l', hl', hr⟩ := walk_append_dir fs true b hb walkGas [] a l (reach_nil fs) hw
    obtain ⟨n, hn, hd⟩ := isDir_of_reach hr
    exact ⟨n, by simp [stat, resolve, hl', hn], hd⟩

/-- The library call `os.MkdirAll` changes nothing when the path is a directory. -/
theorem MkdirAll_noop (umask : Nat) (fs : FS) (p : Path) (mode : Nat) (n : Node)
    (h : stat fs p = Except.ok n) (hd : n.isDir = true) :
    MkdirAll umask fs p mode = (fs, Except.ok ()) := by
  unfold MkdirAll
  cases hp : p.reverse with
  | nil => simp [mkdirAllRev]
  | cons c r =>
    have : (c :: r).reverse = p := by rw [← hp, List.reverse_reverse]
    rw [mkdirAllRev]
    simp only [this, h, hd, if_true]

/-- C1 (amended): when a call of `Extract` returns a rootfs path and the
completion marker can be examined in the state it leaves, a second call on that
state returns the same path, hands no layer blob to `extractTar` and leaves
the state as it is. -/
theorem Extract_again_is_noop (env : Env) (fs : FS) (image : String) (p : Path)
    (h1 : (Extract env fs image).result = Except.ok p)
    (hm : isOk (stat (Extract env fs image).fs (markerFileOf env image)) = true) :
    (Extract env (Extract env fs image).fs image).result = Except.ok p ∧
      (Extract env (Extract env fs image).fs image).opened = [] ∧
      (Extract env (Extract env fs image).fs image).fs = (Extract env fs image).fs := by
  have hp : p = extractDirOf env image := by
    unfold Extract at h1
    simp only at h1
    repeat' split at h1
    all_goals first
      | (simp at h1; exact h1.symm)
      | simp at h1
  subst hp
  generalize (Extract env fs image).fs = s at hm ⊢
  have hpre : markerFileOf env image
      = joinPath env.pulseHome "images" ++ [sanitize image ++ "-oci", "rootfs", ".extraction_complete"] := by
    rw [markerFileOf_eq, extractDirOf_eq, imageDirOf_eq]; simp
  rw [hpre] at hm
  obtain ⟨n, hn, hd⟩ := stat_prefix_isDir s _ _ (by simp) hm
  have h0 : (getImagesDir env s).1 = s := by
    simp [getImagesDir, MkdirAll_noop env.umask s _ 0o755 n hn hd]
  rw [← hpre] at hm
  unfold Extract
  simp only [h0, hm, if_true, and_self]

/-- C1 (witness): the sample image with layers `A` and `B`. -/
theorem Extract_again_is_noop_witness :
    (Extract sampleEnv (Extract sampleEnv (sampleFS "sha256:a,sha256:b") "alpine").fs "alpine").result
        = Except.ok (sampleImageDir ++ ["rootfs"]) ∧
      (Extract sampleEnv (Extract sampleEnv (sampleFS "sha256:a,sha256:b") "alpine").fs "alpine").opened
        = [] ∧
      (Extract sampleEnv (Extract sampleEnv (sampleFS "sha256:a,sha256:b") "alpine").fs "alpine").fs
        = (Extract sampleEnv (sampleFS "sha256:a,sha256:b") "alpine").fs :=
  Extract_again_is_noop sampleEnv (sampleFS "sha256:a,sha256:b") "alpine"
    (sampleImageDir ++ ["rootfs"]) (by decide) (by decide)

/-- C1 (counterexample): the second layer of the sample image puts a dangling
symbolic link at the place of the completion marker. The first call of
`Extract` returns the rootfs path without error (the failure of `os.Create` on
the marker is ignored), and the second call on the resulting state hands both
layer blobs to `extractTar` again. -/
theorem Extract_again_reextracts :
    (Extract sampleEnv (sampleFS "sha256:a,sha256:l") "alpine").result
        = Except.ok (sampleImageDir ++ ["rootfs"]) ∧
      (Extract sampleEnv (Extract sampleEnv (sampleFS "sha256:a,sha256:l") "alpine").fs "alpine").result
        = Except.ok (sampleImageDir ++ ["rootfs"]) ∧
      (Extract sampleEnv (Extract sampleEnv (sampleFS "sha256:a,sha256:l") "alpine").fs "alpine").opened
        = [sampleImageDir ++ ["blobs", "sha256", "a"], sampleImageDir ++ ["blobs", "sha256", "l"]] := by
  decide

/-! ## Removal -/

/-- A walk in the state without the tree at `loc` ends where it ended before,
or inside the removed tree. -/
theorem walk_removeTree (fs : FS) (f : Bool) (loc : Path) :
    ∀ (g : Nat) (cur : Path) (comps : List String) (l : Path),
      walk (removeTree fs loc) f g cur comps = Except.ok l →
      walk fs f g cur comps = Except.ok l ∨ loc <+: l := by
  intro g
  induction g with
  | zero =>
    intro cur comps l h
    cases comps with
    | nil => left; simpa [walk] using h
    | cons c rest => simp [walk] at h
  | succ g ih =>
    intro cur comps l h
    cases comps with
    | nil => left; simpa [walk] using h
    | cons c rest =>
      rw [walk] at h
      rw [walk]
      by_cases h1 : c = "" ∨ c = "."
      · simp only [h1, if_true] at h ⊢
        exact ih _ _ _ h
      · simp only [h1, if_false] at h ⊢
        by_cases h2 : c = ".."
        · simp only [h2, if_true] at h ⊢
          exact ih _ _ _ h
        · simp only [h2, if_false] at h ⊢
          by_cases hx : loc <+: cur ++ [c]
          · have hnone : removeTree fs loc (cur ++ [c]) = none := by simp [removeTree, hx]
            rw [hnone] at h
            by_cases hrest : rest = []
            · simp only [hrest, if_true] at h
              right
              have : cur ++ [c] = l := by simpa using h
              rw [← this]; exact hx
            · simp [hrest] at h
          · have hsame : removeTree fs loc (cur ++ [c]) = fs (cur ++ [c]) := by
              simp [removeTree, hx]
            rw [hsame] at h
            cases hn : fs (cur ++ [c]) with
            | none => rw [hn] at h; left; exact h
            | some n =>
              rw [hn] at h
              cases n with
              | dir m => exact ih _ _ _ h
              | file d m => left; exact h
              | link t =>
                simp only at h ⊢
                split at h
                · left; rename_i hc; simp only [hc, if_true]; exact h
                · rename_i hc
                  simp only [hc, if_false]
                  split at h
                  · simp at h
                  · rename_i ht
                    simp only [ht, if_false]
                    exact ih _ _ _ h

/-- A walk that does not follow a link in its last component, over a path
whose last component is a name, never ends at the root. -/
theorem walk_nofollow_ne_nil (fs : FS) (c : String) (hc : ProperName c) :
    ∀ (g : Nat) (cur : Path) (a : List String) (l : Path),
      walk fs false g cur (a ++ [c]) = Except.ok l → l ≠ [] := by
  intro g
  induction g with
  | zero =>
    intro cur a l h
    cases a <;> simp [walk] at h
  | succ g ih =>
    intro cur a l h
    obtain ⟨c0, c1, c2⟩ := hc
    cases a with
    | nil =>
      simp only [List.nil_append] at h
      rw [walk] at h
      simp only [c0, c1, c2, or_self, if_false] at h
      cases hn : fs (cur ++ [c]) with
      | none => simp [hn] at h; rw [← h]; simp
      | some n =>
        cases n with
        | dir m => simp [hn, walk] at h; rw [← h]; simp
        | file d m => simp [hn] at h; rw [← h]; simp
        | link t => simp [hn] at h; rw [← h]; simp
    | cons x a' =>
      rw [List.cons_append, walk] at h
      have hne : a' ++ [c] ≠ [] := by simp
      by_cases h1 : x = "" ∨ x = "."
      · simp only [h1, if_true] at h
        exact ih _ _ _ h
      · simp only [h1, if_false] at h
        by_cases h2 : x = ".."
        · simp only [h2, if_true] at h
          exact ih _ _ _ h
        · simp only [h2, if_false] at h
          cases hn : fs (cur ++ [x]) with
          | none => simp [hn, hne] at h
          | some n =>
            cases n with
            | dir m => rw [hn] at h; exact ih _ _ _ h
            | file d m => simp [hn, hne] at h
            | link t =>
              simp only [hn, hne, false_and, if_false] at h
              split at h
              · simp at h
              · rw [← List.append_assoc] at h
                exact ih _ _ _ h

/-- After `os.RemoveAll(p)` the path `p` names nothing. -/
theorem lstat_removeAll (fs : FS) (a : Path) (c : String) (hc : ProperName c) :
    isOk (lstat (removeAll fs (a ++ [c])).1 (a ++ [c])) = false := by
  have key : ∀ loc, resolve fs false (a ++ [c]) = Except.ok loc →
      isOk (lstat (removeTree fs loc) (a ++ [c])) = false := by
    intro loc hloc
    unfold lstat
    cases hw : resolve (removeTree fs loc) false (a ++ [c]) with
    | error e => simp [isOk]
    | ok l =>
      have hl : l ≠ [] := walk_nofollow_ne_nil _ c hc _ _ _ _ hw
      have hpre : loc <+: l := by
        rcases walk_removeTree fs false loc _ _ _ _ hw with h | h
        · have : loc = l := by
            unfold resolve at hloc
            rw [hloc] at h
            simpa using h
          rw [this]
        · exact h
      have : nodeAt (removeTree fs loc) l = none := by simp [nodeAt, hl, removeTree, hpre]
      simp [this, isOk]
  unfold removeAll
  cases hr : resolve fs false (a ++ [c]) with
  | error e =>
    cases e <;> simp [lstat, hr, isOk]
  | ok loc =>
    cases hn : nodeAt fs loc with
    | none => simp [lstat, hr, hn, isOk]
    | some n => simpa [hn] using key loc hr

/-! ## Extract -/

/-- The function `Extract` is its preparation followed by the layer loop. -/
theorem Extract_eq (env : Env) (fs : FS) (image : String) :
    Extract env fs image =
      match prepare env fs image with
      | Prepared.present fs0 => ⟨fs0, Except.ok (extractDirOf env image), []⟩
      | Prepared.failed fs1 e => ⟨fs1, Except.error e, []⟩
      | Prepared.ready fs2 layers => finish env image fs2 layers := by
  unfold Extract prepare finish
  simp only
  repeat' split
  all_goals first
    | rfl
    | simp_all

theorem extractDirOf_last (env : Env) (image : String) :
    ∃ a, extractDirOf env image = a ++ ["rootfs"] ∧ ProperName "rootfs" :=
  ⟨imageDirOf env image, extractDirOf_eq env image, by decide, by decide, by decide⟩

/-- C2: when index and manifest were read (the preparation of `Extract` is
`ready`) and `extractTar` fails on a layer of the manifest, `Extract` returns
the error of that layer and the rootfs directory names nothing afterwards, so
nothing the layers wrote below it survives. -/
theorem Extract_layer_failure_removes_rootfs (env : Env) (fs : FS) (image : String)
    (layers : List String) (layerDigest : String) (e : TarError)
    (hp : (prepare env fs image).layers = some layers)
    (hf : (extractLayers env (imageDirOf env image) (extractDirOf env image)
      (prepare env fs image).fs layers).failure = some (layerDigest, e)) :
    (Extract env fs image).result = Except.error (ExtractError.layerFailed layerDigest e) ∧
      isOk (lstat (Extract env fs image).fs (extractDirOf env image)) = false := by
  rw [Extract_eq]
  cases hprep : prepare env fs image with
  | present fs0 => simp [hprep, Prepared.layers] at hp
  | failed fs1 e1 => simp [hprep, Prepared.layers] at hp
  | ready fs2 ls =>
    have hl : ls = layers := by simpa [hprep, Prepared.layers] using hp
    subst hl
    simp only [hprep, Prepared.fs] at hf
    simp only [finish, hf]
    obtain ⟨a, ha, hn⟩ := extractDirOf_last env image
    refine ⟨trivial, ?_⟩
    rw [ha]
    exact lstat_removeAll _ a "rootfs" hn

/-- C2 (witness): the sample image with layer `A` and a layer whose blob is
missing. -/
theorem Extract_layer_failure_removes_rootfs_witness :
    (Extract sampleEnv (sampleFS "sha256:a,sha256:zz") "alpine").result
        = Except.error (ExtractError.layerFailed "zz" (TarError.os Errno.ENOENT)) ∧
      isOk (lstat (Extract sampleEnv (sampleFS "sha256:a,sha256:zz") "alpine").fs
        (extractDirOf sampleEnv "alpine")) = false :=
  Extract_layer_failure_removes_rootfs sampleEnv (sampleFS "sha256:a,sha256:zz") "alpine"
    ["sha256:a", "sha256:zz"] "zz" (TarError.os Errno.ENOENT) (by decide) (by decide)

/-- C3 (the code at the failing inputs): for the sample image without
`index.json` (here: not pulled at all), and for the sample image whose
manifest blob does not parse, no marker exists, `Extract` returns the error of
the failed read, and the rootfs directory it created before exists afterwards. -/
theorem Extract_index_failure_keeps_rootfs :
    (isOk (stat sampleEmptyFS (markerFileOf sampleEnv "alpine")) = false ∧
      (Extract sampleEnv sampleEmptyFS "alpine").result
        = Except.error (ExtractError.readIndexFailed Errno.ENOENT) ∧
      stat (Extract sampleEnv sampleEmptyFS "alpine").fs (extractDirOf sampleEnv "alpine")
        = Except.ok (Node.dir 0o755)) ∧
    (isOk (stat (sampleFS "") (markerFileOf sampleEnv "alpine")) = false ∧
      (Extract sampleEnv (sampleFS "") "alpine").result
        = Except.error ExtractError.invalidManifest ∧
      stat (Extract sampleEnv (sampleFS "") "alpine").fs (extractDirOf sampleEnv "alpine")
        = Except.ok (Node.dir 0o755)) := by
  decide

/-! ## More on path resolution -/

/-- A walk over `a ++ b` with `b` not empty first reaches the directory that
`a` names and goes on from there over `b`. -/
theorem walk_append_split (fs : FS) (f : Bool) (b : List String) (hb : b ≠ []) :
    ∀ (g : Nat) (cur : Path) (a : List String) (l : Path), Reach fs cur →
      walk fs f g cur (a ++ b) = Except.ok l →
      ∃ l' g', walk fs true g cur a = Except.ok l' ∧ Reach fs l' ∧
        walk fs f g' l' b = Except.ok l := by
  intro g
  induction g with
  | zero =>
    intro cur a l hr h
    cases a with
    | nil => exact ⟨cur, 0, by simp [walk], hr, by simpa using h⟩
    | cons c a' => simp [walk] at h
  | succ g ih =>
    intro cur a l hr h
    cases a with
    | nil => exact ⟨cur, g + 1, by simp [walk], hr, by simpa using h⟩
    | cons c a' =>
      have hne : a' ++ b ≠ [] := by simp [hb]
      rw [List.cons_append, walk] at h
      rw [walk]
      by_cases h1 : c = "" ∨ c = "."
      · simp only [h1, if_true] at h ⊢
        exact ih cur a' l hr h
      · simp only [h1, if_false] at h ⊢
        by_cases h2 : c = ".."
        · simp only [h2, if_true] at h ⊢
          exact ih _ a' l (reach_dropLast hr) h
        · simp only [h2, if_false] at h ⊢
          cases hn : fs (cur ++ [c]) with
          | none => simp [hn, hne] at h
          | some n =>
            cases n with
            | dir m =>
              simp only [hn] at h ⊢
              exact ih _ a' l (reach_snoc hr hn) h
            | file d m => simp [hn, hne] at h
            | link t =>
              simp only [hn, hne, false_and, if_false] at h ⊢
              by_cases h3 : t = ""
              · simp [h3] at h
              · simp only [h3, if_false] at h ⊢
                have hr' : Reach fs (if isAbsTarget t then [] else cur) := by
                  split
                  · exact reach_nil fs
                  · exact hr
                rw [← List.append_assoc] at h
                obtain ⟨l', g', hl', hrl, hrest⟩ := ih _ (splitSlash t ++ a') l hr' h
                refine ⟨l', g', ?_, hrl, hrest⟩
                simpa using hl'

/-- A walk from a reachable directory ends in a reachable directory or at one
of its entries. -/
theorem walk_reach_dropLast (fs : FS) (f : Bool) :
    ∀ (g : Nat) (cur : Path) (comps : List String) (l : Path), Reach fs cur →
      walk fs f g cur comps = Except.ok l → Reach fs l.dropLast := by
  intro g
  induction g with
  | zero =>
    intro cur comps l hr h
    cases comps with
    | nil =>
      have : cur = l := by simpa [walk] using h
      rw [← this]; exact reach_dropLast hr
    | cons c rest => simp [walk] at h
  | succ g ih =>
    intro cur comps l hr h
    cases comps with
    | nil =>
      have : cur = l := by simpa [walk] using h
      rw [← this]; exact reach_dropLast hr
    | cons c rest =>
      rw [walk] at h
      have hfin : ∀ l, Except.ok (ε := Errno) (cur ++ [c]) = Except.ok l → Reach fs l.dropLast := by
        intro l e
        have : cur ++ [c] = l := by simpa using e
        rw [← this]; simpa using hr
      by_cases h1 : c = "" ∨ c = "."
      · simp only [h1, if_true] at h
        exact ih _ _ _ hr h
      · simp only [h1, if_false] at h
        by_cases h2 : c = ".."
        · simp only [h2, if_true] at h
          exact ih _ _ _ (reach_dropLast hr) h
        · simp only [h2, if_false] at h
          cases hn : fs (cur ++ [c]) with
          | none =>
            simp only [hn] at h
            split at h
            · exact hfin l h
            · simp at h
          | some n =>
            cases n with
            | dir m =>
              simp only [hn] at h
              exact ih _ _ _ (reach_snoc hr hn) h
            | file d m =>
              simp only [hn] at h
              split at h
              · exact hfin l h
              · simp at h
            | link t =>
              simp only [hn] at h
              split at h
              · exact hfin l h
              · split at h
                · simp at h
                · refine ih _ _ _ ?_ h
                  split
                  · exact reach_nil fs
                  · exact hr

/-- What a walk that follows links finds, a walk that does not follow the last
link finds too: the same place, or a link that exists. -/
theorem walk_follow_nofollow (fs : FS) :
    ∀ (g : Nat) (cur : Path) (comps : List String) (l : Path),
      walk fs true g cur comps = Except.ok l →
      ∃ l', walk fs false g cur comps = Except.ok l' ∧
        (l' = l ∨ ∃ t, nodeAt fs l' = some (Node.link t)) := by
  intro g
  induction g with
  | zero =>
    intro cur comps l h
    cases comps with
    | nil => exact ⟨l, by simpa [walk] using h, Or.inl rfl⟩
    | cons c rest => simp [walk] at h
  | succ g ih =>
    intro cur comps l h
    cases comps with
    | nil => exact ⟨l, by simpa [walk] using h, Or.inl rfl⟩
    | cons c rest =>
      rw [walk] at h
      rw [walk]
      by_cases h1 : c = "" ∨ c = "."
      · simp only [h1, if_true] at h ⊢
        exact ih _ _ _ h
      · simp only [h1, if_false] at h ⊢
        by_cases h2 : c = ".."
        · simp only [h2, if_true] at h ⊢
          exact ih _ _ _ h
        · simp only [h2, if_false] at h ⊢
          cases hn : fs (cur ++ [c]) with
          | none => simp only [hn] at h ⊢; exact ⟨l, h, Or.inl rfl⟩
          | some n =>
            cases n with
            | dir m => simp only [hn] at h ⊢; exact ih _ _ _ h
            | file d m => simp only [hn] at h ⊢; exact ⟨l, h, Or.inl rfl⟩
            | link t =>
              simp only [hn] at h ⊢
              by_cases hrest : rest = []
              · exact ⟨cur ++ [c], by simp [hrest], Or.inr ⟨t, by simp [nodeAt, hn]⟩⟩
              · simp only [hrest, false_and, if_false] at h ⊢
                split at h
                · simp at h
                · rename_i ht
                  simp only [ht, if_false]
                  exact ih _ _ _ h

/-- What `os.Stat` finds, `os.Lstat` finds something for. -/
theorem lstat_of_stat (fs : FS) (p : Path) (h : isOk (stat fs p) = true) :
    isOk (lstat fs p) = true := by
  unfold stat at h
  cases hw : resolve fs true p with
  | error e => simp [hw, isOk] at h
  | ok l =>
    rw [hw] at h
    obtain ⟨l', hl', hor⟩ := walk_follow_nofollow fs _ _ _ _ hw
    unfold lstat resolve
    rw [hl']
    rcases hor with e | ⟨t, ht⟩
    · subst e
      cases hn : nodeAt fs l' with
      | none => simp [hn, isOk] at h
      | some n => simp [hn, isOk]
    · simp [ht, isOk]

/-! ## Tree shape is kept -/

theorem nodeAt_setNode_ne (fs : FS) (loc l : Path) (n : Node) (h : l ≠ loc) :
    nodeAt (setNode fs loc n) l = nodeAt fs l := by
  simp [nodeAt, setNode, h]

theorem nodeAt_setNode_self (fs : FS) (loc : Path) (n : Node) (h : loc ≠ []) :
    nodeAt (setNode fs loc n) loc = some n := by
  simp [nodeAt, setNode, h]

theorem nodeAt_of_ne_nil (fs : FS) (l : Path) (h : l ≠ []) : nodeAt fs l = fs l := by
  simp [nodeAt, h]

theorem WF_removeTree (fs : FS) (loc : Path) (h : WF fs) : WF (removeTree fs loc) := by
  intro l c hc
  have hnp : ¬ loc <+: l ++ [c] := by
    intro hp
    simp [removeTree, hp] at hc
  have hnl : ¬ loc <+: l := fun hp => hnp (hp.trans (List.prefix_append l [c]))
  have hfs : fs (l ++ [c]) ≠ none := by simpa [removeTree, hnp] using hc
  have := h l c hfs
  unfold isDirAt nodeAt at this ⊢
  simpa [removeTree, hnl] using this

/-- Putting a node into a directory keeps the tree shape, as long as a
directory is not replaced by something else. -/
theorem WF_setNode (fs : FS) (loc : Path) (n : Node) (h : WF fs) (hloc : loc ≠ [])
    (hpar : isDirAt fs loc.dropLast = true) (hkeep : isDirAt fs loc = true → n.isDir = true) :
    WF (setNode fs loc n) := by
  intro l c hc
  by_cases he : l ++ [c] = loc
  · have hl : l = loc.dropLast := by rw [← he]; simp
    have hne : l ≠ loc := by
      intro e
      rw [e] at he
      have := congrArg List.length he
      simp at this
    unfold isDirAt
    rw [nodeAt_setNode_ne _ _ _ _ hne, hl]
    exact hpar
  · have hfs : fs (l ++ [c]) ≠ none := by simpa [setNode, he] using hc
    have hd := h l c hfs
    by_cases hl : l = loc
    · subst hl
      unfold isDirAt
      rw [nodeAt_setNode_self _ _ _ hloc]
      exact hkeep hd
    · unfold isDirAt
      rw [nodeAt_setNode_ne _ _ _ _ hl]
      exact hd

theorem WF_removeAll (fs : FS) (p : Path) (h : WF fs) : WF (removeAll fs p).1 := by
  unfold removeAll
  repeat' split
  all_goals first
    | exact h
    | exact WF_removeTree _ _ h

theorem resolve_parent_isDir (fs : FS) (f : Bool) (p loc : Path)
    (h : resolve fs f p = Except.ok loc) : isDirAt fs loc.dropLast = true :=
  reach_self (walk_reach_dropLast fs f _ _ _ _ (reach_nil fs) h)

theorem ne_nil_of_nodeAt_none (fs : FS) (loc : Path) (h : nodeAt fs loc = none) : loc ≠ [] := by
  intro e
  simp [nodeAt, e] at h

theorem WF_mkdir (umask : Nat) (fs : FS) (p : Path) (mode : Nat) (h : WF fs) :
    WF (mkdir umask fs p mode).1 := by
  unfold mkdir
  cases hr : resolve fs false p with
  | error e => exact h
  | ok loc =>
    cases hn : nodeAt fs loc with
    | some n => simp only [hn]; exact h
    | none =>
      simp only [hn]
      refine WF_setNode fs loc _ h (ne_nil_of_nodeAt_none fs loc hn)
        (resolve_parent_isDir fs false p loc hr) ?_
      intro hd
      simp [isDirAt, hn] at hd

/-- The state `os.MkdirAll` leaves: the given one when the path can be
examined, else that of the parent call, with one more `mkdir` when the parent
call succeeded. -/
theorem mkdirAllRev_fst (umask mode : Nat) (c : String) (r : List String) (fs : FS) :
    (mkdirAllRev umask mode (c :: r) fs).1 =
      if isOk (stat fs (c :: r).reverse) then fs
      else if isOk (if r = [] then (fs, Except.ok ()) else mkdirAllRev umask mode r fs).2 then
        (mkdir umask (if r = [] then (fs, Except.ok ()) else mkdirAllRev umask mode r fs).1
          (c :: r).reverse mode).1
      else (if r = [] then (fs, Except.ok ()) else mkdirAllRev umask mode r fs).1 := by
  rw [mkdirAllRev]
  cases hs : stat fs (c :: r).reverse with
  | ok n => by_cases hd : n.isDir = true <;> simp [isOk, hd]
  | error e =>
    simp only [isOk, Bool.false_eq_true, if_false]
    rcases hpar : (if r = [] then (fs, Except.ok ()) else mkdirAllRev umask mode r fs)
      with ⟨fs1, r1⟩
    cases r1 with
    | error e1 => simp
    | ok u =>
      simp only [if_true]
      rcases hmk : mkdir umask fs1 (c :: r).reverse mode with ⟨fs2, r2⟩
      cases r2 with
      | ok u2 => simp
      | error e2 =>
        simp only
        cases hl : lstat fs2 (c :: r).reverse with
        | error e3 => simp
        | ok n => by_cases hd : n.isDir = true <;> simp [hd]

theorem WF_mkdirAllRev (umask mode : Nat) :
    ∀ (r : List String) (fs : FS), WF fs → WF (mkdirAllRev umask mode r fs).1 := by
  intro r
  induction r with
  | nil => intro fs h; exact h
  | cons c r ih =>
    intro fs h
    rw [mkdirAllRev_fst]
    have hpar : WF (if r = [] then (fs, Except.ok ()) else mkdirAllRev umask mode r fs).1 := by
      split
      · exact h
      · exact ih fs h
    generalize (if r = [] then (fs, Except.ok ()) else mkdirAllRev umask mode r fs) = par
      at hpar ⊢
    split
    · exact h
    · split
      · exact WF_mkdir _ _ _ _ hpar
      · exact hpar

theorem WF_MkdirAll (umask : Nat) (fs : FS) (p : Path) (mode : Nat) (h : WF fs) :
    WF (MkdirAll umask fs p mode).1 :=
  WF_mkdirAllRev umask mode _ fs h

/-! ## New directories are empty -/

/-- A path that named a missing entry names the directory made there. -/
theorem walk_setNode_new (fs : FS) (loc : Path) (m : Nat) (hnone : nodeAt fs loc = none) :
    ∀ (g : Nat) (cur : Path) (comps : List String), Reach fs cur →
      walk fs false g cur comps = Except.ok loc →
      walk (setNode fs loc (Node.dir m)) true g cur comps = Except.ok loc := by
  have hcur : ∀ cur, Reach fs cur → cur ≠ loc := by
    intro cur hr e
    have := reach_self hr
    rw [e] at this
    simp [isDirAt, hnone] at this
  have hloc : loc ≠ [] := ne_nil_of_nodeAt_none fs loc hnone
  have hfs : fs loc = none := by rw [← nodeAt_of_ne_nil fs loc hloc]; exact hnone
  intro g
  induction g with
  | zero =>
    intro cur comps hr h
    cases comps with
    | nil =>
      have : cur = loc := by simpa [walk] using h
      exact absurd this (hcur cur hr)
    | cons c rest => simp [walk] at h
  | succ g ih =>
    intro cur comps hr h
    cases comps with
    | nil =>
      have : cur = loc := by simpa [walk] using h
      exact absurd this (hcur cur hr)
    | cons c rest =>
      rw [walk] at h
      rw [walk]
      by_cases h1 : c = "" ∨ c = "."
      · simp only [h1, if_true] at h ⊢
        exact ih _ _ hr h
      · simp only [h1, if_false] at h ⊢
        by_cases h2 : c = ".."
        · simp only [h2, if_true] at h ⊢
          exact ih _ _ (reach_dropLast hr) h
        · simp only [h2, if_false] at h ⊢
          by_cases hx : cur ++ [c] = loc
          · have hnew : setNode fs loc (Node.dir m) (cur ++ [c]) = some (Node.dir m) := by
              simp [setNode, hx]
            rw [hx] at h
            simp only [hfs] at h
            rw [hnew]
            simp only
            by_cases hrest : rest = []
            · subst hrest
              simp [walk, hx]
            · simp [hrest] at h
          · have hsame : setNode fs loc (Node.dir m) (cur ++ [c]) = fs (cur ++ [c]) := by
              simp [setNode, hx]
            rw [hsame]
            cases hn : fs (cur ++ [c]) with
            | none =>
              simp only [hn] at h ⊢
              split at h
              · exact absurd (by simpa using h) hx
              · simp at h
            | some n =>
              cases n with
              | dir m' =>
                simp only [hn] at h ⊢
                exact ih _ _ (reach_snoc hr hn) h
              | file d m' =>
                simp only [hn] at h ⊢
                split at h
                · exact absurd (by simpa using h) hx
                · simp at h
              | link t =>
                simp only [hn] at h ⊢
                by_cases hrest : rest = []
                · simp only [hrest, and_self, if_true] at h
                  exact absurd (by simpa using h) hx
                · simp only [hrest, false_and, if_false] at h ⊢
                  split at h
                  · simp at h
                  · rename_i ht
                    simp only [ht, if_false]
                    refine ih _ _ ?_ h
                    split
                    · exact reach_nil fs
                    · exact hr

/-- Nothing can be examined below a directory that `mkdir` has just made. -/
theorem stat_below_new_dir (fs : FS) (p loc : Path) (m : Nat) (c0 : String) (q : List String)
    (hwf : WF fs) (hr : resolve fs false p = Except.ok loc) (hnone : nodeAt fs loc = none)
    (hc0 : ProperName c0) :
    isOk (stat (setNode fs loc (Node.dir m)) (p ++ c0 :: q)) = false := by
  have hloc : loc ≠ [] := ne_nil_of_nodeAt_none fs loc hnone
  unfold stat resolve
  cases hw : walk (setNode fs loc (Node.dir m)) true walkGas [] (p ++ c0 :: q) with
  | error e => simp [isOk]
  | ok l =>
    obtain ⟨l', g', hl', _, hrest⟩ :=
      walk_append_split _ true (c0 :: q) (by simp) walkGas [] p l (reach_nil _) hw
    have hA := walk_setNode_new fs loc m hnone walkGas [] p (reach_nil fs) hr
    have hl : l' = loc := by
      rw [hA] at hl'
      simpa using hl'.symm
    subst hl
    have hchild : fs (l' ++ [c0]) = none := by
      by_contra hne
      have := hwf l' c0 hne
      simp [isDirAt, hnone] at this
    have hne : l' ++ [c0] ≠ l' := by
      intro e
      have := congrArg List.length e
      simp at this
    obtain ⟨c1, c2, c3⟩ := hc0
    cases g' with
    | zero => simp [walk] at hrest
    | succ g' =>
      rw [walk] at hrest
      simp only [c1, c2, c3, or_self, if_false, setNode, hne, hchild] at hrest
      split at hrest
      · have : l' ++ [c0] = l := by simpa using hrest
        subst this
        simp [nodeAt, setNode, hne, hchild, isOk]
      · simp at hrest

/-- What cannot be examined below `p` before `os.MkdirAll(p)` cannot be
examined after it either. -/
theorem stat_mkdirAllRev_below (umask mode : Nat) :
    ∀ (r : List String) (fs : FS), WF fs → (∀ c ∈ r, ProperName c) →
      ∀ (c0 : String) (q : List String), ProperName c0 →
      isOk (stat fs (r.reverse ++ c0 :: q)) = false →
      isOk (stat (mkdirAllRev umask mode r fs).1 (r.reverse ++ c0 :: q)) = false := by
  intro r
  induction r with
  | nil => intro fs _ _ c0 q _ h; exact h
  | cons c r ih =>
    intro fs hwf hnames c0 q hc0 h
    have hpath : (c :: r).reverse ++ c0 :: q = r.reverse ++ c :: c0 :: q := by simp
    rw [mkdirAllRev_fst]
    have hparWF : WF (if r = [] then (fs, Except.ok ()) else mkdirAllRev umask mode r fs).1 := by
      split
      · exact hwf
      · exact WF_mkdirAllRev umask mode r fs hwf
    have hpar : isOk (stat (if r = [] then (fs, Except.ok ()) else mkdirAllRev umask mode r fs).1
        ((c :: r).reverse ++ c0 :: q)) = false := by
      split
      · exact h
      · rw [hpath] at h ⊢
        exact ih fs hwf (fun x hx => hnames x (List.mem_cons_of_mem c hx)) c (c0 :: q)
          (hnames c (List.mem_cons_self c r)) h
    generalize (if r = [] then (fs, Except.ok ()) else mkdirAllRev umask mode r fs) = par
      at hpar hparWF ⊢
    split
    · exact h
    · split
      · unfold mkdir
        cases hr : resolve par.1 false (c :: r).reverse with
        | error e => exact hpar
        | ok loc =>
          cases hn : nodeAt par.1 loc with
          | some n => simp only [hn]; exact hpar
          | none =>
            simp only [hn]
            exact stat_below_new_dir par.1 _ loc _ c0 q hparWF hr hn hc0
      · exact hpar

/-- Where a walk that does not follow the last link ends on something that is
not a link, the walk that follows links ends too. -/
theorem walk_nofollow_follow (fs : FS) :
    ∀ (g : Nat) (cur : Path) (comps : List String) (l : Path),
      walk fs false g cur comps = Except.ok l → (∀ t, nodeAt fs l ≠ some (Node.link t)) →
      walk fs true g cur comps = Except.ok l := by
  intro g
  induction g with
  | zero =>
    intro cur comps l h _
    cases comps with
    | nil => simpa [walk] using h
    | cons c rest => simp [walk] at h
  | succ g ih =>
    intro cur comps l h hl
    cases comps with
    | nil => simpa [walk] using h
    | cons c rest =>
      rw [walk] at h
      rw [walk]
      by_cases h1 : c = "" ∨ c = "."
      · simp only [h1, if_true] at h ⊢
        exact ih _ _ _ h hl
      · simp only [h1, if_false] at h ⊢
        by_cases h2 : c = ".."
        · simp only [h2, if_true] at h ⊢
          exact ih _ _ _ h hl
        · simp only [h2, if_false] at h ⊢
          cases hn : fs (cur ++ [c]) with
          | none => simp only [hn] at h ⊢; exact h
          | some n =>
            cases n with
            | dir m => simp only [hn] at h ⊢; exact ih _ _ _ h hl
            | file d m => simp only [hn] at h ⊢; exact h
            | link t =>
              simp only [hn] at h ⊢
              by_cases hrest : rest = []
              · simp only [hrest, and_self, if_true] at h
                have : cur ++ [c] = l := by simpa using h
                subst this
                exact absurd (by simp [nodeAt, hn]) (hl t)
              · simp only [hrest, false_and, if_false] at h ⊢
                split at h
                · simp at h
                · rename_i ht
                  simp only [ht, if_false]
                  exact ih _ _ _ h hl

/-- When `os.MkdirAll` succeeds, the path is a directory afterwards. -/
theorem mkdirAllRev_ok_isDir (umask mode : Nat) (c : String) (r : List String) (fs : FS)
    (h : (mkdirAllRev umask mode (c :: r) fs).2 = Except.ok ()) :
    ∃ n, stat (mkdirAllRev umask mode (c :: r) fs).1 (c :: r).reverse = Except.ok n ∧
      n.isDir = true := by
  rw [mkdirAllRev] at h ⊢
  cases hs : stat fs (c :: r).reverse with
  | ok n =>
    by_cases hd : n.isDir = true
    · simp only [hd, if_true]
      exact ⟨n, hs, hd⟩
    · rw [hs] at h
      simp [hd] at h
  | error e =>
    simp only [hs] at h ⊢
    rcases hpar : (if r = [] then (fs, Except.ok ()) else mkdirAllRev umask mode r fs)
      with ⟨fs1, r1⟩
    rw [hpar] at h
    cases r1 with
    | error e1 => simp at h
    | ok u =>
      simp only at h ⊢
      rcases hmk : mkdir umask fs1 (c :: r).reverse mode with ⟨fs2, r2⟩
      rw [hmk] at h
      cases r2 with
      | ok u2 =>
        simp only
        unfold mkdir at hmk
        cases hr : resolve fs1 false (c :: r).reverse with
        | error e2 => rw [hr] at hmk; simp at hmk
        | ok loc =>
          rw [hr] at hmk
          cases hn : nodeAt fs1 loc with
          | some n => simp [hn] at hmk
          | none =>
            simp only [hn, Prod.mk.injEq, and_true] at hmk
            subst hmk
            have hA := walk_setNode_new fs1 loc (applyUmask umask mode) hn walkGas []
              (c :: r).reverse (reach_nil fs1) hr
            refine ⟨Node.dir (applyUmask umask mode), ?_, rfl⟩
            unfold stat resolve
            rw [hA]
            simp [nodeAt_setNode_self _ _ _ (ne_nil_of_nodeAt_none fs1 loc hn)]
      | error e2 =>
        simp only at h ⊢
        cases hl : lstat fs2 (c :: r).reverse with
        | error e3 => rw [hl] at h; simp at h
        | ok n =>
          by_cases hd : n.isDir = true
          · simp only [hd, if_true]
            refine ⟨n, ?_, hd⟩
            unfold lstat at hl
            cases hr : resolve fs2 false (c :: r).reverse with
            | error e4 => rw [hr] at hl; simp at hl
            | ok loc =>
              rw [hr] at hl
              cases hn : nodeAt fs2 loc with
              | none => simp [hn] at hl
              | some n' =>
                have hnn : n' = n := by simpa [hn] using hl
                subst hnn
                have := walk_nofollow_follow fs2 _ _ _ _ hr (by
                  intro t ht
                  rw [hn] at ht
                  cases n' <;> simp_all [Node.isDir])
                unfold stat resolve
                rw [this]
                simp [hn]
          · rw [hl] at h
            simp [hd] at h

theorem MkdirAll_ok_isDir (umask : Nat) (fs : FS) (p : Path) (mode : Nat)
    (h : (MkdirAll umask fs p mode).2 = Except.ok ()) :
    ∃ n, stat (MkdirAll umask fs p mode).1 p = Except.ok n ∧ n.isDir = true := by
  unfold MkdirAll at h ⊢
  cases hp : p.reverse with
  | nil =>
    have : p = [] := by simpa using hp
    subst this
    exact ⟨Node.dir 0o755, by simp [mkdirAllRev, stat, resolve, walk, nodeAt], rfl⟩
  | cons c r =>
    have hrev : (c :: r).reverse = p := by rw [← hp, List.reverse_reverse]
    rw [hp] at h
    have := mkdirAllRev_ok_isDir umask mode c r fs h
    rw [hrev] at this
    exact this

/-! ## The marker -/

theorem mem_of_lookup {α β : Type} [BEq α] [LawfulBEq α] (k : α) (v : β) :
    ∀ l : List (α × β), l.lookup k = some v → (k, v) ∈ l := by
  intro l
  induction l with
  | nil => simp
  | cons x xs ih =>
    intro h
    obtain ⟨a, b⟩ := x
    by_cases hk : k = a
    · subst hk
      simp [List.lookup] at h
      simp [h]
    · have : (k == a) = false := by simpa using hk
      simp only [List.lookup, this] at h
      exact List.mem_cons_of_mem _ (ih h)

theorem WF_ofList (l : List (Path × Node)) (h : listedTree l = true) : WF (ofList l) := by
  intro p c hne
  cases hl : l.lookup (p ++ [c]) with
  | none => simp [ofList, hl] at hne
  | some n =>
    have hmem := mem_of_lookup _ _ l hl
    have := (List.all_eq_true.mp h) _ hmem
    simpa using this

theorem extractLayers_applied (env : Env) (imageDir extractDir : Path) :
    ∀ (layers : List String) (fs : FS),
      (extractLayers env imageDir extractDir fs layers).failure = none →
      LayersApplied env imageDir extractDir fs layers
          (extractLayers env imageDir extractDir fs layers).fs ∧
        (extractLayers env imageDir extractDir fs layers).opened
          = layers.map (layerPathOf imageDir) := by
  intro layers
  induction layers with
  | nil => intro fs _; simp [extractLayers, LayersApplied]
  | cons d rest ih =>
    intro fs h
    rw [extractLayers] at h ⊢
    simp only at h ⊢
    rcases ht : extractTar env fs (joinPath (joinPath imageDir "blobs/sha256")
        (trimPrefix d "sha256:")) extractDir with ⟨fs1, r1⟩
    rw [ht] at h
    cases r1 with
    | error e => simp at h
    | ok u =>
      simp only at h ⊢
      obtain ⟨h1, h2⟩ := ih fs1 h
      refine ⟨⟨fs1, ?_, h1⟩, ?_⟩
      · simpa [layerPathOf] using ht
      · simp [h2, layerPathOf]

/-- After `os.RemoveAll` on the rootfs directory the marker cannot be examined. -/
theorem stat_marker_removeAll (env : Env) (image : String) (fs : FS) :
    isOk (stat (removeAll fs (extractDirOf env image)).1 (markerFileOf env image)) = false := by
  obtain ⟨a, ha, hn⟩ := extractDirOf_last env image
  have h1 := lstat_removeAll fs a "rootfs" hn
  rw [← ha] at h1
  by_contra hc
  have hc' : isOk (stat (removeAll fs (extractDirOf env image)).1
      (extractDirOf env image ++ [".extraction_complete"])) = true := by
    rw [← markerFileOf_eq]; simpa using hc
  obtain ⟨n, hs, _⟩ := stat_prefix_isDir _ _ _ (by simp) hc'
  have := lstat_of_stat _ _ (by rw [hs]; rfl)
  rw [this] at h1
  exact absurd h1 (by simp)

/-- The shapes a preparation takes when the marker is not found: it fails in
the state `os.RemoveAll` left, or in the state `os.MkdirAll` left, or it is
ready in the latter after `os.MkdirAll` succeeded. -/
theorem prepare_cases (env : Env) (fs : FS) (image : String)
    (h0 : isOk (stat (getImagesDir env fs).1 (markerFileOf env image)) = false) :
    (∃ e, prepare env fs image
        = Prepared.failed (removeAll (getImagesDir env fs).1 (extractDirOf env image)).1 e) ∨
    (∃ e, prepare env fs image
        = Prepared.failed (MkdirAll env.umask
            (removeAll (getImagesDir env fs).1 (extractDirOf env image)).1
            (extractDirOf env image) 0o755).1 e) ∨
    (∃ layers, prepare env fs image
        = Prepared.ready (MkdirAll env.umask
            (removeAll (getImagesDir env fs).1 (extractDirOf env image)).1
            (extractDirOf env image) 0o755).1 layers ∧
      (MkdirAll env.umask (removeAll (getImagesDir env fs).1 (extractDirOf env image)).1
        (extractDirOf env image) 0o755).2 = Except.ok ()) := by
  unfold prepare
  simp only [h0, Bool.false_eq_true, if_false]
  rcases hrm : removeAll (getImagesDir env fs).1 (extractDirOf env image) with ⟨fs1, r1⟩
  cases r1 with
  | error e => exact Or.inl ⟨_, rfl⟩
  | ok u =>
    simp only
    rcases hmk : MkdirAll env.umask fs1 (extractDirOf env image) 0o755 with ⟨fs2, r2⟩
    cases r2 with
    | error e => exact Or.inr (Or.inl ⟨_, rfl⟩)
    | ok u2 =>
      simp only
      repeat' split
      all_goals first
        | exact Or.inr (Or.inl ⟨_, rfl⟩)
        | exact Or.inr (Or.inr ⟨_, rfl, rfl⟩)
        | exact Or.inr (Or.inr ⟨_, rfl, trivial⟩)

theorem imagesDir_eq (env : Env) : joinPath env.pulseHome "images" = env.pulseHome ++ ["images"] :=
  joinPath_name _ _ (by decide) (by decide) (by decide) (by decide)

theorem properName_oci (image : String) : ProperName (sanitize image ++ "-oci") :=
  (ociName_ok image).2

/-- The facts about the states of a preparation that starts without a marker:
the marker is still missing after each of its steps, and a rootfs directory
that `os.MkdirAll` made is empty. -/
theorem prepare_states (env : Env) (fs : FS) (image : String) (hwf : WF fs)
    (hhome : ∀ c ∈ env.pulseHome, ProperName c)
    (hm : isOk (stat fs (markerFileOf env image)) = false) :
    isOk (stat (getImagesDir env fs).1 (markerFileOf env image)) = false ∧
    isOk (stat (MkdirAll env.umask (removeAll (getImagesDir env fs).1 (extractDirOf env image)).1
      (extractDirOf env image) 0o755).1 (markerFileOf env image)) = false ∧
    ((MkdirAll env.umask (removeAll (getImagesDir env fs).1 (extractDirOf env image)).1
        (extractDirOf env image) 0o755).2 = Except.ok () →
      EmptyDir (MkdirAll env.umask (removeAll (getImagesDir env fs).1 (extractDirOf env image)).1
        (extractDirOf env image) 0o755).1 (extractDirOf env image)) := by
  have hmarker : markerFileOf env image
      = env.pulseHome ++ ["images"] ++ (sanitize image ++ "-oci") :: ["rootfs", ".extraction_complete"] := by
    rw [markerFileOf_eq, extractDirOf_eq, imageDirOf_eq, imagesDir_eq]; simp
  have hdir : extractDirOf env image
      = env.pulseHome ++ ["images", sanitize image ++ "-oci", "rootfs"] := by
    rw [extractDirOf_eq, imageDirOf_eq, imagesDir_eq]; simp
  have hnames1 : ∀ c ∈ (env.pulseHome ++ ["images"]).reverse, ProperName c := by
    intro c hc
    simp only [List.mem_reverse, List.mem_append, List.mem_singleton] at hc
    rcases hc with hc | hc
    · exact hhome c hc
    · subst hc; exact ⟨by decide, by decide, by decide⟩
  have hnames2 : ∀ c ∈ (extractDirOf env image).reverse, ProperName c := by
    intro c hc
    rw [hdir] at hc
    simp only [List.mem_reverse, List.mem_append, List.mem_cons, List.mem_singleton,
      List.not_mem_nil, or_false] at hc
    rcases hc with hc | hc | hc | hc
    · exact hhome c hc
    · subst hc; exact ⟨by decide, by decide, by decide⟩
    · subst hc; exact properName_oci image
    · subst hc; exact ⟨by decide, by decide, by decide⟩
  -- the images directory
  have h0 : isOk (stat (getImagesDir env fs).1 (markerFileOf env image)) = false := by
    have := stat_mkdirAllRev_below env.umask 0o755 (env.pulseHome ++ ["images"]).reverse fs hwf
      hnames1 (sanitize image ++ "-oci") ["rootfs", ".extraction_complete"]
      (properName_oci image) (by rw [List.reverse_reverse, ← hmarker]; exact hm)
    rw [List.reverse_reverse, ← hmarker] at this
    simpa [getImagesDir, MkdirAll, imagesDir_eq] using this
  have hwf0 : WF (getImagesDir env fs).1 := WF_MkdirAll _ _ _ _ hwf
  generalize (getImagesDir env fs).1 = fs0 at h0 hwf0 ⊢
  -- the removal
  have h1 := stat_marker_removeAll env image fs0
  have hwf1 : WF (removeAll fs0 (extractDirOf env image)).1 := WF_removeAll _ _ hwf0
  have hl1 : isOk (lstat (removeAll fs0 (extractDirOf env image)).1 (extractDirOf env image))
      = false := by
    obtain ⟨a, ha, hn⟩ := extractDirOf_last env image
    have := lstat_removeAll fs0 a "rootfs" hn
    rw [← ha] at this
    exact this
  generalize (removeAll fs0 (extractDirOf env image)).1 = fs1 at h1 hwf1 hl1 ⊢
  have hbelow : ∀ (c : String) (q : List String), ProperName c →
      isOk (stat (MkdirAll env.umask fs1 (extractDirOf env image) 0o755).1
        (extractDirOf env image ++ c :: q)) = false := by
    intro c q hc
    have hpre : isOk (stat fs1 (extractDirOf env image ++ c :: q)) = false := by
      by_contra hcon
      obtain ⟨n, hs, _⟩ := stat_prefix_isDir fs1 _ (c :: q) (by simp) (by simpa using hcon)
      have := lstat_of_stat fs1 _ (by rw [hs]; rfl)
      rw [this] at hl1
      exact absurd hl1 (by simp)
    have := stat_mkdirAllRev_below env.umask 0o755 (extractDirOf env image).reverse fs1 hwf1
      hnames2 c q hc (by rw [List.reverse_reverse]; exact hpre)
    rw [List.reverse_reverse] at this
    exact this
  refine ⟨h0, ?_, ?_⟩
  · have := hbelow ".extraction_complete" [] ⟨by decide, by decide, by decide⟩
    rw [← markerFileOf_eq] at this
    exact this
  · intro hok
    exact ⟨MkdirAll_ok_isDir _ _ _ _ hok, hbelow⟩

/-- C4: on a tree-shaped state in which the completion marker cannot be
examined (and with a clean pulse home path), after a call of `Extract` a
failure leaves no marker; and a marker that can be examined afterwards means
that `Extract` returned the rootfs path, that the layer loop started on an empty
rootfs directory, that every layer of the manifest was extracted by `extractTar`
without error in manifest order, and that the state is the one the marker
creation left after the last layer. -/
theorem Extract_marker_only_after_all_layers (env : Env) (fs : FS) (image : String)
    (hwf : WF fs) (hhome : ∀ c ∈ env.pulseHome, ProperName c)
    (hm : isOk (stat fs (markerFileOf env image)) = false) :
    (∀ e, (Extract env fs image).result = Except.error e →
      isOk (stat (Extract env fs image).fs (markerFileOf env image)) = false) ∧
    (isOk (stat (Extract env fs image).fs (markerFileOf env image)) = true →
      (Extract env fs image).result = Except.ok (extractDirOf env image) ∧
      ∃ layers fs2 fs3, prepare env fs image = Prepared.ready fs2 layers ∧
        EmptyDir fs2 (extractDirOf env image) ∧
        LayersApplied env (imageDirOf env image) (extractDirOf env image) fs2 layers fs3 ∧
        (Extract env fs image).opened = layers.map (layerPathOf (imageDirOf env image)) ∧
        (Extract env fs image).fs = (create env.umask fs3 (markerFileOf env image)).1) := by
  obtain ⟨h0, h2, hempty⟩ := prepare_states env fs image hwf hhome hm
  have h1 := stat_marker_removeAll env image (getImagesDir env fs).1
  rw [Extract_eq]
  rcases prepare_cases env fs image h0 with ⟨e, hp⟩ | ⟨e, hp⟩ | ⟨layers, hp, hok⟩
  · rw [hp]
    simp only [h1]
    exact ⟨fun _ _ => trivial, fun h => absurd h (by simp)⟩
  · rw [hp]
    simp only [h2]
    exact ⟨fun _ _ => trivial, fun h => absurd h (by simp)⟩
  · rw [hp]
    simp only [finish]
    cases hf : (extractLayers env (imageDirOf env image) (extractDirOf env image)
        (MkdirAll env.umask (removeAll (getImagesDir env fs).1 (extractDirOf env image)).1
          (extractDirOf env image) 0o755).1 layers).failure with
    | some de =>
      obtain ⟨d, e⟩ := de
      simp only [stat_marker_removeAll]
      exact ⟨fun _ _ => trivial, fun h => absurd h (by simp)⟩
    | none =>
      simp only
      obtain ⟨ha, ho⟩ := extractLayers_applied env _ _ layers _ hf
      refine ⟨fun e he => by simp at he, fun _ => ⟨trivial, layers, _, _, rfl, hempty hok, ha, ho, rfl⟩⟩

/-- C4 (witness): the sample image with layers `A` and `B`. -/
theorem Extract_marker_only_after_all_layers_witness :
    WF (sampleFS "sha256:a,sha256:b") ∧
      isOk (stat (sampleFS "sha256:a,sha256:b") (markerFileOf sampleEnv "alpine")) = false ∧
      (Extract sampleEnv (sampleFS "sha256:a,sha256:b") "alpine").result
        = Except.ok (extractDirOf sampleEnv "alpine") :=
  ⟨WF_ofList _ (by decide), by decide,
    ((Extract_marker_only_after_all_layers sampleEnv (sampleFS "sha256:a,sha256:b") "alpine"
      (WF_ofList _ (by decide)) (by decide) (by decide)).2 (by decide)).1⟩

/-! ## States that only grow -/

theorem sameKind_refl (n : Node) : sameKind n n := by
  cases n <;> simp [sameKind]

theorem sameKind_trans {a b c : Node} (h1 : sameKind a b) (h2 : sameKind b c) : sameKind a c := by
  cases a <;> cases b <;> cases c <;> simp_all [sameKind]

theorem Ext_refl (fs : FS) : Ext fs fs := fun _ n h => ⟨n, h, sameKind_refl n⟩

theorem Ext_trans {a b c : FS} (h1 : Ext a b) (h2 : Ext b c) : Ext a c := by
  intro x n hn
  obtain ⟨n1, hn1, k1⟩ := h1 x n hn
  obtain ⟨n2, hn2, k2⟩ := h2 x n1 hn1
  exact ⟨n2, hn2, sameKind_trans k1 k2⟩

/-- A walk that ends on an existing node ends there in every state that keeps
the nodes and their kinds. -/
theorem walk_Ext (fs fs' : FS) (f : Bool) (hext : Ext fs fs') :
    ∀ (g : Nat) (cur : Path) (comps : List String) (l : Path),
      walk fs f g cur comps = Except.ok l → nodeAt fs l ≠ none →
      walk fs' f g cur comps = Except.ok l := by
  intro g
  induction g with
  | zero =>
    intro cur comps l h _
    cases comps with
    | nil => simpa [walk] using h
    | cons c rest => simp [walk] at h
  | succ g ih =>
    intro cur comps l h hl
    cases comps with
    | nil => simpa [walk] using h
    | cons c rest =>
      rw [walk] at h
      rw [walk]
      by_cases h1 : c = "" ∨ c = "."
      · simp only [h1, if_true] at h ⊢
        exact ih _ _ _ h hl
      · simp only [h1, if_false] at h ⊢
        by_cases h2 : c = ".."
        · simp only [h2, if_true] at h ⊢
          exact ih _ _ _ h hl
        · simp only [h2, if_false] at h ⊢
          cases hn : fs (cur ++ [c]) with
          | none =>
            simp only [hn] at h
            split at h
            · have : cur ++ [c] = l := by simpa using h
              subst this
              exact absurd (by simp [nodeAt, hn]) hl
            · simp at h
          | some n =>
            obtain ⟨n', hn', hk⟩ := hext _ _ hn
            cases n with
            | dir m =>
              cases n' <;> simp [sameKind] at hk
              simp only [hn, hn'] at h ⊢
              exact ih _ _ _ h hl
            | file d m =>
              cases n' <;> simp [sameKind] at hk
              simp only [hn, hn'] at h ⊢
              exact h
            | link t =>
              cases n' <;> simp [sameKind] at hk
              subst hk
              simp only [hn, hn'] at h ⊢
              split at h
              · rename_i hc; simp only [hc, and_self, if_true]; exact h
              · rename_i hc
                simp only [hc, if_false]
                split at h
                · simp at h
                · rename_i ht
                  simp only [ht, if_false]
                  exact ih _ _ _ h hl

/-- A walk ends where it ended before when a file is put where nothing or a
file was. -/
theorem walk_setFile (fs : FS) (f : Bool) (loc : Path) (d : String) (m : Nat)
    (hold : fs loc = none ∨ ∃ d0 m0, fs loc = some (Node.file d0 m0)) :
    ∀ (g : Nat) (cur : Path) (comps : List String) (l : Path),
      walk fs f g cur comps = Except.ok l →
      walk (setNode fs loc (Node.file d m)) f g cur comps = Except.ok l := by
  intro g
  induction g with
  | zero =>
    intro cur comps l h
    cases comps with
    | nil => simpa [walk] using h
    | cons c rest => simp [walk] at h
  | succ g ih =>
    intro cur comps l h
    cases comps with
    | nil => simpa [walk] using h
    | cons c rest =>
      rw [walk] at h
      rw [walk]
      by_cases h1 : c = "" ∨ c = "."
      · simp only [h1, if_true] at h ⊢
        exact ih _ _ _ h
      · simp only [h1, if_false] at h ⊢
        by_cases h2 : c = ".."
        · simp only [h2, if_true] at h ⊢
          exact ih _ _ _ h
        · simp only [h2, if_false] at h ⊢
          by_cases hx : cur ++ [c] = loc
          · have hnew : setNode fs loc (Node.file d m) (cur ++ [c]) = some (Node.file d m) := by
              simp [setNode, hx]
            rw [hnew]
            rw [hx] at h
            rcases hold with h0 | ⟨d0, m0, h0⟩
            · simp only [h0] at h
              simp only
              split at h
              · rename_i hr; simp only [hr, if_true]; rw [hx]; exact h
              · simp at h
            · simp only [h0] at h
              simp only
              rw [hx]; exact h
          · have hsame : setNode fs loc (Node.file d m) (cur ++ [c]) = fs (cur ++ [c]) := by
              simp [setNode, hx]
            rw [hsame]
            cases hn : fs (cur ++ [c]) with
            | none => simp only [hn] at h ⊢; exact h
            | some n =>
              cases n with
              | dir m' => simp only [hn] at h ⊢; exact ih _ _ _ h
              | file d' m' => simp only [hn] at h ⊢; exact h
              | link t =>
                simp only [hn] at h ⊢
                split at h
                · rename_i hc; simp only [hc, and_self, if_true]; exact h
                · rename_i hc
                  simp only [hc, if_false]
                  split at h
                  · simp at h
                  · rename_i ht
                    simp only [ht, if_false]
                    exact ih _ _ _ h

/-! ## Regular files -/

/-- What `os.Create` does when it succeeds: the path resolves to `loc`, where
nothing or a file was, and an empty file is there afterwards. -/
theorem create_ok (umask : Nat) (fs fs2 : FS) (p loc : Path)
    (h : create umask fs p = (fs2, Except.ok loc)) :
    resolve fs true p = Except.ok loc ∧ loc ≠ [] ∧
      (fs loc = none ∨ ∃ d0 m0, fs loc = some (Node.file d0 m0)) ∧
      ∃ m, fs2 = setNode fs loc (Node.file "" m) := by
  unfold create at h
  cases hr : resolve fs true p with
  | error e => rw [hr] at h; simp at h
  | ok l =>
    rw [hr] at h
    simp only at h
    cases hn : nodeAt fs l with
    | none =>
      rw [hn] at h
      simp only [Prod.mk.injEq, Except.ok.injEq] at h
      obtain ⟨h1, h2⟩ := h
      subst h2
      have hne := ne_nil_of_nodeAt_none fs l hn
      refine ⟨rfl, hne, Or.inl ?_, _, h1.symm⟩
      rw [← nodeAt_of_ne_nil fs l hne]; exact hn
    | some n =>
      rw [hn] at h
      cases n with
      | dir m => simp at h
      | link t => simp at h
      | file d0 m0 =>
        simp only [Prod.mk.injEq, Except.ok.injEq] at h
        obtain ⟨h1, h2⟩ := h
        subst h2
        have hne : l ≠ [] := by
          intro e
          simp [nodeAt, e] at hn
        refine ⟨rfl, hne, Or.inr ⟨d0, m0, ?_⟩, _, h1.symm⟩
        rw [← nodeAt_of_ne_nil fs l hne]; exact hn

/-- What a successfully processed regular-file entry leaves: the target
resolves to the place `loc` where `os.Create` opened the file, and that place
holds the body of the entry with the permission bits of the header. -/
theorem extractEntry_reg_ok (umask : Nat) (destDir : Path) (fs fs' : FS) (header : Entry)
    (ht : header.Typeflag = Typeflag.TypeReg)
    (h : extractEntry umask destDir fs header = (fs', Except.ok ())) :
    ∃ loc fs1 fs2, MkdirAll umask fs (joinPath destDir header.Name).dropLast 0o755
        = (fs1, Except.ok ()) ∧
      create umask fs1 (joinPath destDir header.Name) = (fs2, Except.ok loc) ∧
      loc ≠ [] ∧
      resolve fs' true (joinPath destDir header.Name) = Except.ok loc ∧
      fs' = setNode fs2 loc (Node.file header.data (header.Mode % 512)) := by
  unfold extractEntry at h
  simp only [ht] at h
  rcases hmk : MkdirAll umask fs (joinPath destDir header.Name).dropLast 0o755 with ⟨fs1, r1⟩
  rw [hmk] at h
  cases r1 with
  | error e => simp at h
  | ok u =>
    simp only at h
    rcases hcr : create umask fs1 (joinPath destDir header.Name) with ⟨fs2, r2⟩
    rw [hcr] at h
    cases r2 with
    | error e => simp at h
    | ok loc =>
      simp only at h
      obtain ⟨hres, hne, hold, m0, hfs2⟩ := create_ok umask fs1 fs2 _ loc hcr
      have hfs2loc : fs2 loc = some (Node.file "" m0) := by simp [hfs2, setNode]
      have hw : writeAt fs2 loc header.data = setNode fs1 loc (Node.file header.data m0) := by
        unfold writeAt
        rw [hfs2loc]
        funext q
        simp only [hfs2, setNode]
        split <;> rfl
      have hres3 : resolve (writeAt fs2 loc header.data) true (joinPath destDir header.Name)
          = Except.ok loc := by
        rw [hw]
        exact walk_setFile fs1 true loc _ _ hold _ _ _ _ hres
      by_cases hd : header.dataOk = true
      · simp only [hd, if_true] at h
        unfold chmod at h
        rw [hres3] at h
        simp only [hne, if_false] at h
        have hloc3 : writeAt fs2 loc header.data loc = some (Node.file header.data m0) := by
          rw [hw]; simp [setNode]
        rw [hloc3] at h
        simp only [Prod.mk.injEq, and_true] at h
        refine ⟨loc, fs1, fs2, rfl, hcr, hne, ?_, ?_⟩
        · rw [← h, hw]
          have : setNode (setNode fs1 loc (Node.file header.data m0)) loc
              (Node.file header.data (header.Mode % 512))
              = setNode fs1 loc (Node.file header.data (header.Mode % 512)) := by
            funext q
            simp only [setNode]
            split <;> rfl
          rw [this]
          exact walk_setFile fs1 true loc _ _ hold _ _ _ _ hres
        · rw [← h, hw, hfs2]
          funext q
          simp only [setNode]
          split <;> rfl
      · simp [hd] at h

/-- C6: after `extractTar` has processed a regular-file entry without error,
the target path of the entry is a file whose permission bits are the nine
permission bits of the mode in the tar header (and whose content is the body
of the entry). -/
theorem extractEntry_reg_mode (umask : Nat) (destDir : Path) (fs fs' : FS) (header : Entry)
    (ht : header.Typeflag = Typeflag.TypeReg)
    (h : extractEntry umask destDir fs header = (fs', Except.ok ())) :
    stat fs' (joinPath destDir header.Name)
      = Except.ok (Node.file header.data (header.Mode % 512)) := by
  obtain ⟨loc, fs1, fs2, _, _, hne, hres, hfs⟩ := extractEntry_reg_ok umask destDir fs fs' header ht h
  unfold stat
  rw [hres]
  simp [hfs, nodeAt, hne, setNode]

/-- C6 (witness): the entry `bin/sh` of layer `A`, mode `0755`, extracted into
a new directory of the sample host. -/
theorem extractEntry_reg_mode_witness :
    stat (extractEntry 0o022 ["home", "u", "rootfs"] sampleEmptyFS
        ⟨"bin/sh", Typeflag.TypeReg, 0o755, "", "#!sh", true⟩).1
        (joinPath ["home", "u", "rootfs"] "bin/sh")
      = Except.ok (Node.file "#!sh" (0o755 % 512)) :=
  extractEntry_reg_mode 0o022 ["home", "u", "rootfs"] sampleEmptyFS _
    ⟨"bin/sh", Typeflag.TypeReg, 0o755, "", "#!sh", true⟩ rfl (Prod.ext rfl (by decide))

/-! ## DNS fallback -/

theorem isLocalhost_of_loopback (ns : String) (h : LoopbackAddr ns) : isLocalhost ns = true := by
  unfold isLocalhost
  rcases h with h | h
  · rw [if_pos h]
  · by_cases h4 : ns.data.length ≥ 4 ∧ ns.data.take 4 = "127.".data
    · rw [if_pos h4]
    · rw [if_neg h4, if_pos (Or.inl h)]

theorem nameserverOfLine_eq (line : String) :
    nameserverOfLine line =
      match declaredNameserver line with
      | some ns => if !isLocalhost ns then some ns else none
      | none => none := by
  unfold nameserverOfLine declaredNameserver
  simp only
  split
  · rfl
  · split <;> rfl

theorem validNameservers_nil_of_loopback (lines : List String)
    (h : ∀ line ∈ lines,
      (declaredNameserver line).all (fun ns => decide (LoopbackAddr ns)) = true) :
    validNameservers lines = [] := by
  induction lines with
  | nil => rfl
  | cons line rest ih =>
    have hline : nameserverOfLine line = none := by
      rw [nameserverOfLine_eq]
      cases hd : declaredNameserver line with
      | none => rfl
      | some ns =>
        have hl := h line (List.mem_cons_self _ _)
        rw [hd] at hl
        have := isLocalhost_of_loopback ns (by simpa using hl)
        simp [this]
    simp only [validNameservers, hline]
    exact ih (fun l hl => h l (List.mem_cons_of_mem _ hl))

theorem one_mem_of_loopback (ns : String) (h : LoopbackAddr ns) : '1' ∈ ns.data := by
  rcases h with ⟨_, h2⟩ | h
  · have : '1' ∈ ns.data.take 4 := by rw [h2]; decide
    exact List.mem_of_mem_take this
  · rw [h]; decide

/-- C7: when every line of the host resolver file that declares a name server
declares a loopback address, the content `setupDNS` writes is exactly the two
public fallback lines, and no loopback address occurs in it. -/
theorem dnsContent_loopback_only (host : String) (h : OnlyLoopback host) :
    dnsContent (some host) = "nameserver 8.8.8.8\nnameserver 8.8.4.4\n" ∧
      ∀ ns, LoopbackAddr ns → ¬ ns.data <:+: (dnsContent (some host)).data := by
  have hc : dnsContent (some host) = publicDNS := by
    simp [dnsContent, validNameservers_nil_of_loopback _ h]
  refine ⟨by rw [hc]; rfl, ?_⟩
  intro ns hns hinf
  rw [hc] at hinf
  have h1 : '1' ∈ publicDNS.data := hinf.subset (one_mem_of_loopback ns hns)
  exact absurd h1 (by decide)

/-- C7 (witness): a host file of a machine with a local stub resolver. -/
theorem dnsContent_loopback_only_witness :
    dnsContent (some "# stub\nnameserver 127.0.0.53\n  nameserver ::1\noptions edns0\n")
        = "nameserver 8.8.8.8\nnameserver 8.8.4.4\n" ∧
      ∀ ns, LoopbackAddr ns → ¬ ns.data <:+:
        (dnsContent (some "# stub\nnameserver 127.0.0.53\n  nameserver ::1\noptions edns0\n")).data :=
  dnsContent_loopback_only "# stub\nnameserver 127.0.0.53\n  nameserver ::1\noptions edns0\n"
    (by decide)

/-! ## Container addresses and interface names -/

theorem runAll_ok (run : Runner) :
    ∀ (cmds : List (Cmd × String)) (log log' : List Cmd),
      runAll run log cmds = (Except.ok (), log') → log' = log ++ cmds.map Prod.fst := by
  intro cmds
  induction cmds with
  | nil => intro log log' h; simp [runAll] at h; simp [h]
  | cons c rest ih =>
    intro log log' h
    obtain ⟨cmd, msg⟩ := c
    rw [runAll] at h
    by_cases hr : run log cmd = true
    · simp only [hr, if_true] at h
      rw [ih _ _ h]; simp
    · simp [hr] at h

/-- C8: the address `ConfigureContainerNetwork` computes for the process id
`P` is `172.18.0.<2 + P mod 253>/24`; two different process ids with the same
remainder modulo 253 get the same address, and a call that succeeds has run
the command that assigns this very address. -/
theorem containerIP_collides (P1 P2 : Int) (_hne : P1 ≠ P2)
    (hmod : P1.tmod 253 = P2.tmod 253) :
    containerIP P1 = "172.18.0." ++ fmtInt (2 + P1.tmod 253) ++ "/24" ∧
      containerIP P1 = containerIP P2 ∧
      ∀ (run : Runner) (log : List Cmd) (containerID : String),
        (ConfigureContainerNetwork run log P1 containerID).1 = Except.ok () →
        assignCommand P1 containerID (containerIP P2)
          ∈ (ConfigureContainerNetwork run log P1 containerID).2 := by
  have heq : containerIP P1 = containerIP P2 := by simp [containerIP, hmod]
  refine ⟨rfl, heq, ?_⟩
  intro run log containerID hok
  have := runAll_ok run (networkCommands P1 containerID) log
    (ConfigureContainerNetwork run log P1 containerID).2 (by
      unfold ConfigureContainerNetwork at hok ⊢
      exact Prod.ext hok rfl)
  rw [this, ← heq]
  simp [networkCommands, assignCommand]

/-- C8 (witness): the process ids 5 and 258. -/
theorem containerIP_collides_witness :
    containerIP 5 = "172.18.0." ++ fmtInt (2 + (5 : Int).tmod 253) ++ "/24" ∧
      containerIP 5 = containerIP 258 ∧
      ∀ (run : Runner) (log : List Cmd) (containerID : String),
        (ConfigureContainerNetwork run log 5 containerID).1 = Except.ok () →
        assignCommand 5 containerID (containerIP 258)
          ∈ (ConfigureContainerNetwork run log 5 containerID).2 :=
  containerIP_collides 5 258 (by decide) (by decide)

/-- The names keep the first eight and seven characters of the id only: the
nine-digit ids 123456789 and 123456780, which no process has, get the same
names. -/
theorem veth_names_collide :
    (123456789 : Int) ≠ 123456780 ∧
      vethHost (fmtInt 123456789) = vethHost (fmtInt 123456780) ∧
      vethContainer (fmtInt 123456789) = vethContainer (fmtInt 123456780) := by
  decide

theorem digitVal_digitChar (d : Nat) : digitVal (digitChar d) = d % 10 := by
  have h : d % 10 < 10 := Nat.mod_lt _ (by decide)
  have key : ∀ k, k < 10 → digitVal (match k with
      | 0 => '0' | 1 => '1' | 2 => '2' | 3 => '3' | 4 => '4'
      | 5 => '5' | 6 => '6' | 7 => '7' | 8 => '8' | _ => '9') = k := by decide
  exact key (d % 10) h

theorem digitsValue_snoc (cs : List Char) (c : Char) :
    digitsValue (cs ++ [c]) = 10 * digitsValue cs + digitVal c := by
  simp [digitsValue, List.foldl_append]

theorem digitsValue_natDigits :
    ∀ (fuel n : Nat), n < 10 ^ fuel → digitsValue (natDigits fuel n) = n := by
  intro fuel
  induction fuel with
  | zero => intro n h; simp at h; subst h; simp [natDigits, digitsValue]
  | succ f ih =>
    intro n h
    rw [natDigits]
    by_cases h10 : n < 10
    · simp only [h10, if_true]
      have := digitsValue_snoc [] (digitChar n)
      simp only [List.nil_append] at this
      rw [this, digitVal_digitChar, Nat.mod_eq_of_lt h10]
      simp [digitsValue]
    · simp only [h10, if_false]
      have hdiv : n / 10 < 10 ^ f := by
        rw [Nat.div_lt_iff_lt_mul (by decide)]
        rw [pow_succ] at h
        exact h
      rw [digitsValue_snoc, ih _ hdiv, digitVal_digitChar]
      omega

theorem natDigits_length :
    ∀ (fuel n k : Nat), n < 10 ^ k → (natDigits fuel n).length ≤ max k 1 := by
  intro fuel
  induction fuel with
  | zero => intro n k _; simp [natDigits]
  | succ f ih =>
    intro n k h
    rw [natDigits]
    by_cases h10 : n < 10
    · simp [h10]
    · simp only [h10, if_false, List.length_append, List.length_singleton]
      cases k with
      | zero => simp at h; omega
      | succ k =>
        have hdiv : n / 10 < 10 ^ k := by
          rw [Nat.div_lt_iff_lt_mul (by decide)]
          rw [pow_succ] at h
          exact h
        have := ih (n / 10) k hdiv
        have hk : 1 ≤ k := by
          rcases Nat.eq_zero_or_pos k with h0 | h0
          · subst h0; simp at hdiv; omega
          · exact h0
        omega

theorem fmtNat_injective (a b : Nat) (h : fmtNat a = fmtNat b) : a = b := by
  have ha := digitsValue_natDigits (a + 1) a (Nat.lt_pow_self (by decide) _ |>.trans_le
    (Nat.pow_le_pow_right (by decide) (Nat.le_succ a)))
  have hb := digitsValue_natDigits (b + 1) b (Nat.lt_pow_self (by decide) _ |>.trans_le
    (Nat.pow_le_pow_right (by decide) (Nat.le_succ b)))
  have hd : natDigits (a + 1) a = natDigits (b + 1) b := by
    unfold fmtNat at h
    exact congrArg String.data h
  rw [← ha, ← hb, hd]

theorem fmtNat_length (n : Nat) (h : n < 10000000) : (fmtNat n).data.length ≤ 7 := by
  have := natDigits_length (n + 1) n 7 (by norm_num; exact h)
  simpa [fmtNat] using this

theorem fmtInt_of_nonneg (P : Int) (h : 0 ≤ P) : fmtInt P = fmtNat P.toNat := by
  unfold fmtInt
  rw [if_neg (by omega)]

theorem string_append_cancel (p a b : String) (h : p ++ a = p ++ b) : a = b := by
  have := congrArg String.data h
  simp only [String.data_append, List.append_cancel_left_eq] at this
  exact String.ext this

/-- C9: two different process ids get different host-side and different
container-side veth names. A process id is a number that is not negative and
has at most seven digits (the kernel gives none above `pid_max`, which is at
most 4194304), so its decimal text is kept whole by both names. -/
theorem veth_names_distinct (P1 P2 : Int) (h1 : 0 ≤ P1) (h2 : 0 ≤ P2)
    (hl1 : P1 < 10000000) (hl2 : P2 < 10000000) (hne : P1 ≠ P2) :
    vethHost (fmtInt P1) ≠ vethHost (fmtInt P2) ∧
      vethContainer (fmtInt P1) ≠ vethContainer (fmtInt P2) := by
  rw [fmtInt_of_nonneg P1 h1, fmtInt_of_nonneg P2 h2]
  have hn1 := fmtNat_length P1.toNat (by omega)
  have hn2 := fmtNat_length P2.toNat (by omega)
  have hdiff : fmtNat P1.toNat ≠ fmtNat P2.toNat := by
    intro e
    have := fmtNat_injective _ _ e
    omega
  unfold vethHost vethContainer
  rw [if_neg (by omega), if_neg (by omega), if_neg (by omega), if_neg (by omega)]
  exact ⟨fun e => hdiff (string_append_cancel _ _ _ e),
    fun e => hdiff (string_append_cancel _ _ _ e)⟩

/-- C9 (witness): the process ids 4711 and 4712. -/
theorem veth_names_distinct_witness :
    vethHost (fmtInt 4711) ≠ vethHost (fmtInt 4712) ∧
      vethContainer (fmtInt 4711) ≠ vethContainer (fmtInt 4712) :=
  veth_names_distinct 4711 4712 (by decide) (by decide) (by decide) (by decide) (by decide)

/-! ## RunContainer and privileges -/

/-- C10 (failing input): on the host of an unprivileged user (effective user
id 1000) on which every `ip` command fails, `RunContainer` with `network = true`
returns an error, but only after it has written the resolver file, started the
child and run the first network command; the child is then killed. When the
kernel refuses to start the child, the error returned is that of the start,
and the resolver file was written before. -/
theorem RunContainer_nonroot_network_spawns :
    sampleUserHost.euid ≠ 0 ∧
      (RunContainer sampleUserHost (sampleImageDir ++ ["rootfs"]) ["/bin/echo", "hi"] []
        true false).err = some "failed to configure network: failed to create veth pair" ∧
      (RunContainer sampleUserHost (sampleImageDir ++ ["rootfs"]) ["/bin/echo", "hi"] []
        true false).events =
        [Event.writeResolv (sampleImageDir ++ ["rootfs"]) "nameserver 8.8.8.8\nnameserver 8.8.4.4\n",
          Event.start (buildChild sampleUserHost (sampleImageDir ++ ["rootfs"])
            ["/bin/echo", "hi"] [] true),
          Event.exec ["ip", "link", "add", "veth4711", "type", "veth", "peer", "name",
            "vethc4711"],
          Event.kill 4711] ∧
      CloneFlag.CLONE_NEWUSER ∈ (buildChild sampleUserHost (sampleImageDir ++ ["rootfs"])
        ["/bin/echo", "hi"] [] true).Cloneflags ∧
      sampleUserHostNoStart.euid ≠ 0 ∧
      (RunContainer sampleUserHostNoStart (sampleImageDir ++ ["rootfs"]) ["/bin/echo", "hi"] []
        true false).err = some "fork/exec /proc/self/exe: operation not permitted" ∧
      (RunContainer sampleUserHostNoStart (sampleImageDir ++ ["rootfs"]) ["/bin/echo", "hi"] []
        true false).events =
        [Event.writeResolv (sampleImageDir ++ ["rootfs"])
          "nameserver 8.8.8.8\nnameserver 8.8.4.4\n"] := by
  decide

/-- What `RunContainer` does with `network = true` while the effective user id
is not 0, when the child can be started, in order: the resolver file is written by `setupDNS`,
the child is started, the commands of `ConfigureContainerNetwork` are run; when
one of them fails the child is killed and the error `failed to configure
network` is returned, otherwise the child is waited for and its exit error is
returned. -/
theorem RunContainer_nonroot_network (h : Host) (rootfs : Path) (command envVars : List String)
    (interactive : Bool) (heuid : h.euid ≠ 0) (hstart : h.startError = none) :
    (RunContainer h rootfs command envVars true interactive).events =
        setupDNSEvents h rootfs ++
          [Event.start (buildChild h rootfs command envVars true)] ++
          (ConfigureContainerNetwork h.run [] h.childPid (fmtInt h.childPid)).2.map Event.exec ++
          (match (ConfigureContainerNetwork h.run [] h.childPid (fmtInt h.childPid)).1 with
            | Except.error _ => [Event.kill h.childPid]
            | Except.ok _ => [Event.wait h.childPid] ++ fixOwnership h rootfs) ∧
      (RunContainer h rootfs command envVars true interactive).err =
        (match (ConfigureContainerNetwork h.run [] h.childPid (fmtInt h.childPid)).1 with
          | Except.error e => some ("failed to configure network: " ++ e)
          | Except.ok _ => h.childExit) := by
  unfold RunContainer
  simp only [heuid, false_and, if_false, hstart, Bool.not_true, Bool.false_eq_true, if_true,
    List.nil_append]
  rcases hnet : ConfigureContainerNetwork h.run [] h.childPid (fmtInt h.childPid) with ⟨r, cmds⟩
  cases r with
  | error e => simp
  | ok u => simp

/-- The events above on the host of the unprivileged user. -/
theorem RunContainer_nonroot_network_witness :
    (RunContainer sampleUserHost (sampleImageDir ++ ["rootfs"]) ["/bin/echo", "hi"] [] true
        false).events =
        setupDNSEvents sampleUserHost (sampleImageDir ++ ["rootfs"]) ++
          [Event.start (buildChild sampleUserHost (sampleImageDir ++ ["rootfs"])
            ["/bin/echo", "hi"] [] true)] ++
          (ConfigureContainerNetwork sampleUserHost.run [] sampleUserHost.childPid
            (fmtInt sampleUserHost.childPid)).2.map Event.exec ++
          (match (ConfigureContainerNetwork sampleUserHost.run [] sampleUserHost.childPid
              (fmtInt sampleUserHost.childPid)).1 with
            | Except.error _ => [Event.kill sampleUserHost.childPid]
            | Except.ok _ => [Event.wait sampleUserHost.childPid] ++
                fixOwnership sampleUserHost (sampleImageDir ++ ["rootfs"])) ∧
      (RunContainer sampleUserHost (sampleImageDir ++ ["rootfs"]) ["/bin/echo", "hi"] [] true
        false).err =
        (match (ConfigureContainerNetwork sampleUserHost.run [] sampleUserHost.childPid
            (fmtInt sampleUserHost.childPid)).1 with
          | Except.error e => some ("failed to configure network: " ++ e)
          | Except.ok _ => sampleUserHost.childExit) :=
  RunContainer_nonroot_network sampleUserHost (sampleImageDir ++ ["rootfs"]) ["/bin/echo", "hi"]
    [] false (by decide) rfl

/-! ## Later layers overwrite earlier ones -/

theorem Keeps_refl (fs : FS) : Keeps fs fs := fun _ _ h => h

theorem Keeps_trans {a b c : FS} (h1 : Keeps a b) (h2 : Keeps b c) : Keeps a c :=
  fun x n h => h2 x n (h1 x n h)

theorem Ext_of_Keeps {fs fs' : FS} (h : Keeps fs fs') : Ext fs fs' :=
  fun x n hn => ⟨n, h x n hn, sameKind_refl n⟩

theorem FilesKept_of_Keeps {fs fs' : FS} (w : Option Path) (h : Keeps fs fs') :
    FilesKept w fs fs' := fun x _ _ _ hx => h x _ hx

theorem Keeps_setNode_new (fs : FS) (loc : Path) (n : Node) (h : nodeAt fs loc = none) :
    Keeps fs (setNode fs loc n) := by
  intro x m hx
  have hloc := ne_nil_of_nodeAt_none fs loc h
  have hfs : fs loc = none := by rw [← nodeAt_of_ne_nil fs loc hloc]; exact h
  have : x ≠ loc := by
    intro e
    rw [e, hfs] at hx
    exact absurd hx (by simp)
  simp [setNode, this, hx]

theorem Keeps_mkdir (umask : Nat) (fs : FS) (p : Path) (mode : Nat) :
    Keeps fs (mkdir umask fs p mode).1 := by
  unfold mkdir
  cases hr : resolve fs false p with
  | error e => exact Keeps_refl fs
  | ok loc =>
    cases hn : nodeAt fs loc with
    | some n => simp only [hn]; exact Keeps_refl fs
    | none => simp only [hn]; exact Keeps_setNode_new fs loc _ hn

theorem Keeps_mkdirAllRev (umask mode : Nat) :
    ∀ (r : List String) (fs : FS), Keeps fs (mkdirAllRev umask mode r fs).1 := by
  intro r
  induction r with
  | nil => intro fs; exact Keeps_refl fs
  | cons c r ih =>
    intro fs
    rw [mkdirAllRev_fst]
    have hpar : Keeps fs (if r = [] then (fs, Except.ok ()) else mkdirAllRev umask mode r fs).1 := by
      split
      · exact Keeps_refl fs
      · exact ih fs
    generalize (if r = [] then (fs, Except.ok ()) else mkdirAllRev umask mode r fs) = par
      at hpar ⊢
    split
    · exact Keeps_refl fs
    · split
      · exact Keeps_trans hpar (Keeps_mkdir _ _ _ _)
      · exact hpar

theorem Keeps_MkdirAll (umask : Nat) (fs : FS) (p : Path) (mode : Nat) :
    Keeps fs (MkdirAll umask fs p mode).1 :=
  Keeps_mkdirAllRev umask mode _ fs

theorem Keeps_symlink (fs : FS) (linkname : String) (p : Path) :
    Keeps fs (symlink fs linkname p).1 := by
  unfold symlink
  split
  · exact Keeps_refl fs
  · cases hr : resolve fs false p with
    | error e => exact Keeps_refl fs
    | ok loc =>
      cases hn : nodeAt fs loc with
      | some n => simp only [hn]; exact Keeps_refl fs
      | none => simp only [hn]; exact Keeps_setNode_new fs loc _ hn

/-- What a successfully processed entry does to the state: every node keeps
its kind, and every file keeps content and mode except at the location the
entry writes its body to. -/
theorem extractEntry_frame (umask : Nat) (destDir : Path) (fs fs' : FS) (header : Entry)
    (h : extractEntry umask destDir fs header = (fs', Except.ok ())) :
    Ext fs fs' ∧ FilesKept (writeLocOf umask destDir fs header) fs fs' := by
  cases ht : header.Typeflag with
  | TypeDir =>
    have hk : Keeps fs fs' := by
      unfold extractEntry at h
      simp only [ht] at h
      have := Keeps_MkdirAll umask fs (joinPath destDir header.Name) header.Mode
      rcases hmk : MkdirAll umask fs (joinPath destDir header.Name) header.Mode with ⟨fs1, r1⟩
      rw [hmk] at h this
      cases r1 with
      | error e => simp at h
      | ok u => simp only [Prod.mk.injEq, and_true] at h; rw [← h]; exact this
    exact ⟨Ext_of_Keeps hk, FilesKept_of_Keeps _ hk⟩
  | other =>
    have hk : Keeps fs fs' := by
      unfold extractEntry at h
      simp only [ht, Prod.mk.injEq, and_true] at h
      rw [← h]; exact Keeps_refl fs
    exact ⟨Ext_of_Keeps hk, FilesKept_of_Keeps _ hk⟩
  | TypeSymlink =>
    have hk : Keeps fs fs' := by
      unfold extractEntry at h
      simp only [ht] at h
      have h1 := Keeps_MkdirAll umask fs (joinPath destDir header.Name).dropLast 0o755
      rcases hmk : MkdirAll umask fs (joinPath destDir header.Name).dropLast 0o755 with ⟨fs1, r1⟩
      rw [hmk] at h h1
      cases r1 with
      | error e => simp at h
      | ok u =>
        simp only at h
        have h2 := Keeps_symlink fs1 header.Linkname (joinPath destDir header.Name)
        rcases hsl : symlink fs1 header.Linkname (joinPath destDir header.Name) with ⟨fs2, r2⟩
        rw [hsl] at h h2
        cases r2 with
        | ok u2 =>
          simp only [Prod.mk.injEq, and_true] at h
          rw [← h]; exact Keeps_trans h1 h2
        | error e =>
          simp only at h
          split at h
          · simp only [Prod.mk.injEq, and_true] at h
            rw [← h]; exact Keeps_trans h1 h2
          · simp at h
    exact ⟨Ext_of_Keeps hk, FilesKept_of_Keeps _ hk⟩
  | TypeReg =>
    obtain ⟨loc, fs1, fs2, hmk, hcr, hne, _, hfs'⟩ :=
      extractEntry_reg_ok umask destDir fs fs' header ht h
    obtain ⟨_, _, hold, m0, hfs2⟩ := create_ok umask fs1 fs2 _ loc hcr
    have hk1 : Keeps fs fs1 := by
      have := Keeps_MkdirAll umask fs (joinPath destDir header.Name).dropLast 0o755
      rw [hmk] at this; exact this
    have hw : writeLocOf umask destDir fs header = some loc := by
      unfold writeLocOf
      simp only [ht, hmk, hcr]
    have hother : ∀ x, x ≠ loc → fs' x = fs1 x := by
      intro x hx
      simp [hfs', hfs2, setNode, hx]
    refine ⟨?_, ?_⟩
    · intro x n hn
      by_cases hx : x = loc
      · subst hx
        have h1 := hk1 x n hn
        rcases hold with h0 | ⟨d0, m1, h0⟩
        · rw [h0] at h1; exact absurd h1 (by simp)
        · rw [h0] at h1
          have : n = Node.file d0 m1 := by simpa using h1.symm
          subst this
          exact ⟨Node.file header.data (header.Mode % 512), by simp [hfs', setNode],
            by simp [sameKind]⟩
      · exact ⟨n, by rw [hother x hx]; exact hk1 x n hn, sameKind_refl n⟩
    · intro x d m hx hfile
      rw [hw] at hx
      have hx' : x ≠ loc := fun e => hx (by rw [e])
      rw [hother x hx']
      exact hk1 x _ hfile

theorem extractEntries_cons_ok (umask : Nat) (destDir : Path) (fs fs' : FS) (header : Entry)
    (rest : List Entry)
    (h : extractEntries umask destDir fs (header :: rest) = (fs', Except.ok ())) :
    extractEntry umask destDir fs header
        = ((extractEntry umask destDir fs header).1, Except.ok ()) ∧
      extractEntries umask destDir (extractEntry umask destDir fs header).1 rest
        = (fs', Except.ok ()) := by
  rw [extractEntries] at h
  rcases hstep : extractEntry umask destDir fs header with ⟨fs1, r1⟩
  rw [hstep] at h
  cases r1 with
  | error e => simp at h
  | ok u => exact ⟨rfl, h⟩

/-- A run of entries without error keeps the kind of every node, and keeps
content and mode of every file to which none of the entries writes. -/
theorem extractEntries_frame (umask : Nat) (destDir : Path) :
    ∀ (entries : List Entry) (fs fs' : FS),
      extractEntries umask destDir fs entries = (fs', Except.ok ()) →
      Ext fs fs' ∧ ∀ loc d m, writesTo umask destDir fs entries loc = false →
        fs loc = some (Node.file d m) → fs' loc = some (Node.file d m) := by
  intro entries
  induction entries with
  | nil =>
    intro fs fs' h
    simp only [extractEntries, Prod.mk.injEq, and_true] at h
    subst h
    exact ⟨Ext_refl fs, fun _ _ _ _ hf => hf⟩
  | cons header rest ih =>
    intro fs fs' h
    obtain ⟨hstep, hrest⟩ := extractEntries_cons_ok umask destDir fs fs' header rest h
    obtain ⟨hext1, hkept1⟩ := extractEntry_frame umask destDir fs _ header hstep
    obtain ⟨hext2, hkept2⟩ := ih _ fs' hrest
    refine ⟨Ext_trans hext1 hext2, ?_⟩
    intro loc d m hw hf
    simp only [writesTo, Bool.or_eq_false_iff, decide_eq_false_iff_not] at hw
    exact hkept2 loc d m hw.2 (hkept1 loc d m (fun e => hw.1 e.symm) hf)

theorem extractEntries_append (umask : Nat) (destDir : Path) :
    ∀ (a b : List Entry) (fs : FS),
      extractEntries umask destDir fs (a ++ b) =
        match extractEntries umask destDir fs a with
        | (fs1, Except.ok _) => extractEntries umask destDir fs1 b
        | (fs1, Except.error e) => (fs1, Except.error e) := by
  intro a
  induction a with
  | nil => intro b fs; simp [extractEntries]
  | cons header rest ih =>
    intro b fs
    rw [List.cons_append, extractEntries, extractEntries]
    rcases hstep : extractEntry umask destDir fs header with ⟨fs1, r1⟩
    cases r1 with
    | error e => rfl
    | ok u => exact ih b fs1

/-- What can be examined as a file stays a file in every state that keeps the
nodes and their kinds. -/
theorem stat_file_Ext (fs fs' : FS) (hext : Ext fs fs') (p : Path) (d : String) (m : Nat)
    (h : stat fs p = Except.ok (Node.file d m)) :
    ∃ d' m', stat fs' p = Except.ok (Node.file d' m') := by
  unfold stat at h
  cases hr : resolve fs true p with
  | error e => rw [hr] at h; simp at h
  | ok l =>
    rw [hr] at h
    simp only at h
    cases hn : nodeAt fs l with
    | none => rw [hn] at h; simp at h
    | some n =>
      rw [hn] at h
      have hnn : n = Node.file d m := by simpa using h
      subst hnn
      have hl : l ≠ [] := by
        intro e
        simp [nodeAt, e] at hn
      have hw := walk_Ext fs fs' true hext _ _ _ _ hr (by rw [hn]; simp)
      rw [nodeAt_of_ne_nil fs l hl] at hn
      obtain ⟨n', hn', hk⟩ := hext l _ hn
      cases n' with
      | dir m' => simp [sameKind] at hk
      | link t => simp [sameKind] at hk
      | file d' m' =>
        refine ⟨d', m', ?_⟩
        unfold stat resolve
        rw [hw]
        simp [nodeAt, hl, hn']

/-- The last write wins, for one run of entries: the entry `header` writes its
body to the location `loc`, no entry after it writes there, and the run ends
without error; then the target of `header` is a file with the body and the
permission bits of `header`. -/
theorem extractEntries_last_write (umask : Nat) (destDir : Path) (fs fs' : FS)
    (pre post : List Entry) (header : Entry) (loc : Path)
    (hrun : extractEntries umask destDir fs (pre ++ header :: post) = (fs', Except.ok ()))
    (hloc : writeLocOf umask destDir (extractEntries umask destDir fs pre).1 header = some loc)
    (hlast : writesTo umask destDir
      (extractEntry umask destDir (extractEntries umask destDir fs pre).1 header).1 post loc
        = false) :
    stat fs' (joinPath destDir header.Name)
      = Except.ok (Node.file header.data (header.Mode % 512)) := by
  rw [extractEntries_append] at hrun
  rcases hpre : extractEntries umask destDir fs pre with ⟨fs0, r0⟩
  rw [hpre] at hrun hloc hlast
  cases r0 with
  | error e => simp at hrun
  | ok u =>
    simp only at hrun hloc hlast
    obtain ⟨hstep, hrest⟩ := extractEntries_cons_ok umask destDir fs0 fs' header post hrun
    generalize (extractEntry umask destDir fs0 header).1 = fs1 at hstep hrest hlast
    have ht : header.Typeflag = Typeflag.TypeReg := by
      unfold writeLocOf at hloc
      cases hty : header.Typeflag <;> simp [hty] at hloc ⊢
    obtain ⟨loc', fsa, fsb, hmk, hcr, hne, hres, hfs1⟩ :=
      extractEntry_reg_ok umask destDir fs0 fs1 header ht hstep
    have hlocs : loc' = loc := by
      unfold writeLocOf at hloc
      simp only [ht, hmk, hcr, Option.some.injEq] at hloc
      exact hloc
    subst hlocs
    have hfile1 : fs1 loc' = some (Node.file header.data (header.Mode % 512)) := by
      simp [hfs1, setNode]
    obtain ⟨hext, hkept⟩ := extractEntries_frame umask destDir post fs1 fs' hrest
    have hfile' := hkept loc' _ _ hlast hfile1
    have hw := walk_Ext fs1 fs' true hext _ _ _ _ hres (by
      rw [nodeAt_of_ne_nil fs1 loc' hne, hfile1]; simp)
    unfold stat resolve
    rw [hw]
    simp [nodeAt, hne, hfile']

theorem extractTar_ok_entries (env : Env) (fs fs1 : FS) (tarPath destDir : Path)
    (h : extractTar env fs tarPath destDir = (fs1, Except.ok ())) :
    extractEntries env.umask destDir fs (entriesOf env fs tarPath) = (fs1, Except.ok ()) := by
  unfold extractTar at h
  unfold entriesOf
  cases hs : stat fs tarPath with
  | error e => rw [hs] at h; simp at h
  | ok n =>
    rw [hs] at h
    cases n with
    | dir m => simp at h
    | link t => simp at h
    | file blob m =>
      simp only at h ⊢
      cases hg : env.gunzip blob with
      | none => rw [hg] at h; simp at h
      | some stream =>
        rw [hg] at h
        simp only at h ⊢
        rcases hrun : extractEntries env.umask destDir fs stream.entries with ⟨fs2, r2⟩
        rw [hrun] at h
        cases r2 with
        | error e => simp at h
        | ok u =>
          simp only at h
          split at h
          · simp only [Prod.mk.injEq, and_true] at h
            rw [h]
          · simp at h

theorem LayersApplied_entries (env : Env) (imageDir extractDir : Path) :
    ∀ (layers : List String) (fs fs' : FS),
      LayersApplied env imageDir extractDir fs layers fs' →
      extractEntries env.umask extractDir fs (layerEntries env imageDir extractDir fs layers)
        = (fs', Except.ok ()) := by
  intro layers
  induction layers with
  | nil =>
    intro fs fs' h
    simp only [LayersApplied] at h
    subst h
    simp [layerEntries, extractEntries]
  | cons d rest ih =>
    intro fs fs' h
    obtain ⟨fs1, h1, h2⟩ := h
    rw [layerEntries, extractEntries_append, extractTar_ok_entries env fs fs1 _ _ h1, h1]
    exact ih fs1 fs' h2

/-- C5: all layers of a manifest are extracted without error, leading from the
state `fs` to `fs'`. Among their entries, in manifest order, the entry `header`
writes its body to the location `loc` (it is a regular-file entry, and `loc` is
where its target path resolves when it is processed), and no entry after it
writes there. Then in the resulting state the target path of `header` is a
file with the body and the permission bits of `header`: the last regular-file
entry for a path decides its content; and every path that was a file before
`header` was processed is still a file. -/
theorem layers_last_write (env : Env) (imageDir extractDir : Path) (fs fs' : FS)
    (layers : List String) (pre post : List Entry) (header : Entry) (loc : Path)
    (happ : LayersApplied env imageDir extractDir fs layers fs')
    (hsplit : layerEntries env imageDir extractDir fs layers = pre ++ header :: post)
    (hloc : writeLocOf env.umask extractDir (extractEntries env.umask extractDir fs pre).1 header
      = some loc)
    (hlast : writesTo env.umask extractDir
      (extractEntry env.umask extractDir (extractEntries env.umask extractDir fs pre).1 header).1
        post loc = false) :
    stat fs' (joinPath extractDir header.Name)
        = Except.ok (Node.file header.data (header.Mode % 512)) ∧
      ∀ p d m, stat (extractEntries env.umask extractDir fs pre).1 p = Except.ok (Node.file d m) →
        ∃ d' m', stat fs' p = Except.ok (Node.file d' m') := by
  have hrun := LayersApplied_entries env imageDir extractDir layers fs fs' happ
  rw [hsplit] at hrun
  refine ⟨extractEntries_last_write env.umask extractDir fs fs' pre post header loc hrun hloc
    hlast, ?_⟩
  rw [extractEntries_append] at hrun
  rcases hpre : extractEntries env.umask extractDir fs pre with ⟨fs0, r0⟩
  rw [hpre] at hrun
  cases r0 with
  | error e => simp at hrun
  | ok u =>
    simp only at hrun ⊢
    obtain ⟨hext, _⟩ := extractEntries_frame env.umask extractDir _ fs0 fs' hrun
    intro p d m hs
    exact stat_file_Ext fs0 fs' hext p d m hs

/-- C5 (witness): the sample image; layer `A` creates `bin/sh` and `etc/issue`,
layer `B` overwrites `etc/issue`. -/
theorem layers_last_write_witness :
    stat (extractLayers sampleEnv sampleImageDir (sampleImageDir ++ ["rootfs"])
        (sampleFS "sha256:a,sha256:b") ["sha256:a", "sha256:b"]).fs
        (joinPath (sampleImageDir ++ ["rootfs"]) "etc/issue")
      = Except.ok (Node.file "B" (0o600 % 512)) :=
  (layers_last_write sampleEnv sampleImageDir (sampleImageDir ++ ["rootfs"])
    (sampleFS "sha256:a,sha256:b") _ ["sha256:a", "sha256:b"]
    [⟨"bin/sh", Typeflag.TypeReg, 0o755, "", "#!sh", true⟩,
      ⟨"etc/issue", Typeflag.TypeReg, 0o644, "", "A", true⟩]
    [] ⟨"etc/issue", Typeflag.TypeReg, 0o600, "", "B", true⟩
    (sampleImageDir ++ ["rootfs", "etc", "issue"])
    (extractLayers_applied sampleEnv _ _ _ _ (by decide)).1 (by decide) (by decide)
    (by decide)).1

/-! ## RunContainer without networking -/

theorem makePathTraversable_isChmod (fs : FS) (path : Path) :
    ∀ e ∈ makePathTraversable fs path, ∃ d m, e = Event.chmod d m := by
  intro e he
  unfold makePathTraversable at he
  obtain ⟨dir, _, hd⟩ := List.mem_filterMap.mp he
  split at hd
  · simp at hd
  · split at hd
    · exact ⟨_, _, (Option.some.inj hd).symm⟩
    · simp at hd

theorem fixOwnership_isChown (h : Host) (rootfs : Path) :
    ∀ e ∈ fixOwnership h rootfs, ∃ u g, e = Event.chownTree rootfs u g := by
  intro e he
  unfold fixOwnership at he
  split at he
  · exact ⟨_, _, by simpa using he⟩
  · simp at he

/-- C11: `RunContainer` called with `network = false` runs no command (no
`ip`, `iptables` or `nsenter`) and does not write the resolver file; it starts
the child and waits for it before anything else happens, and returns the error
of `cmd.Run()`: the exit error of the child, `nil` when it exits cleanly (or
the error of a child that could not be started). -/
theorem RunContainer_without_network (h : Host) (rootfs : Path) (command envVars : List String)
    (interactive : Bool) :
    (∀ e ∈ (RunContainer h rootfs command envVars false interactive).events,
      e.isNetworkOp = false ∧ ∀ pid, e ≠ Event.kill pid) ∧
    (RunContainer h rootfs command envVars false interactive).err =
      (match h.startError with
        | some e => some e
        | none => h.childExit) ∧
    (h.startError = none →
      (RunContainer h rootfs command envVars false interactive).events =
        (if h.euid = 0 ∧ h.sudoUID ≠ "" then
          makePathTraversable h.fs rootfs ++ ensureRootOwnership rootfs else []) ++
        [Event.start (buildChild h rootfs command envVars false), Event.wait h.childPid] ++
        fixOwnership h rootfs) := by
  have hbefore : ∀ e ∈ (if h.euid = 0 ∧ h.sudoUID ≠ "" then
      makePathTraversable h.fs rootfs ++ ensureRootOwnership rootfs else []),
      e.isNetworkOp = false ∧ ∀ pid, e ≠ Event.kill pid := by
    intro e he
    split at he
    · rcases List.mem_append.mp he with h1 | h1
      · obtain ⟨d, m, rfl⟩ := makePathTraversable_isChmod _ _ e h1
        exact ⟨rfl, fun _ => by simp⟩
      · simp only [ensureRootOwnership, List.mem_singleton] at h1
        subst h1
        exact ⟨rfl, fun _ => by simp⟩
    · simp at he
  have hfix : ∀ e ∈ fixOwnership h rootfs,
      e.isNetworkOp = false ∧ ∀ pid, e ≠ Event.kill pid := by
    intro e he
    obtain ⟨u, g, rfl⟩ := fixOwnership_isChown h rootfs e he
    exact ⟨rfl, fun _ => by simp⟩
  unfold RunContainer
  simp only [Bool.not_false, if_true, Bool.false_eq_true, if_false, List.append_nil]
  cases hs : h.startError with
  | some e =>
    refine ⟨?_, rfl, fun hc => by simp at hc⟩
    intro ev hev
    rcases List.mem_append.mp hev with h1 | h1
    · exact hbefore ev h1
    · exact hfix ev h1
  | none =>
    refine ⟨?_, rfl, fun _ => rfl⟩
    intro ev hev
    simp only [List.mem_append, List.mem_cons, List.mem_singleton, List.not_mem_nil,
      or_false] at hev
    rcases hev with (h1 | h1 | h1) | h1
    · exact hbefore ev h1
    · subst h1; exact ⟨rfl, fun _ => by simp⟩
    · subst h1; exact ⟨rfl, fun _ => by simp⟩
    · exact hfix ev h1

/-! ## Namespaces, command and ownership in RunContainer -/

theorem start_mem_events (h : Host) (rootfs : Path) (command envVars : List String)
    (network interactive : Bool) (cmd : ChildCmd)
    (hc : Event.start cmd ∈ (RunContainer h rootfs command envVars network interactive).events) :
    cmd = buildChild h rootfs command envVars network := by
  have hbefore : ∀ c, Event.start c ∉ (if h.euid = 0 ∧ h.sudoUID ≠ "" then
      makePathTraversable h.fs rootfs ++ ensureRootOwnership rootfs else []) := by
    intro c hm
    split at hm
    · rcases List.mem_append.mp hm with h1 | h1
      · obtain ⟨d, m, e⟩ := makePathTraversable_isChmod _ _ _ h1
        simp at e
      · simp [ensureRootOwnership] at h1
    · simp at hm
  have hfix : ∀ c, Event.start c ∉ fixOwnership h rootfs := by
    intro c hm
    obtain ⟨u, g, e⟩ := fixOwnership_isChown h rootfs _ hm
    simp at e
  have hdns : ∀ c, Event.start c ∉ (if network then setupDNSEvents h rootfs else []) := by
    intro c hm
    split at hm
    · unfold setupDNSEvents at hm
      split at hm <;> simp at hm
    · simp at hm
  unfold RunContainer at hc
  simp only at hc
  cases network with
  | false =>
    simp only [Bool.not_false, if_true] at hc
    cases hs : h.startError with
    | some e =>
      simp only [hs, List.mem_append] at hc
      rcases hc with (h1 | h1) | h1
      · exact absurd h1 (hbefore cmd)
      · exact absurd h1 (hdns cmd)
      · exact absurd h1 (hfix cmd)
    | none =>
      simp only [hs, List.mem_append, List.mem_cons, List.mem_singleton, List.not_mem_nil,
        or_false] at hc
      rcases hc with ((h1 | h1) | h1 | h1) | h1
      · exact absurd h1 (hbefore cmd)
      · exact absurd h1 (hdns cmd)
      · simpa using h1
      · simp at h1
      · exact absurd h1 (hfix cmd)
  | true =>
    simp only [Bool.not_true, Bool.false_eq_true, if_false] at hc
    cases hs : h.startError with
    | some e =>
      simp only [hs, List.mem_append] at hc
      rcases hc with h1 | h1
      · exact absurd h1 (hbefore cmd)
      · exact absurd h1 (hdns cmd)
    | none =>
      simp only [hs] at hc
      rcases hn : ConfigureContainerNetwork h.run [] h.childPid (fmtInt h.childPid) with ⟨r, cmds⟩
      rw [hn] at hc
      cases r with
      | error e =>
        simp only [List.mem_append, List.mem_cons, List.mem_singleton, List.not_mem_nil,
          or_false, List.mem_map] at hc
        rcases hc with (((h1 | h1) | h1) | h1) | h1
        · exact absurd h1 (hbefore cmd)
        · exact absurd h1 (hdns cmd)
        · simpa using h1
        · obtain ⟨_, _, e⟩ := h1; simp at e
        · simp at h1
      | ok u =>
        simp only [List.mem_append, List.mem_cons, List.mem_singleton, List.not_mem_nil,
          or_false, List.mem_map] at hc
        rcases hc with ((((h1 | h1) | h1) | h1) | h1) | h1
        · exact absurd h1 (hbefore cmd)
        · exact absurd h1 (hdns cmd)
        · simpa using h1
        · obtain ⟨_, _, e⟩ := h1; simp at e
        · simp at h1
        · exact absurd h1 (hfix cmd)

/-- C13: every child `RunContainer` starts has the mount, UTS, IPC, PID and
network namespace flags; it has the user namespace flag exactly when the
effective user id is not 0; then the uid map and the gid map are the single
range from container id 0 to the host uid (gid) of size 65536, and with
effective user id 0 there are no id mappings. -/
theorem RunContainer_namespaces (h : Host) (rootfs : Path) (command envVars : List String)
    (network interactive : Bool) (cmd : ChildCmd)
    (hc : Event.start cmd ∈ (RunContainer h rootfs command envVars network interactive).events) :
    CloneFlag.CLONE_NEWNS ∈ cmd.Cloneflags ∧ CloneFlag.CLONE_NEWUTS ∈ cmd.Cloneflags ∧
      CloneFlag.CLONE_NEWIPC ∈ cmd.Cloneflags ∧ CloneFlag.CLONE_NEWPID ∈ cmd.Cloneflags ∧
      CloneFlag.CLONE_NEWNET ∈ cmd.Cloneflags ∧
      (CloneFlag.CLONE_NEWUSER ∈ cmd.Cloneflags ↔ h.euid ≠ 0) ∧
      (h.euid ≠ 0 → cmd.UidMappings = [⟨0, h.uid, 65536⟩] ∧
        cmd.GidMappings = [⟨0, h.gid, 65536⟩]) ∧
      (h.euid = 0 → cmd.UidMappings = [] ∧ cmd.GidMappings = []) := by
  rw [start_mem_events h rootfs command envVars network interactive cmd hc]
  unfold buildChild
  by_cases he : h.euid = 0 <;> simp [he]

/-- C13 (witness): the host of the unprivileged user, without networking. -/
theorem RunContainer_namespaces_witness :
    CloneFlag.CLONE_NEWUSER ∈ (buildChild sampleUserHost (sampleImageDir ++ ["rootfs"])
        ["/bin/echo", "hi"] [] false).Cloneflags ↔ sampleUserHost.euid ≠ 0 :=
  (RunContainer_namespaces sampleUserHost (sampleImageDir ++ ["rootfs"]) ["/bin/echo", "hi"] []
    false false _ (by decide)).2.2.2.2.2.1

theorem probeShells_eq_find (fs : FS) (rootfs : Path) :
    ∀ l : List String, probeShells fs rootfs l = l.find? (shellQualifies fs rootfs) := by
  intro l
  induction l with
  | nil => rfl
  | cons s rest ih =>
    rw [probeShells, List.find?]
    cases hs : stat fs (joinPath rootfs (String.mk (s.data.drop 1))) with
    | error e =>
      have hq : shellQualifies fs rootfs s = false := by
        unfold shellQualifies; rw [hs]
      rw [hq]
      exact ih
    | ok n =>
      have hq : shellQualifies fs rootfs s = !n.isDir := by
        unfold shellQualifies; rw [hs]
      rw [hq]
      cases hd : n.isDir with
      | true => simp [hd, ih]
      | false => simp [hd]

/-- C14: called with an empty command, `RunContainer` launches the single
shell that is first in the list `/usr/bin/bash`, `/bin/bash`, `/usr/bin/sh`,
`/bin/sh`, `/bin/ash`, `/bin/dash` among those that exist inside the rootfs and
are no directory, or `/bin/sh` when there is none; a command that is not empty
is launched as it is. The child is started with the arguments `child` and this
command. -/
theorem RunContainer_command (h : Host) (rootfs : Path) (command envVars : List String)
    (network interactive : Bool) (cmd : ChildCmd)
    (hc : Event.start cmd ∈ (RunContainer h rootfs command envVars network interactive).events) :
    shells = ["/usr/bin/bash", "/bin/bash", "/usr/bin/sh", "/bin/sh", "/bin/ash", "/bin/dash"] ∧
      (command = [] → cmd.Args = ["child",
        (shells.find? (shellQualifies h.fs rootfs)).getD "/bin/sh"]) ∧
      (command ≠ [] → cmd.Args = "child" :: command) := by
  rw [start_mem_events h rootfs command envVars network interactive cmd hc]
  refine ⟨rfl, ?_, ?_⟩
  · intro he
    subst he
    simp only [buildChild, chooseCommand, List.length_nil, if_true, probeShells_eq_find]
    cases List.find? (shellQualifies h.fs rootfs) shells <;> rfl
  · intro hne
    have : command.length ≠ 0 := by
      intro e
      exact hne (List.length_eq_zero.mp e)
    simp [buildChild, chooseCommand, this]

/-- C14 (witness): the sample rootfs after extraction holds `/bin/sh` only. -/
theorem RunContainer_command_witness :
    (buildChild { sampleUserHost with
        fs := (Extract sampleEnv (sampleFS "sha256:a,sha256:b") "alpine").fs }
      (sampleImageDir ++ ["rootfs"]) [] [] false).Args = ["child", "/bin/sh"] :=
  ((RunContainer_command { sampleUserHost with
        fs := (Extract sampleEnv (sampleFS "sha256:a,sha256:b") "alpine").fs }
      (sampleImageDir ++ ["rootfs"]) [] [] false false _ (by decide)).2.1 rfl).trans (by decide)

/-- C18 (failing input): an unprivileged user (effective user id 1000) with
`SUDO_UID` and `SUDO_GID` in the environment: after the child has exited,
`RunContainer` issues the recursive change of owner of the rootfs. -/
theorem RunContainer_chown_without_root :
    sampleSudoEnvHost.euid ≠ 0 ∧
      Event.chownTree (sampleImageDir ++ ["rootfs"]) 1000 1000 ∈
        (RunContainer sampleSudoEnvHost (sampleImageDir ++ ["rootfs"]) ["/bin/echo", "hi"] []
          false false).events := by
  decide

theorem filter_ownership_before (h : Host) (rootfs : Path) :
    (if h.euid = 0 ∧ h.sudoUID ≠ "" then
        makePathTraversable h.fs rootfs ++ ensureRootOwnership rootfs else []).filter
        Event.isOwnershipOp
      = (if h.euid = 0 ∧ h.sudoUID ≠ "" then
        makePathTraversable h.fs rootfs ++ ensureRootOwnership rootfs else []) := by
  rw [List.filter_eq_self]
  intro e he
  split at he
  · rcases List.mem_append.mp he with h1 | h1
    · obtain ⟨d, m, rfl⟩ := makePathTraversable_isChmod _ _ e h1
      rfl
    · simp only [ensureRootOwnership, List.mem_singleton] at h1
      subst h1; rfl
  · simp at he

theorem filter_ownership_fix (h : Host) (rootfs : Path) :
    (fixOwnership h rootfs).filter Event.isOwnershipOp = fixOwnership h rootfs := by
  rw [List.filter_eq_self]
  intro e he
  obtain ⟨u, g, rfl⟩ := fixOwnership_isChown h rootfs e he
  rfl

theorem filter_ownership_dns (h : Host) (rootfs : Path) (network : Bool) :
    (if network then setupDNSEvents h rootfs else []).filter Event.isOwnershipOp = [] := by
  rw [List.filter_eq_nil_iff]
  intro e he
  split at he
  · unfold setupDNSEvents at he
    split at he
    · simp only [List.mem_singleton] at he
      subst he; simp [Event.isOwnershipOp]
    · simp only [List.mem_cons, List.mem_singleton, List.not_mem_nil, or_false] at he
      rcases he with he | he <;> subst he <;> simp [Event.isOwnershipOp]
  · simp at he

theorem filter_ownership_exec (cmds : List Cmd) :
    (cmds.map Event.exec).filter Event.isOwnershipOp = [] := by
  rw [List.filter_eq_nil_iff]
  intro e he
  obtain ⟨c, _, rfl⟩ := List.mem_map.mp he
  simp [Event.isOwnershipOp]

/-- The changes of mode and owner `RunContainer` issues are exactly these, in order: before the start, and only when the effective user id
is 0 and `SUDO_UID` is set, the `chmod` of the rootfs ancestors and the
recursive `chown` of the rootfs to root; and at its end (which it reaches
always without networking, and with networking when the child was started and
the network configured) what `fixOwnership` does, which is the recursive
`chown` to the original user and group when `SUDO_UID` and `SUDO_GID` are both
set, whatever the effective user id, and nothing otherwise. -/
theorem RunContainer_ownership (h : Host) (rootfs : Path) (command envVars : List String)
    (network interactive : Bool) :
    (RunContainer h rootfs command envVars network interactive).events.filter
        Event.isOwnershipOp =
      (if h.euid = 0 ∧ h.sudoUID ≠ "" then
        makePathTraversable h.fs rootfs ++ ensureRootOwnership rootfs else []) ++
      (if reachesEnd h network then fixOwnership h rootfs else []) ∧
    fixOwnership h rootfs =
      (if h.sudoUID ≠ "" ∧ h.sudoGID ≠ "" then
        [Event.chownTree rootfs (atoi h.sudoUID) (atoi h.sudoGID)] else []) := by
  refine ⟨?_, rfl⟩
  unfold RunContainer reachesEnd
  simp only
  cases network with
  | false =>
    simp only [Bool.not_false, if_true]
    cases hs : h.startError with
    | some e =>
      simp only [List.filter_append, filter_ownership_before, filter_ownership_fix]
      simp
    | none =>
      simp only [List.filter_append, filter_ownership_before, filter_ownership_fix]
      simp [Event.isOwnershipOp]
  | true =>
    simp only [Bool.not_true, Bool.false_eq_true, if_false]
    cases hs : h.startError with
    | some e =>
      simp only [List.filter_append, filter_ownership_before]
      simp [setupDNSEvents, Event.isOwnershipOp]
    | none =>
      simp only
      rcases hn : ConfigureContainerNetwork h.run [] h.childPid (fmtInt h.childPid) with ⟨r, cmds⟩
      cases r with
      | error e =>
        simp only [List.filter_append, filter_ownership_before, filter_ownership_exec, isOk]
        have := filter_ownership_dns h rootfs true
        simp only [if_true] at this
        simp [this, Event.isOwnershipOp]
      | ok u =>
        simp only [List.filter_append, filter_ownership_before, filter_ownership_exec,
          filter_ownership_fix, isOk]
        have := filter_ownership_dns h rootfs true
        simp only [if_true] at this
        simp [this, Event.isOwnershipOp]

theorem string_append_cancel_right (a b s : String) (h : a ++ s = b ++ s) : a = b := by
  have := congrArg String.data h
  simp only [String.data_append, List.append_cancel_right_eq] at this
  exact String.ext this

theorem containerIP_ne_octet (P : Int) (h : 0 ≤ P) (k : Nat) (hk : k < 2 ∨ 254 < k) :
    containerIP P ≠ "172.18.0." ++ fmtNat k ++ "/24" := by
  intro heq
  unfold containerIP at heq
  have h0 : 0 ≤ P.tmod 253 := Int.tmod_nonneg _ h
  have h1 : P.tmod 253 < 253 := Int.tmod_lt_of_pos _ (by decide)
  rw [fmtInt_of_nonneg _ (by omega)] at heq
  have h2 := fmtNat_injective _ _
    (string_append_cancel _ _ _ (string_append_cancel_right _ _ _ heq))
  omega

/-- C20: for a process id `P` that is not negative, the last octet
`2 + P % 253` of the address `ConfigureContainerNetwork` assigns lies between 2
and 254, both included, the address is `172.18.0.` followed by that octet in
decimal and the prefix length, and so it is none of the network address
`172.18.0.0`, the address of the bridge `172.18.0.1` (the constant `bridgeIP`)
and the broadcast address `172.18.0.255`. -/
theorem containerIP_host_range (P : Int) (h : 0 ≤ P) :
    2 ≤ 2 + P.tmod 253 ∧ 2 + P.tmod 253 ≤ 254 ∧
    containerIP P = "172.18.0." ++ fmtNat (2 + P.tmod 253).toNat ++ "/24" ∧
    containerIP P ≠ "172.18.0.0/24" ∧ containerIP P ≠ bridgeIP ∧
    containerIP P ≠ "172.18.0.255/24" := by
  have h0 : 0 ≤ P.tmod 253 := Int.tmod_nonneg _ h
  have h1 : P.tmod 253 < 253 := Int.tmod_lt_of_pos _ (by decide)
  refine ⟨by omega, by omega, ?_, ?_, ?_, ?_⟩
  · unfold containerIP
    rw [fmtInt_of_nonneg _ (by omega)]
  · have e : "172.18.0.0/24" = "172.18.0." ++ fmtNat 0 ++ "/24" := by decide
    rw [e]
    exact containerIP_ne_octet P h 0 (by omega)
  · have e : bridgeIP = "172.18.0." ++ fmtNat 1 ++ "/24" := by decide
    rw [e]
    exact containerIP_ne_octet P h 1 (by omega)
  · have e : "172.18.0.255/24" = "172.18.0." ++ fmtNat 255 ++ "/24" := by decide
    rw [e]
    exact containerIP_ne_octet P h 255 (by omega)

theorem containerIP_host_range_witness :
    2 ≤ 2 + (4711 : Int).tmod 253 ∧ 2 + (4711 : Int).tmod 253 ≤ 254 ∧
    containerIP 4711 = "172.18.0." ++ fmtNat (2 + (4711 : Int).tmod 253).toNat ++ "/24" ∧
    containerIP 4711 ≠ "172.18.0.0/24" ∧ containerIP 4711 ≠ bridgeIP ∧
    containerIP 4711 ≠ "172.18.0.255/24" :=
  containerIP_host_range 4711 (by decide)

theorem validNameservers_eq_filter (lines : List String) :
    validNameservers lines =
      (lines.filterMap declaredNameserver).filter (fun ns => !isLocalhost ns) := by
  induction lines with
  | nil => rfl
  | cons line rest ih =>
    rw [validNameservers, ih]
    unfold nameserverOfLine declaredNameserver
    simp only
    by_cases h1 : trimSpace line = "" ∨ (trimSpace line).data.head? = some '#'
    · simp only [List.filterMap_cons, if_pos h1]
    · simp only [List.filterMap_cons, if_neg h1]
      by_cases h2 : (trimSpace line).data.length > 11 ∧
          (trimSpace line).data.take 11 = "nameserver ".data
      · simp only [if_pos h2]
        cases hl : isLocalhost (trimSpace (String.mk ((trimSpace line).data.drop 11))) with
        | true => simp [List.filter_cons, hl]
        | false => simp [List.filter_cons, hl]
      · simp only [if_neg h2]

theorem foldl_nameserver_lines (valid : List String) (acc : String) :
    valid.foldl (fun content ns => content ++ "nameserver " ++ ns ++ "\n") acc =
      acc ++ nameserverLines valid := by
  induction valid generalizing acc with
  | nil => simp [nameserverLines]
  | cons ns rest ih =>
    rw [List.foldl_cons, ih, nameserverLines]
    simp only [String.append_assoc]

/-- The content `setupDNS` writes, in the terms of its own loop: the `127.`...,
`::1` and `localhost` entries are left out of what the loop reads as name
server lines, the rest is written one per line, and the two public lines stand
in when nothing is left or the host file cannot be read. -/
theorem dnsContent_lines (host : String) :
    dnsContent none = "nameserver 8.8.8.8\nnameserver 8.8.4.4\n" ∧
    dnsContent (some host) =
      (if ((splitLines host).filterMap declaredNameserver).filter
            (fun ns => !isLocalhost ns) = []
        then "nameserver 8.8.8.8\nnameserver 8.8.4.4\n"
        else nameserverLines (((splitLines host).filterMap declaredNameserver).filter
            (fun ns => !isLocalhost ns))) := by
  refine ⟨rfl, ?_⟩
  unfold dnsContent
  simp only
  rw [validNameservers_eq_filter, foldl_nameserver_lines]
  cases hv : ((splitLines host).filterMap declaredNameserver).filter
      (fun ns => !isLocalhost ns) with
  | nil => simp [publicDNS]
  | cons a l => simp

theorem dnsContent_lines_sample :
    dnsContent (some "# stub\nnameserver 127.0.0.53\n  nameserver 1.1.1.1\r\noptions edns0\nnameserver ::1\nsearch lan\nnameserver 9.9.9.9")
      = "nameserver 1.1.1.1\nnameserver 9.9.9.9\n" := by
  decide

/-! ## Where an entry writes -/

theorem cleanInto_no_dotdot : ∀ (comps : List String) (cur : Path), ".." ∉ comps →
    cleanInto cur comps = cur ++ comps.filter (fun c => decide (c ≠ "" ∧ c ≠ ".")) := by
  intro comps
  induction comps with
  | nil => intro cur _; simp [cleanInto]
  | cons c rest ih =>
    intro cur h
    have hc : c ≠ ".." := fun e => h (by simp [e])
    have hr : ".." ∉ rest := fun e => h (List.mem_cons_of_mem _ e)
    rw [cleanInto]
    by_cases h1 : c = "" ∨ c = "."
    · rw [if_pos h1, ih cur hr]
      have : decide (c ≠ "" ∧ c ≠ ".") = false := by
        rcases h1 with h1 | h1 <;> simp [h1]
      rw [List.filter_cons, this]
      simp
    · rw [if_neg h1, if_neg hc, ih _ hr]
      have : decide (c ≠ "" ∧ c ≠ ".") = true := by
        simp only [not_or] at h1
        simp [h1.1, h1.2]
      rw [List.filter_cons, this]
      simp

/-- Without links on the way and with proper components, a path resolves to
itself. -/
theorem walk_lexical (fs : FS) (f : Bool) :
    ∀ (gas : Nat) (cur : Path) (comps : List String) (loc : Path),
      (∀ c ∈ comps, ProperName c) → NoLinkOn fs (cur ++ comps) →
      walk fs f gas cur comps = Except.ok loc → loc = cur ++ comps := by
  intro gas
  induction gas with
  | zero =>
    intro cur comps loc _ _ h
    cases comps with
    | nil => simp [walk] at h; simp [h]
    | cons c rest => simp [walk] at h
  | succ gas ih =>
    intro cur comps loc hp hl h
    cases comps with
    | nil => simp [walk] at h; simp [h]
    | cons c rest =>
      obtain ⟨h1, h2, h3⟩ := hp c (List.mem_cons_self _ _)
      rw [walk, if_neg (not_or.mpr ⟨h1, h2⟩), if_neg h3] at h
      have happ : cur ++ c :: rest = (cur ++ [c]) ++ rest := by simp
      cases hn : fs (cur ++ [c]) with
      | none =>
        simp only [hn] at h
        by_cases hr : rest = []
        · subst hr
          simp at h
          exact h.symm
        · simp [hr] at h
      | some n =>
        cases n with
        | dir m =>
          simp only [hn] at h
          rw [happ]
          exact ih _ rest loc (fun c' hc' => hp c' (List.mem_cons_of_mem _ hc'))
            (by rw [← happ]; exact hl) h
        | file d m =>
          simp only [hn] at h
          by_cases hr : rest = []
          · subst hr
            simp at h
            exact h.symm
          · simp [hr] at h
        | link t =>
          exact absurd hn (hl _ t (by rw [happ]; exact List.prefix_append _ _) (by simp))

theorem resolve_lexical (fs : FS) (f : Bool) (p loc : Path) (hp : ∀ c ∈ p, ProperName c)
    (hl : NoLinkOn fs p) (h : resolve fs f p = Except.ok loc) : loc = p := by
  have := walk_lexical fs f walkGas [] p loc hp (by simpa using hl) h
  simpa using this

theorem NewDirs_refl (fs : FS) (p : Path) : NewDirs fs fs p := fun _ => Or.inl rfl

theorem NewDirs_mono {fs fs' : FS} {p p' : Path} (h : NewDirs fs fs' p) (hp : p <+: p') :
    NewDirs fs fs' p' := by
  intro q
  rcases h q with h1 | ⟨h1, h2, h3, h4⟩
  · exact Or.inl h1
  · exact Or.inr ⟨h1.trans hp, h2, h3, h4⟩

theorem NoLinkOn_mono {fs : FS} {p p' : Path} (h : NoLinkOn fs p') (hp : p <+: p') :
    NoLinkOn fs p := fun q t hq hne => h q t (hq.trans hp) hne

theorem NoLinkOn_NewDirs {fs fs' : FS} {p full : Path} (h : NewDirs fs fs' p)
    (hl : NoLinkOn fs full) : NoLinkOn fs' full := by
  intro q t hq hne e
  rcases h q with h1 | ⟨_, _, _, m, h4⟩
  · rw [h1] at e
    exact hl q t hq hne e
  · rw [h4] at e
    simp at e

theorem NoLinkOn_setNode {fs : FS} {loc full : Path} {n : Node} (hl : NoLinkOn fs full)
    (hn : ∀ t, n ≠ Node.link t) : NoLinkOn (setNode fs loc n) full := by
  intro q t hq hne e
  unfold setNode at e
  split at e
  · simp only [Option.some.injEq] at e
    exact hn t e
  · exact hl q t hq hne e

/-- What `mkdir` does on a path without links: nothing, or a new directory
at the path itself. -/
theorem mkdir_lexical (umask : Nat) (fs : FS) (p : Path) (mode : Nat)
    (hp : ∀ c ∈ p, ProperName c) (hl : NoLinkOn fs p) :
    (mkdir umask fs p mode).1 = fs ∨
      (p ≠ [] ∧ fs p = none ∧
        (mkdir umask fs p mode).1 = setNode fs p (Node.dir (applyUmask umask mode))) := by
  unfold mkdir
  cases hr : resolve fs false p with
  | error e => exact Or.inl rfl
  | ok loc =>
    have hloc := resolve_lexical fs false p loc hp hl hr
    subst hloc
    cases hn : nodeAt fs loc with
    | some n => simp only [hn]; exact Or.inl trivial
    | none =>
      simp only [hn]
      have hne := ne_nil_of_nodeAt_none fs loc hn
      refine Or.inr ⟨hne, ?_, trivial⟩
      rw [← nodeAt_of_ne_nil fs loc hne]
      exact hn

theorem NewDirs_mkdirAllRev (umask mode : Nat) :
    ∀ (r : List String) (fs : FS), (∀ c ∈ r, ProperName c) → NoLinkOn fs r.reverse →
      NewDirs fs (mkdirAllRev umask mode r fs).1 r.reverse := by
  intro r
  induction r with
  | nil => intro fs _ _; exact NewDirs_refl fs _
  | cons c r ih =>
    intro fs hp hl
    have hpre : r.reverse <+: (c :: r).reverse := by
      rw [List.reverse_cons]
      exact List.prefix_append _ _
    have hpr : ∀ c' ∈ r, ProperName c' := fun c' hc' => hp c' (List.mem_cons_of_mem _ hc')
    rw [mkdirAllRev_fst]
    have hpar : NewDirs fs
        (if r = [] then (fs, Except.ok ()) else mkdirAllRev umask mode r fs).1 r.reverse := by
      split
      · exact NewDirs_refl fs _
      · exact ih fs hpr (NoLinkOn_mono hl hpre)
    generalize (if r = [] then (fs, Except.ok ()) else mkdirAllRev umask mode r fs) = par
      at hpar ⊢
    split
    · exact NewDirs_refl fs _
    · split
      · have hl1 : NoLinkOn par.1 (c :: r).reverse := NoLinkOn_NewDirs hpar hl
        have hpp : ∀ c' ∈ (c :: r).reverse, ProperName c' := by
          intro c' hc'
          exact hp c' (List.mem_reverse.mp hc')
        rcases mkdir_lexical umask par.1 (c :: r).reverse mode hpp hl1 with h1 | ⟨h1, h2, h3⟩
        · rw [h1]
          exact NewDirs_mono hpar hpre
        · rw [h3]
          intro q
          by_cases hq : q = (c :: r).reverse
          · subst hq
            refine Or.inr ⟨List.prefix_refl _, h1, ?_, applyUmask umask mode, by simp [setNode]⟩
            rcases hpar ((c :: r).reverse) with h4 | ⟨_, _, h5, _⟩
            · rw [← h4]; exact h2
            · exact h5
          · have : setNode par.1 (c :: r).reverse (Node.dir (applyUmask umask mode)) q
                = par.1 q := by
              unfold setNode
              rw [if_neg hq]
            rw [this]
            exact NewDirs_mono hpar hpre q
      · exact NewDirs_mono hpar hpre

theorem NewDirs_MkdirAll (umask : Nat) (fs : FS) (p : Path) (mode : Nat)
    (hp : ∀ c ∈ p, ProperName c) (hl : NoLinkOn fs p) :
    NewDirs fs (MkdirAll umask fs p mode).1 p := by
  have := NewDirs_mkdirAllRev umask mode p.reverse fs
    (fun c hc => hp c (List.mem_reverse.mp hc)) (by simpa using hl)
  simpa [MkdirAll] using this

theorem setNode_of_ne (fs : FS) (loc q : Path) (n : Node) (h : q ≠ loc) :
    setNode fs loc n q = fs q := by
  unfold setNode
  rw [if_neg h]

/-- What `os.Create` does on a path without links: nothing, or a file at the
path itself. -/
theorem create_lexical (umask : Nat) (fs : FS) (p : Path)
    (hp : ∀ c ∈ p, ProperName c) (hl : NoLinkOn fs p) :
    ((create umask fs p).1 = fs ∧ ∀ loc, (create umask fs p).2 ≠ Except.ok loc) ∨
      ∃ d m, create umask fs p = (setNode fs p (Node.file d m), Except.ok p) := by
  unfold create
  cases hr : resolve fs true p with
  | error e => simp
  | ok loc =>
    have hloc := resolve_lexical fs true p loc hp hl hr
    subst hloc
    cases hn : nodeAt fs loc with
    | none => simp only [hn]; exact Or.inr ⟨_, _, rfl⟩
    | some n =>
      cases n with
      | dir m => simp [hn]
      | file d m => simp only [hn]; exact Or.inr ⟨_, _, rfl⟩
      | link t => simp [hn]

theorem chmod_lexical (fs : FS) (p : Path) (mode : Nat)
    (hp : ∀ c ∈ p, ProperName c) (hl : NoLinkOn fs p) :
    (chmod fs p mode).1 = fs ∨ ∃ n, (chmod fs p mode).1 = setNode fs p n := by
  unfold chmod
  cases hr : resolve fs true p with
  | error e => exact Or.inl rfl
  | ok loc =>
    have hloc := resolve_lexical fs true p loc hp hl hr
    subst hloc
    simp only
    split
    · exact Or.inl rfl
    · cases hn : fs loc with
      | none => exact Or.inl rfl
      | some n =>
        cases n with
        | dir m => exact Or.inr ⟨_, rfl⟩
        | file d m => exact Or.inr ⟨_, rfl⟩
        | link t => exact Or.inl rfl

theorem symlink_lexical (fs : FS) (linkname : String) (p : Path)
    (hp : ∀ c ∈ p, ProperName c) (hl : NoLinkOn fs p) :
    (symlink fs linkname p).1 = fs ∨ ∃ n, (symlink fs linkname p).1 = setNode fs p n := by
  unfold symlink
  split
  · exact Or.inl rfl
  · cases hr : resolve fs false p with
    | error e => exact Or.inl rfl
    | ok loc =>
      have hloc := resolve_lexical fs false p loc hp hl hr
      subst hloc
      cases hn : nodeAt fs loc with
      | none => simp only [hn]; exact Or.inr ⟨_, rfl⟩
      | some n => simp only [hn]; exact Or.inl trivial

theorem writeAt_cases (fs : FS) (loc : Path) (data : String) :
    writeAt fs loc data = fs ∨ ∃ m, writeAt fs loc data = setNode fs loc (Node.file data m) := by
  unfold writeAt
  cases hn : fs loc with
  | none => exact Or.inl rfl
  | some n =>
    cases n with
    | dir m => exact Or.inl rfl
    | file d m => exact Or.inr ⟨m, rfl⟩
    | link t => exact Or.inl rfl

/-- New directories on the way to a path below `d` lie below `d`, when `d` is
reached through directories. -/
theorem NewDirs_within {fs fs' : FS} {p target d : Path} (h : NewDirs fs fs' p)
    (hp : p <+: target) (hd : d <+: target) (hr : Reach fs d) (q : Path) (hq : ¬ d <+: q) :
    fs' q = fs q := by
  rcases h q with h1 | ⟨h1, h2, h3, _⟩
  · exact h1
  · exfalso
    rcases List.prefix_or_prefix_of_prefix (h1.trans hp) hd with h4 | h4
    · have := hr q h4
      unfold isDirAt at this
      rw [nodeAt_of_ne_nil fs q h2, h3] at this
      simp at this
    · exact hq h4

theorem create_outside (umask : Nat) (fs : FS) (p q : Path)
    (hp : ∀ c ∈ p, ProperName c) (hl : NoLinkOn fs p) (hq : q ≠ p) :
    (create umask fs p).1 q = fs q := by
  rcases create_lexical umask fs p hp hl with ⟨h, _⟩ | ⟨d, m, h⟩
  · rw [h]
  · rw [h]
    exact setNode_of_ne fs p q _ hq

theorem create_loc (umask : Nat) (fs fs2 : FS) (p loc : Path)
    (hp : ∀ c ∈ p, ProperName c) (hl : NoLinkOn fs p)
    (h : create umask fs p = (fs2, Except.ok loc)) : loc = p ∧ NoLinkOn fs2 p := by
  rcases create_lexical umask fs p hp hl with ⟨_, h2⟩ | ⟨d, m, h2⟩
  · rw [h] at h2
    exact absurd rfl (h2 loc)
  · rw [h] at h2
    simp only [Prod.mk.injEq, Except.ok.injEq] at h2
    refine ⟨h2.2, ?_⟩
    rw [h2.1]
    exact NoLinkOn_setNode hl (by intro t; simp)

theorem writeAt_outside (fs : FS) (loc q : Path) (data : String) (hq : q ≠ loc) :
    writeAt fs loc data q = fs q := by
  rcases writeAt_cases fs loc data with h | ⟨m, h⟩
  · rw [h]
  · rw [h]
    exact setNode_of_ne fs loc q _ hq

theorem NoLinkOn_writeAt {fs : FS} {loc p : Path} (data : String) (hl : NoLinkOn fs p) :
    NoLinkOn (writeAt fs loc data) p := by
  rcases writeAt_cases fs loc data with h | ⟨m, h⟩
  · rw [h]; exact hl
  · rw [h]; exact NoLinkOn_setNode hl (by intro t; simp)

theorem chmod_outside (fs : FS) (p q : Path) (mode : Nat)
    (hp : ∀ c ∈ p, ProperName c) (hl : NoLinkOn fs p) (hq : q ≠ p) :
    (chmod fs p mode).1 q = fs q := by
  rcases chmod_lexical fs p mode hp hl with h | ⟨n, h⟩
  · rw [h]
  · rw [h]
    exact setNode_of_ne fs p q _ hq

theorem symlink_outside (fs : FS) (linkname : String) (p q : Path)
    (hp : ∀ c ∈ p, ProperName c) (hl : NoLinkOn fs p) (hq : q ≠ p) :
    (symlink fs linkname p).1 q = fs q := by
  rcases symlink_lexical fs linkname p hp hl with h | ⟨n, h⟩
  · rw [h]
  · rw [h]
    exact setNode_of_ne fs p q _ hq

/-- The target of an entry whose name has no `..` component: the destination
directory followed by the proper components of the name. -/
theorem joinPath_below (destDir : Path) (name : String)
    (hd : ∀ c ∈ destDir, ProperName c) (hn : ".." ∉ splitSlash name) :
    destDir <+: joinPath destDir name ∧ ∀ c ∈ joinPath destDir name, ProperName c := by
  unfold joinPath
  rw [cleanInto_no_dotdot _ _ hn]
  refine ⟨List.prefix_append _ _, ?_⟩
  intro c hc
  rcases List.mem_append.mp hc with h | h
  · exact hd c h
  · rw [List.mem_filter] at h
    obtain ⟨h1, h2⟩ := h
    simp only [decide_eq_true_eq] at h2
    exact ⟨h2.1, h2.2, fun e => hn (e ▸ h1)⟩

theorem NoLinkOn_below (fs : FS) (destDir target : Path) (hr : Reach fs destDir)
    (hl : ∀ q t, destDir <+: q → fs q ≠ some (Node.link t)) (hdt : destDir <+: target) :
    NoLinkOn fs target := by
  intro q t hq hne e
  rcases List.prefix_or_prefix_of_prefix hq hdt with h | h
  · have := hr q h
    unfold isDirAt at this
    rw [nodeAt_of_ne_nil fs q hne, e] at this
    simp [Node.isDir] at this
  · exact hl q t h e

theorem extractEntry_outside (umask : Nat) (destDir : Path) (fs : FS) (header : Entry)
    (hd : ∀ c ∈ destDir, ProperName c) (hr : Reach fs destDir)
    (hl : ∀ q t, destDir <+: q → fs q ≠ some (Node.link t))
    (hn : ".." ∉ splitSlash header.Name) (q : Path) (hq : ¬ destDir <+: q) :
    (extractEntry umask destDir fs header).1 q = fs q := by
  obtain ⟨hdt, hpt⟩ := joinPath_below destDir header.Name hd hn
  unfold extractEntry
  simp only
  generalize joinPath destDir header.Name = target at hdt hpt ⊢
  have hlt : NoLinkOn fs target := NoLinkOn_below fs destDir target hr hl hdt
  have hqt : q ≠ target := fun e => hq (e ▸ hdt)
  have hdp : target.dropLast <+: target := List.dropLast_prefix target
  have hpd : ∀ c ∈ target.dropLast, ProperName c := fun c hc => hpt c (hdp.subset hc)
  cases header.Typeflag with
  | TypeDir =>
    simp only
    have hnd := NewDirs_MkdirAll umask fs target header.Mode hpt hlt
    have h1 := NewDirs_within hnd (List.prefix_refl _) hdt hr q hq
    rcases hmk : MkdirAll umask fs target header.Mode with ⟨fs1, r1⟩
    rw [hmk] at h1
    cases r1 <;> exact h1
  | TypeReg =>
    simp only
    have hnd := NewDirs_MkdirAll umask fs target.dropLast 0o755 hpd (NoLinkOn_mono hlt hdp)
    have h1 := NewDirs_within hnd hdp hdt hr q hq
    have hl1 : NoLinkOn (MkdirAll umask fs target.dropLast 0o755).1 target :=
      NoLinkOn_NewDirs hnd hlt
    rcases hmk : MkdirAll umask fs target.dropLast 0o755 with ⟨fs1, r1⟩
    rw [hmk] at h1 hl1
    cases r1 with
    | error e => exact h1
    | ok u =>
      simp only
      have h2 := create_outside umask fs1 target q hpt hl1 hqt
      rcases hcr : create umask fs1 target with ⟨fs2, r2⟩
      rw [hcr] at h2
      cases r2 with
      | error e => exact h2.trans h1
      | ok loc =>
        obtain ⟨hloc, hl2⟩ := create_loc umask fs1 fs2 target loc hpt hl1 hcr
        rw [hloc]
        simp only
        have h3 := writeAt_outside fs2 target q header.data hqt
        have hl3 : NoLinkOn (writeAt fs2 target header.data) target :=
          NoLinkOn_writeAt header.data hl2
        split
        · have h4 := chmod_outside (writeAt fs2 target header.data) target q header.Mode
            hpt hl3 hqt
          rcases hch : chmod (writeAt fs2 target header.data) target header.Mode
            with ⟨fs4, r4⟩
          rw [hch] at h4
          cases r4 <;> exact h4.trans (h3.trans (h2.trans h1))
        · exact h3.trans (h2.trans h1)
  | TypeSymlink =>
    simp only
    have hnd := NewDirs_MkdirAll umask fs target.dropLast 0o755 hpd (NoLinkOn_mono hlt hdp)
    have h1 := NewDirs_within hnd hdp hdt hr q hq
    have hl1 : NoLinkOn (MkdirAll umask fs target.dropLast 0o755).1 target :=
      NoLinkOn_NewDirs hnd hlt
    rcases hmk : MkdirAll umask fs target.dropLast 0o755 with ⟨fs1, r1⟩
    rw [hmk] at h1 hl1
    cases r1 with
    | error e => exact h1
    | ok u =>
      simp only
      have h2 := symlink_outside fs1 header.Linkname target q hpt hl1 hqt
      rcases hsl : symlink fs1 header.Linkname target with ⟨fs2, r2⟩
      rw [hsl] at h2
      cases r2 with
      | error e =>
        simp only
        split <;> exact h2.trans h1
      | ok u2 => exact h2.trans h1
  | other => rfl

theorem reach_of_inits (fs : FS) (d : Path) (h : d.inits.all (isDirAt fs) = true) :
    Reach fs d := by
  intro q hq
  exact List.all_eq_true.mp h q ((List.mem_inits q d).mpr hq)

theorem noLink_ofList (l : List (Path × Node)) (h : l.all (fun pn => !pn.2.isLink) = true)
    (q : Path) (t : String) : ofList l q ≠ some (Node.link t) := by
  intro e
  have hm := mem_of_lookup q (Node.link t) l e
  have := List.all_eq_true.mp h _ hm
  simp [Node.isLink] at this

/-- C19 (counterexample): on the sample host, with the destination directory
`/srv/rootfs`, the entry named `../../etc/passwd` overwrites `/etc/passwd`,
which is not below the destination; and once the entry `lnk -> /etc` was
extracted, the entry named `lnk/passwd`, which has no `..` component, does the
same through the link. -/
theorem extractEntry_escapes :
    ¬ sampleDest <+: ["etc", "passwd"] ∧
    sampleHostFS ["etc", "passwd"] = some (Node.file "root" 0o644) ∧
    (extractEntry 0o022 sampleDest sampleHostFS escapeEntry).1 ["etc", "passwd"]
      = some (Node.file "evil" 0o644) ∧
    (extractEntry 0o022 sampleDest sampleHostFS linkEntry).1 ["etc", "passwd"]
      = some (Node.file "root" 0o644) ∧
    (extractEntry 0o022 sampleDest
        (extractEntry 0o022 sampleDest sampleHostFS linkEntry).1 throughLinkEntry).1
        ["etc", "passwd"]
      = some (Node.file "evil" 0o644) := by
  decide

/-- C19 (amended): when the destination directory is a clean path reached
through directories, no symbolic link lies at or below it, and the name of the
entry has no `..` component (a leading `/` and `.` components are allowed), the
target of the entry is the destination directory or lies below it, and so does
every path whose node or content the processing of the entry creates or
changes: the state outside the destination directory stays as it was. -/
theorem extractEntry_confined (umask : Nat) (destDir : Path) (fs : FS) (header : Entry)
    (hd : ∀ c ∈ destDir, ProperName c) (hr : Reach fs destDir)
    (hl : ∀ q t, destDir <+: q → fs q ≠ some (Node.link t))
    (hn : ".." ∉ splitSlash header.Name) :
    destDir <+: joinPath destDir header.Name ∧
    ∀ q, (extractEntry umask destDir fs header).1 q ≠ fs q → destDir <+: q := by
  refine ⟨(joinPath_below destDir header.Name hd hn).1, ?_⟩
  intro q hne
  by_contra hq
  exact hne (extractEntry_outside umask destDir fs header hd hr hl hn q hq)

theorem extractEntry_confined_witness :
    (∀ c ∈ sampleDest, ProperName c) ∧ Reach sampleHostFS sampleDest ∧
    ".." ∉ splitSlash toolEntry.Name ∧
    (extractEntry 0o022 sampleDest sampleHostFS toolEntry).1
        ["srv", "rootfs", "usr", "bin", "tool"] = some (Node.file "#!tool" 0o755) ∧
    (sampleDest <+: joinPath sampleDest toolEntry.Name ∧
      ∀ q, (extractEntry 0o022 sampleDest sampleHostFS toolEntry).1 q ≠ sampleHostFS q →
        sampleDest <+: q) :=
  ⟨by decide, reach_of_inits _ _ (by decide), by decide, by decide,
    extractEntry_confined 0o022 sampleDest sampleHostFS toolEntry (by decide)
      (reach_of_inits _ _ (by decide))
      (fun q t _ => noLink_ofList sampleHostList (by decide) q t) (by decide)⟩

/-! ## The bridge -/

/-- C12: when the interface `pulse0` exists, `SetupNetworking` returns success
and does nothing: it issues no command (no link, address, route or `iptables`
command), does not write the forwarding setting, and leaves the rules of the
packet filter as they are. -/
theorem SetupNetworking_bridge_exists (h : NetHost) (hb : h.bridgeExists = true) :
    (SetupNetworking h).result = Except.ok () ∧ (SetupNetworking h).cmds = [] ∧
    (SetupNetworking h).wroteForward = false ∧ (SetupNetworking h).rules = h.rules := by
  unfold SetupNetworking
  rw [if_pos hb]
  exact ⟨rfl, rfl, rfl, rfl⟩

theorem SetupNetworking_bridge_exists_witness :
    sampleBridgedHost.bridgeExists = true ∧
    ((SetupNetworking sampleBridgedHost).result = Except.ok () ∧
      (SetupNetworking sampleBridgedHost).cmds = [] ∧
      (SetupNetworking sampleBridgedHost).wroteForward = false ∧
      (SetupNetworking sampleBridgedHost).rules = sampleBridgedHost.rules) :=
  ⟨rfl, SetupNetworking_bridge_exists sampleBridgedHost rfl⟩

/-- On a host without the bridge `SetupNetworking` does issue commands. -/
theorem SetupNetworking_fresh_sample :
    (SetupNetworking sampleFreshHost).result = Except.ok () ∧
    (SetupNetworking sampleFreshHost).cmds.length = 8 ∧
    (SetupNetworking sampleFreshHost).wroteForward = true ∧
    (SetupNetworking sampleFreshHost).rules
      = [masqueradeRule "eth0", forwardInRule, forwardOutRule] := by
  decide

/-- C17 (failing input): with the masquerade rule on `eth0` in place and no
rule in `FORWARD`, `setupNAT` returns success after the check and leaves the
rules as they are: neither rule that accepts forwarding for the bridge is
there. -/
theorem setupNAT_skips_forward_rules :
    (setupNAT sampleNatHost []).result = Except.ok () ∧
    (setupNAT sampleNatHost []).rules = [masqueradeRule "eth0"] ∧
    forwardInRule ∉ (setupNAT sampleNatHost []).rules ∧
    forwardOutRule ∉ (setupNAT sampleNatHost []).rules := by
  decide

/-! ## The mounts of the container -/

/-- The loop over the devices only adds calls that belong to a device. -/
theorem mountDevices_tail (sys : SysOracle) (devPath : Path) :
    ∀ (devs : List String) (log : List (SysOp × Bool)),
      ∃ t, mountDevices sys devPath log devs = log ++ t ∧ ∀ x ∈ t, x.1.isOptional = true := by
  intro devs
  induction devs with
  | nil => intro log; exact ⟨[], by simp [mountDevices], by simp⟩
  | cons device rest ih =>
    intro log
    rw [mountDevices]
    simp only [sysCall]
    cases h1 : sys log (SysOp.stat (joinPath ["dev"] device)) with
    | false =>
      simp only
      obtain ⟨t, ht, hopt⟩ := ih (log ++ [(SysOp.stat (joinPath ["dev"] device), false)])
      refine ⟨(SysOp.stat (joinPath ["dev"] device), false) :: t, by simp [ht], ?_⟩
      intro x hx
      rcases List.mem_cons.mp hx with h | h
      · subst h; rfl
      · exact hopt x h
    | true =>
      simp only
      cases h2 : sys (log ++ [(SysOp.stat (joinPath ["dev"] device), true)])
          (SysOp.openFile (joinPath devPath device)) with
      | false =>
        simp only
        obtain ⟨t, ht, hopt⟩ := ih (log ++ [(SysOp.stat (joinPath ["dev"] device), true)] ++
          [(SysOp.openFile (joinPath devPath device), false)])
        refine ⟨(SysOp.stat (joinPath ["dev"] device), true) ::
          (SysOp.openFile (joinPath devPath device), false) :: t,
          (by simp only [List.append_assoc, List.cons_append, List.nil_append] at ht ⊢; exact ht), ?_⟩
        intro x hx
        simp only [List.mem_cons] at hx
        rcases hx with h | h | h
        · subst h; rfl
        · subst h; rfl
        · exact hopt x h
      | true =>
        simp only
        generalize hb : sys (log ++ [(SysOp.stat (joinPath ["dev"] device), true)] ++
          [(SysOp.openFile (joinPath devPath device), true)])
          (SysOp.mount (pathString (joinPath ["dev"] device)) (joinPath devPath device) ""
            MS_BIND "") = b
        obtain ⟨t, ht, hopt⟩ := ih (log ++ [(SysOp.stat (joinPath ["dev"] device), true)] ++
          [(SysOp.openFile (joinPath devPath device), true)] ++
          [(SysOp.mount (pathString (joinPath ["dev"] device)) (joinPath devPath device) ""
            MS_BIND "", b)])
        refine ⟨(SysOp.stat (joinPath ["dev"] device), true) ::
          (SysOp.openFile (joinPath devPath device), true) ::
          (SysOp.mount (pathString (joinPath ["dev"] device)) (joinPath devPath device) ""
            MS_BIND "", b) :: t, ?_, ?_⟩
        · cases b <;>
            simp only [List.append_assoc, List.cons_append, List.nil_append] at ht ⊢ <;>
            exact ht
        · intro x hx
          simp only [List.mem_cons] at hx
          rcases hx with h | h | h | h
          · subst h; rfl
          · subst h; rfl
          · subst h; rfl
          · exact hopt x h

/-- The shape of the calls of `setupMounts`: they follow the mandatory ones in
their order, a mandatory mount that failed anywhere is the last call, and an
error is returned right after a failed mandatory call only. -/
theorem setupMounts_trace_shape (sys : SysOracle) (rootfs : Path) :
    (((setupMounts sys rootfs).2.map Prod.fst) <+: mandatoryOps rootfs ∨
      mandatoryOps rootfs <+: (setupMounts sys rootfs).2.map Prod.fst) ∧
    (∀ M ∈ mandatoryMounts rootfs, (M, false) ∈ (setupMounts sys rootfs).2 →
      isOk (setupMounts sys rootfs).1 = false ∧
      (setupMounts sys rootfs).2.getLast? = some (M, false)) ∧
    (isOk (setupMounts sys rootfs).1 = false →
      ∃ op ∈ mandatoryOps rootfs, (setupMounts sys rootfs).2.getLast? = some (op, false)) := by
  unfold setupMounts mandatoryOps mandatoryMounts
  simp only [sysCall]
  generalize joinPath (joinPath rootfs "dev") "pts" = ptsPath
  generalize joinPath rootfs "proc" = procPath
  generalize joinPath rootfs "sys" = sysPath
  generalize joinPath rootfs "tmp" = tmpPath
  generalize joinPath rootfs "dev" = devPath
  cases h1 : sys [] (SysOp.mkdirAll procPath 0o755) with
  | false => simp [isOk]
  | true =>
    simp only [List.nil_append]
    cases h2 : sys [(SysOp.mkdirAll procPath 0o755, true)]
        (SysOp.mount "proc" procPath "proc" 0 "") with
    | false => simp [isOk]
    | true =>
      simp only [List.cons_append, List.nil_append]
      cases h3 : sys [(SysOp.mkdirAll procPath 0o755, true),
          (SysOp.mount "proc" procPath "proc" 0 "", true)] (SysOp.mkdirAll sysPath 0o755) with
      | false => simp [isOk]
      | true =>
        simp only [List.cons_append, List.nil_append]
        cases h4 : sys [(SysOp.mkdirAll procPath 0o755, true),
            (SysOp.mount "proc" procPath "proc" 0 "", true),
            (SysOp.mkdirAll sysPath 0o755, true)] (SysOp.mount "sysfs" sysPath "sysfs" 0 "") with
        | false => simp [isOk]
        | true =>
          simp only [List.cons_append, List.nil_append]
          cases h5 : sys [(SysOp.mkdirAll procPath 0o755, true),
              (SysOp.mount "proc" procPath "proc" 0 "", true),
              (SysOp.mkdirAll sysPath 0o755, true),
              (SysOp.mount "sysfs" sysPath "sysfs" 0 "", true)]
              (SysOp.mkdirAll tmpPath 0o755) with
          | false => simp [isOk]
          | true =>
            simp only [List.cons_append, List.nil_append]
            cases h6 : sys [(SysOp.mkdirAll procPath 0o755, true),
                (SysOp.mount "proc" procPath "proc" 0 "", true),
                (SysOp.mkdirAll sysPath 0o755, true),
                (SysOp.mount "sysfs" sysPath "sysfs" 0 "", true),
                (SysOp.mkdirAll tmpPath 0o755, true)]
                (SysOp.mount "tmpfs" tmpPath "tmpfs" 0 "") with
            | false => simp [isOk]
            | true =>
              simp only [List.cons_append, List.nil_append]
              cases h7 : sys [(SysOp.mkdirAll procPath 0o755, true),
                  (SysOp.mount "proc" procPath "proc" 0 "", true),
                  (SysOp.mkdirAll sysPath 0o755, true),
                  (SysOp.mount "sysfs" sysPath "sysfs" 0 "", true),
                  (SysOp.mkdirAll tmpPath 0o755, true),
                  (SysOp.mount "tmpfs" tmpPath "tmpfs" 0 "", true)]
                  (SysOp.mkdirAll devPath 0o755) with
              | false => simp [isOk]
              | true =>
                simp only [List.cons_append, List.nil_append]
                obtain ⟨t, ht, hopt⟩ := mountDevices_tail sys devPath devices
                  [(SysOp.mkdirAll procPath 0o755, true),
                  (SysOp.mount "proc" procPath "proc" 0 "", true),
                  (SysOp.mkdirAll sysPath 0o755, true),
                  (SysOp.mount "sysfs" sysPath "sysfs" 0 "", true),
                  (SysOp.mkdirAll tmpPath 0o755, true),
                  (SysOp.mount "tmpfs" tmpPath "tmpfs" 0 "", true),
                  (SysOp.mkdirAll devPath 0o755, true)]
                rw [ht]
                have hM : ∀ M : SysOp, M.isOptional = false → (M, false) ∉ t := by
                  intro M hM hmem
                  have := hopt _ hmem
                  simp only at this
                  rw [hM] at this
                  exact absurd this (by simp)
                generalize sys _ (SysOp.mkdirAll ptsPath 0o755) = b8
                cases b8 with
                | false =>
                  simp only [isOk]
                  refine ⟨Or.inr ?_, ?_, by simp⟩
                  · simp
                  · intro M hMm hmem
                    exfalso
                    simp only [List.mem_cons, List.mem_singleton, List.not_mem_nil,
                      or_false] at hMm
                    have hno : M.isOptional = false := by
                      rcases hMm with h | h | h <;> subst h <;> rfl
                    simp only [List.cons_append, List.nil_append, List.mem_cons,
                      List.mem_append, List.mem_singleton, Prod.mk.injEq] at hmem
                    rcases hMm with h | h | h <;> subst h <;>
                      simp [hM _ hno] at hmem
                | true =>
                  simp only [isOk]
                  refine ⟨Or.inr ?_, ?_, by simp⟩
                  · simp
                  · intro M hMm hmem
                    exfalso
                    simp only [List.mem_cons, List.mem_singleton, List.not_mem_nil,
                      or_false] at hMm
                    have hno : M.isOptional = false := by
                      rcases hMm with h | h | h <;> subst h <;> rfl
                    generalize sys _ (SysOp.mount "devpts" ptsPath "devpts" 0
                      "newinstance,ptmxmode=0666,mode=0620") = b9 at hmem
                    simp only [List.cons_append, List.nil_append, List.mem_cons,
                      List.mem_append, List.mem_singleton, Prod.mk.injEq] at hmem
                    rcases hMm with h | h | h <;> subst h <;>
                      simp [hM _ hno] at hmem

/-- With `sysfs` failing to mount, `setupMounts` stops there with an error:
`tmpfs` is never tried. -/
theorem setupMounts_sysfs_fails :
    setupMounts sampleNoSysfs sampleDest =
      (Except.error (MountError.failed "failed to mount /sys"),
        [(SysOp.mkdirAll ["srv", "rootfs", "proc"] 0o755, true),
         (SysOp.mount "proc" ["srv", "rootfs", "proc"] "proc" 0 "", true),
         (SysOp.mkdirAll ["srv", "rootfs", "sys"] 0o755, true),
         (SysOp.mount "sysfs" ["srv", "rootfs", "sys"] "sysfs" 0 "", false)]) := by
  decide

/-- With no host device and no `devpts`, `setupMounts` still succeeds. -/
theorem setupMounts_bare_ok :
    (setupMounts sampleBareSys sampleDest).1 = Except.ok () ∧
    (setupMounts sampleBareSys sampleDest).2.length = 14 ∧
    (SysOp.mount "devpts" ["srv", "rootfs", "dev", "pts"] "devpts" 0
      "newinstance,ptmxmode=0666,mode=0620", false) ∈ (setupMounts sampleBareSys sampleDest).2 := by
  decide

/-- C15: for every rootfs and every outcome of the calls to the operating
system: the mandatory calls are made in their order (directory and mount of
`proc`, of `sysfs`, of `tmpfs`, then the directory `dev`), each as long as all
calls before it succeeded, the first one always; a mandatory call that fails,
so each of the three mounts, is the last call made and the result is an error;
and an error is only ever returned right after a failed mandatory call, so
never for a missing host device, a placeholder or bind mount that fails, or
`devpts`. -/
theorem setupMounts_mandatory (sys : SysOracle) (rootfs : Path) :
    (∀ k op, (mandatoryOps rootfs).get? k = some op →
      ((setupMounts sys rootfs).2.take k).all Prod.snd = true →
      (setupMounts sys rootfs).2.get? k
        = some (op, sys ((setupMounts sys rootfs).2.take k) op)) ∧
    (∀ k op, (mandatoryOps rootfs).get? k = some op →
      (setupMounts sys rootfs).2.get? k = some (op, false) →
      isOk (setupMounts sys rootfs).1 = false ∧ (setupMounts sys rootfs).2.length = k + 1) ∧
    (isOk (setupMounts sys rootfs).1 = false →
      ∃ k op, (mandatoryOps rootfs).get? k = some op ∧
        (setupMounts sys rootfs).2.get? k = some (op, false) ∧
        (setupMounts sys rootfs).2.length = k + 1) := by
  unfold setupMounts mandatoryOps
  simp only [sysCall]
  generalize joinPath (joinPath rootfs "dev") "pts" = ptsPath
  generalize joinPath rootfs "proc" = procPath
  generalize joinPath rootfs "sys" = sysPath
  generalize joinPath rootfs "tmp" = tmpPath
  generalize joinPath rootfs "dev" = devPath
  cases h1 : sys []
      (SysOp.mkdirAll procPath 0o755) with
  | false =>
    simp only [List.cons_append, List.nil_append, isOk]
    refine ⟨?_, ?_, ?_⟩
    · intro k op hk hall
      rcases k with _ | _ | _ | _ | _ | _ | _ | k <;> simp at hk <;> subst hk <;> simp_all
    · intro k op hk hget
      rcases k with _ | _ | _ | _ | _ | _ | _ | k <;> simp at hk <;> subst hk <;> simp_all
    · intro _
      exact ⟨0, _, rfl, rfl, rfl⟩
  | true =>
    simp only [List.cons_append, List.nil_append]
    cases h2 : sys [(SysOp.mkdirAll procPath 0o755, true)]
        (SysOp.mount "proc" procPath "proc" 0 "") with
    | false =>
      simp only [List.cons_append, List.nil_append, isOk]
      refine ⟨?_, ?_, ?_⟩
      · intro k op hk hall
        rcases k with _ | _ | _ | _ | _ | _ | _ | k <;> simp at hk <;> subst hk <;> simp_all
      · intro k op hk hget
        rcases k with _ | _ | _ | _ | _ | _ | _ | k <;> simp at hk <;> subst hk <;> simp_all
      · intro _
        exact ⟨1, _, rfl, rfl, rfl⟩
    | true =>
      simp only [List.cons_append, List.nil_append]
      cases h3 : sys [(SysOp.mkdirAll procPath 0o755, true),
          (SysOp.mount "proc" procPath "proc" 0 "", true)]
          (SysOp.mkdirAll sysPath 0o755) with
      | false =>
        simp only [List.cons_append, List.nil_append, isOk]
        refine ⟨?_, ?_, ?_⟩
        · intro k op hk hall
          rcases k with _ | _ | _ | _ | _ | _ | _ | k <;> simp at hk <;> subst hk <;> simp_all
        · intro k op hk hget
          rcases k with _ | _ | _ | _ | _ | _ | _ | k <;> simp at hk <;> subst hk <;> simp_all
        · intro _
          exact ⟨2, _, rfl, rfl, rfl⟩
      | true =>
        simp only [List.cons_append, List.nil_append]
        cases h4 : sys [(SysOp.mkdirAll procPath 0o755, true),
            (SysOp.mount "proc" procPath "proc" 0 "", true),
            (SysOp.mkdirAll sysPath 0o755, true)]
            (SysOp.mount "sysfs" sysPath "sysfs" 0 "") with
        | false =>
          simp only [List.cons_append, List.nil_append, isOk]
          refine ⟨?_, ?_, ?_⟩
          · intro k op hk hall
            rcases k with _ | _ | _ | _ | _ | _ | _ | k <;> simp at hk <;> subst hk <;> simp_all
          · intro k op hk hget
            rcases k with _ | _ | _ | _ | _ | _ | _ | k <;> simp at hk <;> subst hk <;> simp_all
          · intro _
            exact ⟨3, _, rfl, rfl, rfl⟩
        | true =>
          simp only [List.cons_append, List.nil_append]
          cases h5 : sys [(SysOp.mkdirAll procPath 0o755, true),
              (SysOp.mount "proc" procPath "proc" 0 "", true),
              (SysOp.mkdirAll sysPath 0o755, true),
              (SysOp.mount "sysfs" sysPath "sysfs" 0 "", true)]
              (SysOp.mkdirAll tmpPath 0o755) with
          | false =>
            simp only [List.cons_append, List.nil_append, isOk]
            refine ⟨?_, ?_, ?_⟩
            · intro k op hk hall
              rcases k with _ | _ | _ | _ | _ | _ | _ | k <;> simp at hk <;> subst hk <;> simp_all
            · intro k op hk hget
              rcases k with _ | _ | _ | _ | _ | _ | _ | k <;> simp at hk <;> subst hk <;> simp_all
            · intro _
              exact ⟨4, _, rfl, rfl, rfl⟩
          | true =>
            simp only [List.cons_append, List.nil_append]
            cases h6 : sys [(SysOp.mkdirAll procPath 0o755, true),
                (SysOp.mount "proc" procPath "proc" 0 "", true),
                (SysOp.mkdirAll sysPath 0o755, true),
                (SysOp.mount "sysfs" sysPath "sysfs" 0 "", true),
                (SysOp.mkdirAll tmpPath 0o755, true)]
                (SysOp.mount "tmpfs" tmpPath "tmpfs" 0 "") with
            | false =>
              simp only [List.cons_append, List.nil_append, isOk]
              refine ⟨?_, ?_, ?_⟩
              · intro k op hk hall
                rcases k with _ | _ | _ | _ | _ | _ | _ | k <;> simp at hk <;> subst hk <;> simp_all
              · intro k op hk hget
                rcases k with _ | _ | _ | _ | _ | _ | _ | k <;> simp at hk <;> subst hk <;> simp_all
              · intro _
                exact ⟨5, _, rfl, rfl, rfl⟩
            | true =>
              simp only [List.cons_append, List.nil_append]
              cases h7 : sys [(SysOp.mkdirAll procPath 0o755, true),
                  (SysOp.mount "proc" procPath "proc" 0 "", true),
                  (SysOp.mkdirAll sysPath 0o755, true),
                  (SysOp.mount "sysfs" sysPath "sysfs" 0 "", true),
                  (SysOp.mkdirAll tmpPath 0o755, true),
                  (SysOp.mount "tmpfs" tmpPath "tmpfs" 0 "", true)]
                  (SysOp.mkdirAll devPath 0o755) with
              | false =>
                simp only [List.cons_append, List.nil_append, isOk]
                refine ⟨?_, ?_, ?_⟩
                · intro k op hk hall
                  rcases k with _ | _ | _ | _ | _ | _ | _ | k <;> simp at hk <;>
                    subst hk <;> simp_all
                · intro k op hk hget
                  rcases k with _ | _ | _ | _ | _ | _ | _ | k <;> simp at hk <;>
                    subst hk <;> simp_all
                · intro _
                  exact ⟨6, _, rfl, rfl, rfl⟩
              | true =>
                simp only [List.cons_append, List.nil_append]
                obtain ⟨t, ht, _⟩ := mountDevices_tail sys devPath devices
                  [(SysOp.mkdirAll procPath 0o755, true),
                      (SysOp.mount "proc" procPath "proc" 0 "", true),
                      (SysOp.mkdirAll sysPath 0o755, true),
                      (SysOp.mount "sysfs" sysPath "sysfs" 0 "", true),
                      (SysOp.mkdirAll tmpPath 0o755, true),
                      (SysOp.mount "tmpfs" tmpPath "tmpfs" 0 "", true),
                      (SysOp.mkdirAll devPath 0o755, true)]
                rw [ht]
                generalize sys _ (SysOp.mkdirAll ptsPath 0o755) = b8
                cases b8 with
                | false =>
                  simp only [List.cons_append, List.nil_append, isOk]
                  refine ⟨?_, ?_, by simp⟩
                  · intro k op hk hall
                    rcases k with _ | _ | _ | _ | _ | _ | _ | k <;> simp at hk <;>
                      subst hk <;> simp_all
                  · intro k op hk hget
                    rcases k with _ | _ | _ | _ | _ | _ | _ | k <;> simp at hk <;>
                      subst hk <;> simp_all
                | true =>
                  generalize sys _ (SysOp.mount "devpts" ptsPath "devpts" 0
                    "newinstance,ptmxmode=0666,mode=0620") = b9
                  simp only [List.cons_append, List.nil_append, isOk]
                  refine ⟨?_, ?_, by simp⟩
                  · intro k op hk hall
                    rcases k with _ | _ | _ | _ | _ | _ | _ | k <;> simp at hk <;>
                      subst hk <;> simp_all
                  · intro k op hk hget
                    rcases k with _ | _ | _ | _ | _ | _ | _ | k <;> simp at hk <;>
                      subst hk <;> simp_all

/-! ## Resolver files line by line -/

theorem dropWhile_all_true {p : Char → Bool} :
    ∀ (a b : List Char), (∀ c ∈ a, p c = true) → (a ++ b).dropWhile p = b.dropWhile p := by
  intro a
  induction a with
  | nil => intro b _; rfl
  | cons x a ih =>
    intro b h
    rw [List.cons_append, List.dropWhile_cons, if_pos (h x (List.mem_cons_self _ _))]
    exact ih b (fun c hc => h c (List.mem_cons_of_mem _ hc))

theorem dropWhile_head_false {p : Char → Bool} (c : Char) (l : List Char) (h : p c = false) :
    (c :: l).dropWhile p = c :: l := by
  rw [List.dropWhile_cons, if_neg (by simp [h])]

/-- Cutting at the end leaves a text that ends with a character to keep. -/
theorem rtrim_snoc {p : Char → Bool} (l : List Char) (d : Char) (h : p d = false) :
    ((l ++ [d]).reverse.dropWhile p).reverse = l ++ [d] := by
  rw [List.reverse_append, List.reverse_singleton, List.singleton_append,
    dropWhile_head_false d _ h]
  simp

/-- Cutting at the end removes the characters to cut. -/
theorem rtrim_append {p : Char → Bool} (l t : List Char) (h : ∀ c ∈ t, p c = true) :
    ((l ++ t).reverse.dropWhile p).reverse = (l.reverse.dropWhile p).reverse := by
  rw [List.reverse_append, dropWhile_all_true t.reverse l.reverse
    (fun c hc => h c (List.mem_reverse.mp hc))]

theorem rtrim_prefix {p : Char → Bool} (l : List Char) :
    (l.reverse.dropWhile p).reverse <+: l := by
  have h := List.dropWhile_suffix p (l := l.reverse)
  have := List.reverse_prefix.mpr h
  simpa using this

theorem rtrim_cons {p : Char → Bool} (a : Char) (l : List Char) (h : p a = false) :
    ∃ r, ((a :: l).reverse.dropWhile p).reverse = a :: r := by
  have hpre := rtrim_prefix (p := p) (a :: l)
  cases hr : ((a :: l).reverse.dropWhile p).reverse with
  | nil =>
    exfalso
    have : (a :: l).reverse.dropWhile p = [] := by
      have := congrArg List.reverse hr
      simpa using this
    rw [List.dropWhile_eq_nil_iff] at this
    have h2 := this a (by simp)
    rw [h] at h2
    exact absurd h2 (by simp)
  | cons x r =>
    rw [hr] at hpre
    obtain ⟨t, ht⟩ := hpre
    simp only [List.cons_append, List.cons.injEq] at ht
    exact ⟨r, by rw [ht.1]⟩

/-- Blanks around a text that starts and ends with other characters are what
`trimSpace` removes. -/
theorem trim_core (a w' t : List Char) (c d : Char) (ha : ∀ x ∈ a, isBlank x = true)
    (ht : ∀ x ∈ t, isBlank x = true) (hc : isBlank c = false) (hd : isBlank d = false) :
    (((a ++ (c :: w' ++ [d]) ++ t).dropWhile isBlank).reverse.dropWhile isBlank).reverse
      = c :: w' ++ [d] := by
  rw [List.append_assoc, dropWhile_all_true a _ ha]
  have e : (c :: w' ++ [d]) ++ t = c :: (w' ++ [d] ++ t) := by simp
  rw [e, dropWhile_head_false c _ hc, ← e, rtrim_append _ t ht, rtrim_snoc _ d hd]

theorem isBlank_iff (c : Char) : isBlank c = true ↔ Blank c := by
  simp [isBlank, Blank, or_assoc]

theorem isBlank_false_iff (c : Char) : isBlank c = false ↔ ¬ Blank c := by
  rw [← isBlank_iff]
  simp

/-- Blanks around a text that starts and ends with other characters are what
`trimSpace` removes. -/
theorem trim_word (a w t w1 w2 : List Char) (c d : Char) (ha : ∀ x ∈ a, Blank x)
    (ht : ∀ x ∈ t, Blank x) (hw1 : w = c :: w1) (hc : ¬ Blank c) (hw2 : w = w2 ++ [d])
    (hd : ¬ Blank d) :
    trimSpace (String.mk (a ++ w ++ t)) = String.mk w := by
  unfold trimSpace
  simp only
  rw [List.append_assoc, dropWhile_all_true a _ (fun x hx => (isBlank_iff x).mpr (ha x hx))]
  have e : (w ++ t).dropWhile isBlank = w ++ t := by
    rw [hw1, List.cons_append, dropWhile_head_false c _ ((isBlank_false_iff c).mpr hc)]
  rw [e, rtrim_append _ t (fun x hx => (isBlank_iff x).mpr (ht x hx))]
  conv_lhs => rw [hw2]
  rw [rtrim_snoc _ d ((isBlank_false_iff d).mpr hd), ← hw2]

theorem trim_blanks (a : List Char) (ha : ∀ x ∈ a, Blank x) :
    trimSpace (String.mk a) = "" := by
  unfold trimSpace
  simp only
  have : a.dropWhile isBlank = [] := by
    rw [List.dropWhile_eq_nil_iff]
    intro x hx
    exact (isBlank_iff x).mpr (ha x hx)
  rw [this]
  rfl

/-- After blanks, a text that starts with another character still starts with
it when cut by `trimSpace`. -/
theorem trim_head (a l : List Char) (c : Char) (ha : ∀ x ∈ a, Blank x) (hc : ¬ Blank c) :
    ∃ r, (trimSpace (String.mk (a ++ c :: l))).data = c :: r ∧ c :: r <+: c :: l := by
  unfold trimSpace
  simp only
  rw [dropWhile_all_true a _ (fun x hx => (isBlank_iff x).mpr (ha x hx)),
    dropWhile_head_false c _ ((isBlank_false_iff c).mpr hc)]
  obtain ⟨r, hr⟩ := rtrim_cons (p := isBlank) c l ((isBlank_false_iff c).mpr hc)
  refine ⟨r, hr, ?_⟩
  rw [← hr]
  exact rtrim_prefix _

/-- A word that ends at a blank or at the end of the text is determined by
the text. -/
theorem word_unique : ∀ (p w x r : List Char) (b : Char), (∀ c ∈ p, ¬ Blank c) →
    (∀ c ∈ w, ¬ Blank c) → Blank b → (∀ c r', r = c :: r' → Blank c) →
    p ++ b :: x = w ++ r → p = w := by
  intro p
  induction p with
  | nil =>
    intro w x r b _ hw hb _ he
    cases w with
    | nil => rfl
    | cons a w' =>
      simp only [List.nil_append, List.cons_append, List.cons.injEq] at he
      exact absurd (he.1 ▸ hb) (hw a (List.mem_cons_self _ _))
  | cons a p ih =>
    intro w x r b hp hw hb hr he
    cases w with
    | nil =>
      simp only [List.nil_append, List.cons_append] at he
      exact absurd (hr a _ he.symm) (hp a (List.mem_cons_self _ _))
    | cons a' w' =>
      simp only [List.cons_append, List.cons.injEq] at he
      rw [he.1, ih w' x r b (fun c hc => hp c (List.mem_cons_of_mem _ hc))
        (fun c hc => hw c (List.mem_cons_of_mem _ hc)) hb hr he.2]

theorem isLocalhost_false_iff (addr : String) :
    isLocalhost addr = false ↔ ¬ LoopbackAddr addr ∧ addr ≠ "localhost" := by
  unfold isLocalhost LoopbackAddr
  by_cases h1 : addr.data.length ≥ 4 ∧ addr.data.take 4 = "127.".data
  · rw [if_pos h1]
    constructor
    · intro h
      exact absurd h (by simp)
    · intro h
      exact absurd (Or.inl h1) h.1
  · rw [if_neg h1]
    by_cases h2 : addr = "::1" ∨ addr = "localhost"
    · rw [if_pos h2]
      constructor
      · intro h
        exact absurd h (by simp)
      · intro h
        rcases h2 with h2 | h2
        · exact absurd (Or.inr h2) h.1
        · exact absurd h2 h.2
    · rw [if_neg h2]
      constructor
      · intro _
        refine ⟨fun hl => ?_, fun e => h2 (Or.inr e)⟩
        rcases hl with hl | hl
        · exact h1 hl
        · exact h2 (Or.inl hl)
      · intro _
        rfl

theorem nameserverOfLine_nameserver (lead gap addr trail : String)
    (h : (ResolvLine.nameserver lead gap addr trail).WellFormed) :
    nameserverOfLine (ResolvLine.nameserver lead gap addr trail).text =
      if ¬ LoopbackAddr addr ∧ addr ≠ "localhost" then some addr else none := by
  obtain ⟨hlead, hgap, ⟨hne, haddr⟩, htrail⟩ := h
  have hk : ("nameserver " : String).data.length = 11 := rfl
  have hk1 : ("nameserver " : String).data = 'n' :: "ameserver ".data := rfl
  have hdne : addr.data ≠ [] := fun e => hne (String.ext e)
  obtain ⟨c, w1, hw1⟩ := List.exists_cons_of_ne_nil hdne
  rcases List.eq_nil_or_concat addr.data with e | ⟨w2, d, hw2⟩
  · exact absurd e hdne
  rw [List.concat_eq_append] at hw2
  have hc : ¬ Blank c := (haddr c (by rw [hw1]; exact List.mem_cons_self _ _)).1
  have hd : ¬ Blank d := (haddr d (by rw [hw2]; simp)).1
  have htext : (ResolvLine.nameserver lead gap addr trail).text =
      String.mk (lead.data ++ ("nameserver ".data ++ (gap.data ++ addr.data)) ++ trail.data) := by
    apply String.ext
    simp [ResolvLine.text, String.data_append, List.append_assoc]
  have htrim : trimSpace (ResolvLine.nameserver lead gap addr trail).text =
      String.mk ("nameserver ".data ++ (gap.data ++ addr.data)) := by
    rw [htext]
    refine trim_word lead.data _ trail.data ("ameserver ".data ++ (gap.data ++ addr.data))
      ("nameserver ".data ++ (gap.data ++ w2)) 'n' d hlead htrail ?_ (by decide) ?_ hd
    · rw [hk1]; rfl
    · rw [hw2]; simp [List.append_assoc]
  have hns : trimSpace (String.mk (gap.data ++ addr.data)) = addr := by
    have := trim_word gap.data addr.data [] w1 w2 c d hgap (by simp) hw1 hc hw2 hd
    simpa using this
  unfold nameserverOfLine
  simp only [htrim]
  have h1 : ¬ (String.mk ("nameserver ".data ++ (gap.data ++ addr.data)) = "" ∨
      ("nameserver ".data ++ (gap.data ++ addr.data)).head? = some '#') := by
    rw [hk1]
    intro h
    rcases h with h | h
    · have := congrArg String.data h
      simp at this
    · simp at h
  rw [if_neg h1]
  have h2 : ("nameserver ".data ++ (gap.data ++ addr.data)).length > 11 ∧
      ("nameserver ".data ++ (gap.data ++ addr.data)).take 11 = "nameserver ".data := by
    refine ⟨?_, List.take_left' hk⟩
    rw [List.length_append, List.length_append, hk, hw1]
    simp
  rw [if_pos h2, List.drop_left' hk, hns]
  by_cases hl : ¬ LoopbackAddr addr ∧ addr ≠ "localhost"
  · rw [if_pos hl, (isLocalhost_false_iff addr).mpr hl]
    rfl
  · rw [if_neg hl]
    have : isLocalhost addr = true := by
      cases hv : isLocalhost addr with
      | true => rfl
      | false => exact absurd ((isLocalhost_false_iff addr).mp hv) hl
    rw [this]
    rfl

theorem nameserverOfLine_comment (lead text : String) (h : Blanks lead) :
    nameserverOfLine (ResolvLine.comment lead text).text = none := by
  have htext : (ResolvLine.comment lead text).text
      = String.mk (lead.data ++ '#' :: text.data) := by
    apply String.ext
    simp [ResolvLine.text, String.data_append]
  obtain ⟨r, hr, _⟩ := trim_head lead.data text.data '#' h (by decide)
  unfold nameserverOfLine
  simp only [htext]
  rw [if_pos (Or.inr (by rw [hr]; rfl))]

theorem nameserverOfLine_blank (lead : String) (h : Blanks lead) :
    nameserverOfLine (ResolvLine.blank lead).text = none := by
  have htext : (ResolvLine.blank lead).text = String.mk lead.data := rfl
  unfold nameserverOfLine
  simp only [htext, trim_blanks lead.data h]
  simp

theorem nameserverOfLine_directive (lead word rest : String)
    (h : (ResolvLine.directive lead word rest).WellFormed) :
    nameserverOfLine (ResolvLine.directive lead word rest).text = none := by
  obtain ⟨hlead, ⟨hne, hword⟩, hnot, _, hrest⟩ := h
  have hdne : word.data ≠ [] := fun e => hne (String.ext e)
  obtain ⟨c, w1, hw1⟩ := List.exists_cons_of_ne_nil hdne
  have hc : ¬ Blank c := (hword c (by rw [hw1]; exact List.mem_cons_self _ _)).1
  have htext : (ResolvLine.directive lead word rest).text
      = String.mk (lead.data ++ c :: (w1 ++ rest.data)) := by
    apply String.ext
    simp [ResolvLine.text, String.data_append, hw1]
  obtain ⟨r, hr, hpre⟩ := trim_head lead.data (w1 ++ rest.data) c hlead hc
  unfold nameserverOfLine
  simp only [htext]
  by_cases h1 : trimSpace (String.mk (lead.data ++ c :: (w1 ++ rest.data))) = "" ∨
      (trimSpace (String.mk (lead.data ++ c :: (w1 ++ rest.data)))).data.head? = some '#'
  · rw [if_pos h1]
  · rw [if_neg h1]
    have h2 : ¬ ((trimSpace (String.mk (lead.data ++ c :: (w1 ++ rest.data)))).data.length > 11 ∧
        (trimSpace (String.mk (lead.data ++ c :: (w1 ++ rest.data)))).data.take 11
          = "nameserver ".data) := by
      intro ⟨_, htake⟩
      have hp : "nameserver ".data <+: word.data ++ rest.data := by
        rw [← htake, hw1, List.cons_append, hr]
        exact (List.take_prefix _ _).trans hpre
      obtain ⟨x, hx⟩ := hp
      have hsplit : ("nameserver " : String).data = "nameserver".data ++ [' '] := rfl
      rw [hsplit, List.append_assoc, List.singleton_append] at hx
      have := word_unique "nameserver".data word.data x rest.data ' ' (by decide)
        (fun c hc => (hword c hc).1) (by decide)
        (fun c r' he => by
          unfold StartsBlank at hrest
          rw [he] at hrest
          exact hrest) hx
      exact hnot (String.ext this.symm)
    rw [if_neg h2]

/-- What the loop of `setupDNS` takes from a line of known shape: the address
of a name server line that is neither loopback nor `localhost`, and nothing
from any other line. -/
theorem nameserverOfLine_text (l : ResolvLine) (h : l.WellFormed) :
    nameserverOfLine l.text =
      l.address.filter (fun addr => decide (¬ LoopbackAddr addr ∧ addr ≠ "localhost")) := by
  cases l with
  | nameserver lead gap addr trail =>
    rw [nameserverOfLine_nameserver lead gap addr trail h]
    by_cases hl : ¬ LoopbackAddr addr ∧ addr ≠ "localhost"
    · simp [ResolvLine.address, Option.filter, hl]
    · rw [if_neg hl]
      simp only [ResolvLine.address, Option.filter]
      rw [if_neg (by simpa using hl)]
  | comment lead text => exact nameserverOfLine_comment lead text h.1
  | blank lead => exact nameserverOfLine_blank lead h
  | directive lead word rest => exact nameserverOfLine_directive lead word rest h

theorem blank_ne_newline (c : Char) (h : Blank c) : c ≠ '\n' := by
  rcases h with h | h | h <;> subst h <;> decide

theorem text_oneLine (l : ResolvLine) (h : l.WellFormed) : ∀ c ∈ l.text.data, c ≠ '\n' := by
  intro c hc
  cases l with
  | nameserver lead gap addr trail =>
    obtain ⟨hlead, hgap, ⟨_, haddr⟩, htrail⟩ := h
    simp only [ResolvLine.text, String.data_append, List.mem_append] at hc
    rcases hc with (((hc | hc) | hc) | hc) | hc
    · exact blank_ne_newline c (hlead c hc)
    · intro e
      subst e
      exact absurd hc (by decide)
    · exact blank_ne_newline c (hgap c hc)
    · exact (haddr c hc).2
    · exact blank_ne_newline c (htrail c hc)
  | comment lead text =>
    obtain ⟨hlead, htext⟩ := h
    simp only [ResolvLine.text, String.data_append, List.mem_append] at hc
    rcases hc with (hc | hc) | hc
    · exact blank_ne_newline c (hlead c hc)
    · intro e
      subst e
      exact absurd hc (by decide)
    · exact htext c hc
  | blank lead => exact blank_ne_newline c (h c hc)
  | directive lead word rest =>
    obtain ⟨hlead, ⟨_, hword⟩, _, hrest, _⟩ := h
    simp only [ResolvLine.text, String.data_append, List.mem_append] at hc
    rcases hc with (hc | hc) | hc
    · exact blank_ne_newline c (hlead c hc)
    · exact (hword c hc).2
    · exact hrest c hc

theorem splitLinesAux_line : ∀ (t current rest : List Char), (∀ c ∈ t, c ≠ '\n') →
    splitLinesAux (t ++ '\n' :: rest) current
      = String.mk (current.reverse ++ t) :: splitLinesAux rest [] := by
  intro t
  induction t with
  | nil =>
    intro current rest _
    simp [splitLinesAux]
  | cons x t ih =>
    intro current rest h
    rw [List.cons_append, splitLinesAux, if_neg (h x (List.mem_cons_self _ _)),
      ih (x :: current) rest (fun c hc => h c (List.mem_cons_of_mem _ hc))]
    simp

theorem splitLinesAux_last : ∀ (t current : List Char), (∀ c ∈ t, c ≠ '\n') →
    splitLinesAux t current
      = if current.reverse ++ t = [] then [] else [String.mk (current.reverse ++ t)] := by
  intro t
  induction t with
  | nil =>
    intro current _
    simp [splitLinesAux]
  | cons x t ih =>
    intro current h
    rw [splitLinesAux, if_neg (h x (List.mem_cons_self _ _)),
      ih (x :: current) (fun c hc => h c (List.mem_cons_of_mem _ hc))]
    simp

/-- The function `splitLines` gives back the lines of a file of known shape;
an empty last line is left out. -/
theorem splitLines_resolvText (last : ResolvLine) (hlast : last.WellFormed) :
    ∀ lines : List ResolvLine, (∀ l ∈ lines, l.WellFormed) →
      splitLines (resolvText lines last)
        = lines.map ResolvLine.text ++ (if last.text = "" then [] else [last.text]) := by
  intro lines
  induction lines with
  | nil =>
    intro _
    unfold splitLines
    rw [resolvText, splitLinesAux_last _ [] (text_oneLine last hlast)]
    by_cases he : last.text = ""
    · simp [he]
    · have : last.text.data ≠ [] := fun e => he (String.ext e)
      simp [he, this]
  | cons l rest ih =>
    intro h
    have hl := h l (List.mem_cons_self _ _)
    have hd : (resolvText (l :: rest) last).data
        = l.text.data ++ '\n' :: (resolvText rest last).data := by
      simp [resolvText, String.data_append]
    unfold splitLines at ih ⊢
    rw [hd, splitLinesAux_line _ [] _ (text_oneLine l hl),
      ih (fun l' hl' => h l' (List.mem_cons_of_mem _ hl'))]
    simp

theorem validNameservers_append (a b : List String) :
    validNameservers (a ++ b) = validNameservers a ++ validNameservers b := by
  induction a with
  | nil => rfl
  | cons x a ih =>
    rw [List.cons_append, validNameservers, validNameservers, ih]
    cases nameserverOfLine x <;> rfl

theorem keptAddresses_cons (l : ResolvLine) (rest : List ResolvLine) :
    keptAddresses (l :: rest) =
      (match l.address.filter
          (fun addr => decide (¬ LoopbackAddr addr ∧ addr ≠ "localhost")) with
        | some a => a :: keptAddresses rest
        | none => keptAddresses rest) := by
  unfold keptAddresses
  cases ha : l.address with
  | none => simp [List.filterMap_cons, ha, Option.filter]
  | some a =>
    simp only [List.filterMap_cons, ha, Option.filter, List.filter_cons]
    split <;> rfl

theorem keptAddresses_append (a b : List ResolvLine) :
    keptAddresses (a ++ b) = keptAddresses a ++ keptAddresses b := by
  unfold keptAddresses
  rw [List.filterMap_append, List.filter_append]

theorem validNameservers_lines :
    ∀ lines : List ResolvLine, (∀ l ∈ lines, l.WellFormed) →
      validNameservers (lines.map ResolvLine.text) = keptAddresses lines := by
  intro lines
  induction lines with
  | nil => intro _; rfl
  | cons l rest ih =>
    intro h
    rw [List.map_cons, validNameservers, keptAddresses_cons,
      nameserverOfLine_text l (h l (List.mem_cons_self _ _)),
      ih (fun l' hl' => h l' (List.mem_cons_of_mem _ hl'))]

theorem validNameservers_resolvText (lines : List ResolvLine) (last : ResolvLine)
    (h : ∀ l ∈ lines ++ [last], l.WellFormed) :
    validNameservers (splitLines (resolvText lines last)) = keptAddresses (lines ++ [last]) := by
  have hlast : last.WellFormed := h last (by simp)
  have hlines : ∀ l ∈ lines, l.WellFormed := fun l hl => h l (by simp [hl])
  rw [splitLines_resolvText last hlast lines hlines, validNameservers_append,
    validNameservers_lines lines hlines, keptAddresses_append]
  congr 1
  have h1 := validNameservers_lines [last] (by simpa using hlast)
  by_cases he : last.text = ""
  · rw [if_pos he, ← h1, List.map_singleton, he]
    rfl
  · rw [if_neg he, ← h1]
    rfl

/-- C16 (counterexample): a name server line with a comment after the address
is carried over with the comment, and a second address on the line, here a
loopback address, is carried over too; the specification describes the lines
`nameserver 1.1.1.1` and `nameserver 10.0.0.1`. -/
theorem dnsContent_carries_rest_of_line :
    dnsContent (some "nameserver 1.1.1.1 # primary\n") = "nameserver 1.1.1.1 # primary\n" ∧
    dnsContent (some "nameserver 1.1.1.1 # primary\n") ≠ "nameserver 1.1.1.1\n" ∧
    dnsContent (some "nameserver 10.0.0.1 127.0.0.1\n") = "nameserver 10.0.0.1 127.0.0.1\n" ∧
    dnsContent (some "nameserver 10.0.0.1 127.0.0.1\n") ≠ "nameserver 10.0.0.1\n" := by
  decide

/-- C16 (amended): when the host file cannot be read the content `setupDNS`
writes is the two public lines. For a readable host file whose lines are each
a name server line made of the word `nameserver`, a space and maybe more
blanks, one address and nothing but blanks around, a comment, a blank line, or
a directive with another first word, the content is exactly one line
`nameserver <addr>` for each name server line whose address is neither a
loopback address (`127.x.x.x`, `::1`) nor the name `localhost`, in the order of
the file, and the two public lines when there is no such line. -/
theorem dnsContent_of_lines (lines : List ResolvLine) (last : ResolvLine)
    (h : ∀ l ∈ lines ++ [last], l.WellFormed) :
    dnsContent none = "nameserver 8.8.8.8\nnameserver 8.8.4.4\n" ∧
    dnsContent (some (resolvText lines last)) = specContent (lines ++ [last]) := by
  refine ⟨rfl, ?_⟩
  unfold dnsContent specContent
  simp only
  rw [validNameservers_resolvText lines last h, foldl_nameserver_lines]
  cases keptAddresses (lines ++ [last]) with
  | nil => simp [publicDNS]
  | cons a l => simp

theorem dnsContent_of_lines_witness :
    (∀ l ∈ sampleResolvLines ++ [sampleResolvLast], l.WellFormed) ∧
    specContent (sampleResolvLines ++ [sampleResolvLast])
      = "nameserver 1.1.1.1\nnameserver 9.9.9.9\n" ∧
    (dnsContent none = "nameserver 8.8.8.8\nnameserver 8.8.4.4\n" ∧
      dnsContent (some (resolvText sampleResolvLines sampleResolvLast))
        = specContent (sampleResolvLines ++ [sampleResolvLast])) :=
  ⟨by decide, by decide, dnsContent_of_lines sampleResolvLines sampleResolvLast (by decide)⟩

end Pulse
